import Mathlib

/-!
# PICO Splat: depth keys, CPU sorting, packed codecs and the sorting state machine

A shallow embedding of the parts of the PICO Splat runtime that the
specification makes claims about.

Conventions of the embedding:

* A C++ `float` is modelled by an exact rational number (`ℚ`): the arithmetic
  operators `+ - * /` are the exact ones, so the rounding error of an individual
  float operation, infinities and NaN are not modelled.  The conversions from
  `float` to an integer type (the `uint16(...)` cast, `std::round`) are modelled
  exactly: truncation toward zero and rounding half away from zero.
* `uint16`, `uint32` and `uint64` values are natural numbers, reduced modulo
  `2 ^ 16`, `2 ^ 32`, `2 ^ 64` where the code can overflow.
* `check(...)` is a fatal assertion: a function that can fail one returns an
  `Option`, and `none` is the failed assertion.
-/

namespace PICO.Splat

/-! ## Engine vector type (`Math/Vector.h`) -/

/-- The engine's `FVector3f`, three float components. -/
structure FVector3f where
  X : ℚ
  Y : ℚ
  Z : ℚ
deriving DecidableEq

namespace FVector3f

/-- Component-wise `operator-`. -/
def sub (a b : FVector3f) : FVector3f := ⟨a.X - b.X, a.Y - b.Y, a.Z - b.Z⟩

/-- Scalar times vector, `Scale * V`. -/
def smul (s : ℚ) (v : FVector3f) : FVector3f := ⟨s * v.X, s * v.Y, s * v.Z⟩

/-- Component-wise `operator/` of two vectors. -/
def div (a b : FVector3f) : FVector3f := ⟨a.X / b.X, a.Y / b.Y, a.Z / b.Z⟩

/-- The dot product `TVector::Dot`: `X * V.X + Y * V.Y + Z * V.Z`. -/
def Dot (a b : FVector3f) : ℚ := a.X * b.X + a.Y * b.Y + a.Z * b.Z

/-- The squared length `TVector::SizeSquared`. -/
def SizeSquared (v : FVector3f) : ℚ := v.X * v.X + v.Y * v.Y + v.Z * v.Z

/-- The engine constant `UE_THRESH_VECTOR_NORMALIZED`, `0.01f`. -/
def THRESH_VECTOR_NORMALIZED : ℚ := 1 / 100

/-- The engine's `TVector::IsNormalized`:
`FMath::Abs(1.f - SizeSquared()) < UE_THRESH_VECTOR_NORMALIZED`. -/
def IsNormalized (v : FVector3f) : Bool :=
  decide (|1 - v.SizeSquared| < THRESH_VECTOR_NORMALIZED)

/-- The engine method `TVector::ComponentMax`. -/
def ComponentMax (a b : FVector3f) : FVector3f := ⟨max a.X b.X, max a.Y b.Y, max a.Z b.Z⟩

/-- The engine method `TVector::ComponentMin`. -/
def ComponentMin (a b : FVector3f) : FVector3f := ⟨min a.X b.X, min a.Y b.Y, min a.Z b.Z⟩

/-- The engine method `TVector::GetMax`, the largest component. -/
def GetMax (v : FVector3f) : ℚ := max (max v.X v.Y) v.Z

/-- The engine method `TVector::GetMin`, the smallest component. -/
def GetMin (v : FVector3f) : ℚ := min (min v.X v.Y) v.Z

end FVector3f

/-! ## Float to integer conversions -/

/-- Truncation toward zero, the value of a C++ float-to-integer conversion. -/
def truncToInt (x : ℚ) : ℤ := if 0 ≤ x then ⌊x⌋ else ⌈x⌉

/-- The cast `uint16(x)` of a float: truncate toward zero, keep the low 16 bits. -/
def toUInt16 (x : ℚ) : Nat := (truncToInt x % 2 ^ 16).toNat

/-- The cast `uint32(x)` of a float: truncate toward zero, keep the low 32 bits. -/
def toUInt32 (x : ℚ) : Nat := (truncToInt x % 2 ^ 32).toNat

/-- The function `std::round`: nearest integer, halfway cases away from zero. -/
def stdRound (x : ℚ) : ℤ := if 0 ≤ x then ⌊x + 1 / 2⌋ else ⌈x - 1 / 2⌉

/-! ## `FIndexedDistance` (`PackedTypes.h`) -/

/-- The constant `SplatConstants.h: MetersToCentimeters`. -/
def MetersToCentimeters : ℚ := 100

/-- An (Index, Distance) pair: `uint32 Index; uint16 Distance`. -/
structure FIndexedDistance where
  Index : Nat
  Distance : Nat
deriving DecidableEq, Repr

namespace FIndexedDistance

/-- The constant `static constexpr uint16 MAX_DISTANCE = 0xFFFE`. -/
def MAX_DISTANCE : Nat := 0xFFFE

/-- The constant `static constexpr float NEAR_CLIP_CM = 10.f`. -/
def NEAR_CLIP_CM : ℚ := 10

/-- The constant `static constexpr uint16 NOT_VISIBLE = 0xFFFF`. -/
def NOT_VISIBLE : Nat := 0xFFFF

/-- The value assigned to `Distance` for a view-space depth `Z`:
`(Z >= NEAR_CLIP_CM) ? uint16(NEAR_CLIP_CM / Z * MAX_DISTANCE) : NOT_VISIBLE`. -/
def DistanceOf (Z : ℚ) : Nat :=
  if Z ≥ NEAR_CLIP_CM then toUInt16 (NEAR_CLIP_CM / Z * (MAX_DISTANCE : ℚ)) else NOT_VISIBLE

/-- The view-space depth computed by the constructor:
`DeltaPositionCM = PositionCM - OriginCM; Z = DeltaPositionCM.Dot(Forward)`. -/
def ViewZ (OriginCM Forward PositionCM : FVector3f) : ℚ :=
  (PositionCM.sub OriginCM).Dot Forward

/-- The constructor `FIndexedDistance(InIndex, OriginCM, Forward, PositionCM)`.
It is `none` when `check(Forward.IsNormalized())` fails. -/
def create (InIndex : Nat) (OriginCM Forward PositionCM : FVector3f) :
    Option FIndexedDistance :=
  if Forward.IsNormalized then
    some ⟨InIndex, DistanceOf (ViewZ OriginCM Forward PositionCM)⟩
  else
    none

/-- The comparison `operator<`: `Distance < ID.Distance`. -/
def lt (a b : FIndexedDistance) : Bool := decide (a.Distance < b.Distance)

/-- The predicate `IsMaybeVisible`: `ID.Distance != NOT_VISIBLE`. -/
def IsMaybeVisible (ID : FIndexedDistance) : Bool := ID.Distance != NOT_VISIBLE

end FIndexedDistance

/-! ## Engine matrix type (`Math/Matrix.h`) -/

/-- The engine's `FMatrix44f`; `M i j` is the entry `M[i][j]`, and `*` is the
engine's `operator*`, the usual matrix product. -/
abbrev FMatrix44f := Matrix (Fin 4) (Fin 4) ℚ

/-- The engine's `TMatrix::TransformPosition` followed by the conversion of the
resulting `FVector4f` to `FVector3f`: the row vector `(V.X, V.Y, V.Z, 1)` times the
matrix, without its `W` component. -/
def TransformPosition (M : FMatrix44f) (V : FVector3f) : FVector3f :=
  ⟨V.X * M 0 0 + V.Y * M 1 0 + V.Z * M 2 0 + 1 * M 3 0,
   V.X * M 0 1 + V.Y * M 1 1 + V.Z * M 2 1 + 1 * M 3 1,
   V.X * M 0 2 + V.Y * M 1 2 + V.Z * M 2 2 + 1 * M 3 2⟩

/-- The engine's `FQuat4f`. -/
structure FQuat4f where
  X : ℚ
  Y : ℚ
  Z : ℚ
  W : ℚ

/-- The engine's `FRotationMatrix44f::Make(Quat)`, that is
`TQuatRotationTranslationMatrix(Quat, ZeroVector)`. -/
def FRotationMatrix44f_Make (Q : FQuat4f) : FMatrix44f :=
  let x2 := Q.X + Q.X
  let y2 := Q.Y + Q.Y
  let z2 := Q.Z + Q.Z
  let xx := Q.X * x2
  let xy := Q.X * y2
  let xz := Q.X * z2
  let yy := Q.Y * y2
  let yz := Q.Y * z2
  let zz := Q.Z * z2
  let wx := Q.W * x2
  let wy := Q.W * y2
  let wz := Q.W * z2
  Matrix.of ![![1 - (yy + zz), xy + wz, xz - wy, 0],
              ![xy - wz, 1 - (xx + zz), yz + wx, 0],
              ![xz + wy, yz - wx, 1 - (xx + yy), 0],
              ![0, 0, 0, 1]]

/-- The engine's `FScaleMatrix44f::Make(Scale)`: the diagonal matrix
`diag(Scale.X, Scale.Y, Scale.Z, 1)`. -/
def FScaleMatrix44f_Make (Scale : FVector3f) : FMatrix44f :=
  Matrix.of ![![Scale.X, 0, 0, 0],
              ![0, Scale.Y, 0, 0],
              ![0, 0, Scale.Z, 0],
              ![0, 0, 0, 1]]

/-! ## The sort phase of `FCPUSortingTask::DoWork` (`CPUSorting.cpp`) -/

/-- The position handed to the key constructor in the loop of `DoWork`:
`FVector3f(Transform.TransformPosition(MetersToCentimeters * PositionsM[Index]))`. -/
def PositionWorldCM (Transform : FMatrix44f) (PositionM : FVector3f) : FVector3f :=
  TransformPosition Transform (FVector3f.smul MetersToCentimeters PositionM)

/-- The loop `for (Index = 0; Index < PositionsM.Num(); ++Index) Begin[Index] = ...`
of `DoWork`, started at `Index` with the remaining positions.  `Data` is the scratch
array `DataCPU`.  The result is `none` when a key constructor fails its assertion, and
also when `Index` is outside the scratch array (such a write is undefined behaviour). -/
def WriteKeys (Transform : FMatrix44f) (OriginCM Forward : FVector3f) :
    List FVector3f → Nat → List FIndexedDistance → Option (List FIndexedDistance)
  | [], _, Data => some Data
  | P :: Rest, Index, Data =>
    if Index < Data.length then
      match FIndexedDistance.create Index OriginCM Forward (PositionWorldCM Transform P) with
      | some Key => WriteKeys Transform OriginCM Forward Rest (Index + 1) (Data.set Index Key)
      | none => none
    else
      none

/-- The algorithm `std::partition` for bidirectional iterators on the range `Mid`
(the two-pointer scheme of the standard libraries): advance `first` over elements that
satisfy `Pred`, move `last` back over elements that do not, swap the two elements the
pointers stopped at, repeat.  The result is the pair of the range before the returned
iterator and the range from it on.  `Fuel` bounds the number of rounds of the outer
loop; `Mid.length` rounds are always enough. -/
def PartitionLoop {α : Type} (Pred : α → Bool) : Nat → List α → List α × List α
  | 0, Mid => ([], Mid)
  | _ + 1, [] => ([], [])
  | Fuel + 1, x :: Rest =>
    if Pred x then
      ((x :: (PartitionLoop Pred Fuel Rest).1), (PartitionLoop Pred Fuel Rest).2)
    else
      let Keep := Rest.rdropWhile (fun e => !Pred e)
      let Tail := Rest.rtakeWhile (fun e => !Pred e)
      match Keep.getLast? with
      | none => ([], x :: Rest)
      | some y =>
        ((y :: (PartitionLoop Pred Fuel Keep.dropLast).1),
         (PartitionLoop Pred Fuel Keep.dropLast).2 ++ x :: Tail)

/-- The call `std::partition(Begin, End, Pred)` on a buffer: the elements before the
returned iterator and the elements from it on. -/
def StdPartition {α : Type} (Pred : α → Bool) (Data : List α) : List α × List α :=
  PartitionLoop Pred Data.length Data

/-- The order `std::sort` establishes with `operator<`: `b` is not less than `a`. -/
def FIndexedDistance.NotAfter (a b : FIndexedDistance) : Prop := FIndexedDistance.lt b a = false

instance : DecidableRel FIndexedDistance.NotAfter :=
  fun a b => inferInstanceAs (Decidable (FIndexedDistance.lt b a = false))

instance : IsTotal FIndexedDistance FIndexedDistance.NotAfter :=
  ⟨fun a b => by
    unfold FIndexedDistance.NotAfter FIndexedDistance.lt
    simp only [decide_eq_false_iff_not, not_lt]
    exact Nat.le_total a.Distance b.Distance⟩

instance : IsTrans FIndexedDistance FIndexedDistance.NotAfter :=
  ⟨fun a b c => by
    unfold FIndexedDistance.NotAfter FIndexedDistance.lt
    simp only [decide_eq_false_iff_not, not_lt]
    exact fun h1 h2 => Nat.le_trans h1 h2⟩

/-- The call `std::sort(Begin, End)` with `FIndexedDistance::operator<`, as an
insertion sort (the algorithm the standard libraries use on short ranges). -/
def StdSort (Data : List FIndexedDistance) : List FIndexedDistance :=
  Data.insertionSort FIndexedDistance.NotAfter

/-- The steps of `DoWork` up to and including `std::partition`: the keys are written
into the scratch array `DataCPU`, which is then partitioned by `IsMaybeVisible`.  The
result is the pair of the ranges `[Begin, End)` and `[End, Begin + DataCPU.Num())`
for the `End` returned by `std::partition`. -/
def DoWork_Partition (Transform : FMatrix44f) (OriginCM Forward : FVector3f)
    (PositionsM : List FVector3f) (DataCPU : List FIndexedDistance) :
    Option (List FIndexedDistance × List FIndexedDistance) :=
  match WriteKeys Transform OriginCM Forward PositionsM 0 DataCPU with
  | some Data => some (StdPartition FIndexedDistance.IsMaybeVisible Data)
  | none => none

/-- The steps of `DoWork` up to and including `std::sort(Begin, End)`: the visible
prefix is sorted, the rest of the scratch array is left as `std::partition` left it. -/
def DoWork_Sort (Transform : FMatrix44f) (OriginCM Forward : FVector3f)
    (PositionsM : List FVector3f) (DataCPU : List FIndexedDistance) :
    Option (List FIndexedDistance × List FIndexedDistance) :=
  match DoWork_Partition Transform OriginCM Forward PositionsM DataCPU with
  | some (Visible, Hidden) => some (StdSort Visible, Hidden)
  | none => none

/-- The key the loop of `DoWork` stores for the position `PositionM` at `Index`, when
the forward vector passes the constructor's assertion. -/
def KeyAt (Transform : FMatrix44f) (OriginCM Forward : FVector3f) (Index : Nat)
    (PositionM : FVector3f) : FIndexedDistance :=
  ⟨Index, FIndexedDistance.DistanceOf
    (FIndexedDistance.ViewZ OriginCM Forward (PositionWorldCM Transform PositionM))⟩

/-- The keys of a list of positions whose first element has index `Index`. -/
def KeysFrom (Transform : FMatrix44f) (OriginCM Forward : FVector3f) :
    List FVector3f → Nat → List FIndexedDistance
  | [], _ => []
  | P :: Rest, Index =>
    KeyAt Transform OriginCM Forward Index P :: KeysFrom Transform OriginCM Forward Rest (Index + 1)

/-- The view of the end-to-end scenario: the origin. -/
def ScenarioOriginCM : FVector3f := ⟨0, 0, 0⟩

/-- The view of the end-to-end scenario: looking along the X axis. -/
def ScenarioForward : FVector3f := ⟨1, 0, 0⟩

/-- The positions of the end-to-end scenario, in metres: with the identity transform
they are at view-space depths 5, 50 and 500 centimetres. -/
def ScenarioPositionsM : List FVector3f := [⟨5 / 100, 0, 0⟩, ⟨50 / 100, 0, 0⟩, ⟨5, 0, 0⟩]

/-- A scratch array of three entries, holding what an earlier cycle left. -/
def ScenarioDataCPU : List FIndexedDistance := [⟨0, 0⟩, ⟨0, 0⟩, ⟨0, 0⟩]

/-! ## `ToUNorm` and `FPackedPos` (`PackedTypes.h`) -/

/-- The template `ToUNorm<Bits>(F)`. -/
def ToUNorm (Bits : Nat) (F : ℚ) : Nat :=
  let MaxValue : Nat := ((1 <<< Bits) - 1) % 2 ^ 32
  if F = 0 then 0
  else if F > 1 then MaxValue
  else toUInt32 ((stdRound (F * (MaxValue : ℚ)) : ℤ) : ℚ)

/-- A packed position, `uint32 Packed`. -/
structure FPackedPos where
  Packed : Nat
deriving DecidableEq, Repr

namespace FPackedPos

/-- The constructor `FPackedPos(float X, float Y, float Z)`. -/
def create (X Y Z : ℚ) : FPackedPos :=
  let XPacked := ToUNorm 11 X
  let YPacked := ToUNorm 11 Y
  let ZPacked := ToUNorm 10 Z
  ⟨((ZPacked <<< 22) % 2 ^ 32) ||| ((YPacked <<< 11) % 2 ^ 32) ||| XPacked⟩

/-- The constructor `FPackedPos(const FVector3f& V)`. -/
def ofVector (V : FVector3f) : FPackedPos := create V.X V.Y V.Z

/-- The constant `MAX_UNORM_10 = 0x3FF`. -/
def MAX_UNORM_10 : Nat := 0x3FF

/-- The constant `MAX_UNORM_11 = 0x7FF`. -/
def MAX_UNORM_11 : Nat := 0x7FF

/-- The constant `MAX`: `(MAX_UNORM_11, MAX_UNORM_11, MAX_UNORM_10)`. -/
def MAX : FVector3f := ⟨(MAX_UNORM_11 : ℚ), (MAX_UNORM_11 : ℚ), (MAX_UNORM_10 : ℚ)⟩

/-- The X field of the documented format: 11 bits starting at bit 0. -/
def FieldX (P : FPackedPos) : Nat := P.Packed &&& 0x7FF

/-- The Y field of the documented format: 11 bits starting at bit 11. -/
def FieldY (P : FPackedPos) : Nat := (P.Packed >>> 11) &&& 0x7FF

/-- The Z field of the documented format: 10 bits starting at bit 22. -/
def FieldZ (P : FPackedPos) : Nat := (P.Packed >>> 22) &&& 0x3FF

end FPackedPos

/-! ## `USplatAsset::SetPositionsMetersInternal` (`SplatAsset.cpp`) -/

/-- The value `std::numeric_limits<float>::max()`. -/
def FLT_MAX : ℚ := (2 ^ 24 - 1) * 2 ^ 104

/-- The value `std::numeric_limits<float>::lowest()`. -/
def FLT_LOWEST : ℚ := -FLT_MAX

/-- The members of `USplatAsset` written by `SetPositionsMetersInternal`. -/
structure FPackedPositions where
  PosScaleCM : FVector3f
  PosMaxCM : FVector3f
  PosMinCM : FVector3f
  Positions : List FPackedPos

/-- The component-wise maximum found by the first loop, starting from `lowest()`. -/
def BoundsMax (PositionsMeters : List FVector3f) : FVector3f :=
  PositionsMeters.foldl (fun Acc PosM => Acc.ComponentMax PosM)
    ⟨FLT_LOWEST, FLT_LOWEST, FLT_LOWEST⟩

/-- The component-wise minimum found by the first loop, starting from `max()`. -/
def BoundsMin (PositionsMeters : List FVector3f) : FVector3f :=
  PositionsMeters.foldl (fun Acc PosM => Acc.ComponentMin PosM)
    ⟨FLT_MAX, FLT_MAX, FLT_MAX⟩

/-- The decoding that the round-trip property of packed positions names:
`PosMinCM + PosScaleCM * (qx, qy, qz)`, in centimetres, where `qx`, `qy` and `qz` are the
three unsigned fields of the packed word in the format documented on `FPackedPos`. -/
def DecodePosition (A : FPackedPositions) (P : FPackedPos) : FVector3f :=
  ⟨A.PosMinCM.X + A.PosScaleCM.X * (P.FieldX : ℚ),
   A.PosMinCM.Y + A.PosScaleCM.Y * (P.FieldY : ℚ),
   A.PosMinCM.Z + A.PosScaleCM.Z * (P.FieldZ : ℚ)⟩

/-- A float value that is finite: between `lowest()` and `max()`. -/
def IsFiniteFloat (x : ℚ) : Prop := FLT_LOWEST ≤ x ∧ x ≤ FLT_MAX

/-- A vector whose three components are finite floats. -/
def FVector3f.IsFinite (v : FVector3f) : Prop :=
  IsFiniteFloat v.X ∧ IsFiniteFloat v.Y ∧ IsFiniteFloat v.Z

/-- The extent of the bounding box in metres, `PosMaxM - PosMinM`. -/
def Extent (PositionsMeters : List FVector3f) : FVector3f :=
  (BoundsMax PositionsMeters).sub (BoundsMin PositionsMeters)

/-- The box from `Lo` to `Hi` is the bounding box of the positions: every position
lies in it, and on each axis both ends are attained by some position. -/
def IsBoundingBox (PositionsMeters : List FVector3f) (Lo Hi : FVector3f) : Prop :=
  (∀ p ∈ PositionsMeters,
    (Lo.X ≤ p.X ∧ p.X ≤ Hi.X) ∧ (Lo.Y ≤ p.Y ∧ p.Y ≤ Hi.Y) ∧ (Lo.Z ≤ p.Z ∧ p.Z ≤ Hi.Z)) ∧
  (∃ p ∈ PositionsMeters, p.X = Lo.X) ∧ (∃ p ∈ PositionsMeters, p.Y = Lo.Y) ∧
  (∃ p ∈ PositionsMeters, p.Z = Lo.Z) ∧ (∃ p ∈ PositionsMeters, p.X = Hi.X) ∧
  (∃ p ∈ PositionsMeters, p.Y = Hi.Y) ∧ (∃ p ∈ PositionsMeters, p.Z = Hi.Z)

/-! ## `ToFloat` and `FPackedCovMat` (`PackedTypes.h`) -/

/-- The template `ToFloat<Signed, ExpBits, SigBits>(F)`.  The argument is the float
given by its IEEE-754 binary32 bit pattern `Raw` (what the code reads through
`reinterpret_cast`); `F == 0.f` holds for the two zeros, `+0` and `-0`.  The constants
of `TFloatPacker<ExpBits, SigBits, false>` and `FFloatInfo_IEEE32` are the engine's. -/
def ToFloat (Signed ExpBits SigBits : Nat) (Raw : Nat) : Nat :=
  if Raw % 2 ^ 31 = 0 then 0
  else
    let PackerExponentBias : ℤ := (1 <<< (ExpBits - 1) : Nat) - 1
    let PackerExponentMask : Nat := ((1 <<< ExpBits) - 1) <<< SigBits
    let PackerMantissaMask : Nat := (1 <<< SigBits) - 1
    let PackerSignMask : Nat := 1 <<< (ExpBits + SigBits)
    let Exponent0 : ℤ := (((Raw &&& 0x7F800000) >>> 23 : Nat) : ℤ) - 127
    let Exponent1 : ℤ := max (-PackerExponentBias + 1) (min Exponent0 PackerExponentBias)
    let Exponent2 : ℤ := Exponent1 + PackerExponentBias
    let Exponent : Nat := ((Exponent2 * 2 ^ SigBits) % 2 ^ 32).toNat &&& PackerExponentMask
    let Significand : Nat := ((Raw &&& 0x007FFFFF) >>> (23 - SigBits)) &&& PackerMantissaMask
    if Signed = 1 then
      let Sign : Nat := ((Raw &&& 0x80000000) >>> (31 - ExpBits - SigBits)) &&& PackerSignMask
      Sign ||| Exponent ||| Significand
    else
      Exponent ||| Significand

/-- A packed covariance matrix, `uint64 Packed`. -/
structure FPackedCovMat where
  Packed : Nat
deriving DecidableEq, Repr

namespace FPackedCovMat

/-- The constructor `FPackedCovMat(const FMatrix44f& Sigma)`; `Sigma i j` is the bit
pattern of the float `Sigma.M[i][j]`.  The first three fields are `uint64`, the last
three `uint32`, and each shift is taken in the type of its operand. -/
def create (Sigma : Fin 4 → Fin 4 → Nat) : FPackedCovMat :=
  let XXPacked := ToFloat 0 5 5 (Sigma 0 0)
  let XYPacked := ToFloat 1 5 5 (Sigma 0 1)
  let XZPacked := ToFloat 1 5 5 (Sigma 0 2)
  let YYPacked := ToFloat 0 5 5 (Sigma 1 1)
  let YZPacked := ToFloat 1 5 5 (Sigma 1 2)
  let ZZPacked := ToFloat 0 5 6 (Sigma 2 2)
  ⟨((XXPacked <<< 54) % 2 ^ 64) ||| ((XYPacked <<< 43) % 2 ^ 64) |||
    ((XZPacked <<< 32) % 2 ^ 64) ||| ((YYPacked <<< 22) % 2 ^ 32) |||
    ((YZPacked <<< 11) % 2 ^ 32) ||| ZZPacked⟩

/-- The XX field of the documented format: 10 bits starting at bit 54. -/
def FieldXX (C : FPackedCovMat) : Nat := (C.Packed >>> 54) &&& 0x3FF

/-- The YY field of the documented format: 10 bits starting at bit 22. -/
def FieldYY (C : FPackedCovMat) : Nat := (C.Packed >>> 22) &&& 0x3FF

/-- The ZZ field of the documented format: 11 bits starting at bit 0. -/
def FieldZZ (C : FPackedCovMat) : Nat := C.Packed &&& 0x7FF

end FPackedCovMat

/-- Modelled from the spec: the decoder of the reduced-precision floats is in the
shaders, which are not among the sources.  An unsigned float with `ExpBits` exponent
bits (bias `2 ^ (ExpBits - 1) - 1`) and `SigBits` significand bits, in the small-float
format the code refers to: exponent field `0` is zero or a denormal, the all-ones
exponent field is an infinity or a NaN (`none`), every other field is
`2 ^ (E - bias) * (1 + M / 2 ^ SigBits)`. -/
def DecodeUFloat (ExpBits SigBits : Nat) (Field : Nat) : Option ℚ :=
  let E : Nat := (Field >>> SigBits) % 2 ^ ExpBits
  let M : Nat := Field % 2 ^ SigBits
  let Bias : ℤ := 2 ^ (ExpBits - 1) - 1
  if E = 2 ^ ExpBits - 1 then none
  else if E = 0 then some ((2 : ℚ) ^ (1 - Bias) * ((M : ℚ) / 2 ^ SigBits))
  else some ((2 : ℚ) ^ ((E : ℤ) - Bias) * (1 + (M : ℚ) / 2 ^ SigBits))

/-! ## `USplatAsset::SetCovariancesQuatScaleMeters` (`SplatAsset.cpp`) -/

/-- The covariance matrix built for one splat:
`R.GetTransposed() * S * S * R` with `R = FRotationMatrix44f::Make(Rotation)` and
`S = FScaleMatrix44f::Make(MetersToCentimeters * ScaleMeters)`. -/
def CovarianceMatrix (Rotation : FQuat4f) (ScaleMeters : FVector3f) : FMatrix44f :=
  let R := FRotationMatrix44f_Make Rotation
  let S := FScaleMatrix44f_Make (FVector3f.smul MetersToCentimeters ScaleMeters)
  R.transpose * S * S * R

/-- The method `USplatAsset::SetCovariancesQuatScaleMeters`; `none` is a failed
`check`.  `FloatBits` gives the binary32 bit pattern under which a float value is
stored; nothing is assumed about it. -/
def SetCovariancesQuatScaleMeters (FloatBits : ℚ → Nat) (NumSplats : Nat)
    (Rotations : List FQuat4f) (ScalesMeters : List FVector3f) : Option (List FPackedCovMat) :=
  if Rotations.length ≠ NumSplats then none
  else if ScalesMeters.length ≠ NumSplats then none
  else
    some ((List.zip Rotations ScalesMeters).map
      (fun RS => FPackedCovMat.create (fun i j => FloatBits (CovarianceMatrix RS.1 RS.2 i j))))

/-! ## `FMultithreadedSortingBuffers` (`CPUSorting.h`) -/

/-- The enumeration `ESortingState`. -/
inductive ESortingState where
  | Ready
  | InProgress
  | TearDown
deriving DecidableEq, Repr

/-- The two GPU-visible buffers `IdxDistA` and `IdxDistB`, as targets of the pointers
`CopyDst` and `DrawSrc`. -/
inductive EBuffer where
  | IdxDistA
  | IdxDistB
deriving DecidableEq, Repr

/-- The RHI references an `FSplatCPUToGPUBuffer` holds (members of the engine's
`FVertexBufferWithSRV`): for each, whether it is non-null. -/
structure FSplatCPUToGPUBuffer where
  VertexBufferRHI : Bool
  ShaderResourceViewRHI : Bool
deriving DecidableEq, Repr

namespace FSplatCPUToGPUBuffer

/-- The constructor `FSplatCPUToGPUBuffer(NumSplats, InFormat)`: no RHI resource yet. -/
def create : FSplatCPUToGPUBuffer := ⟨false, false⟩

/-- The method `FSplatBufferBase::InitRHI`: the buffer and its view are created (both
creations are taken to succeed, so its two assertions hold). -/
def InitRHI (_ : FSplatCPUToGPUBuffer) : FSplatCPUToGPUBuffer := ⟨true, true⟩

/-- The engine's `FRenderResource::ReleaseResource`, taken as what its name says: the
RHI references of the buffer are released. -/
def ReleaseResource (_ : FSplatCPUToGPUBuffer) : FSplatCPUToGPUBuffer := ⟨false, false⟩

/-- The state `std::move` leaves the source buffer in: its references are null. -/
def MovedFrom : FSplatCPUToGPUBuffer := ⟨false, false⟩

end FSplatCPUToGPUBuffer

/-- The data members of `FMultithreadedSortingBuffers`; a null pointer is `none`. -/
structure FMultithreadedSortingBuffers where
  IdxDistA : FSplatCPUToGPUBuffer
  IdxDistB : FSplatCPUToGPUBuffer
  CopyDst : Option EBuffer
  DrawSrc : Option EBuffer
  DataCPU : List FIndexedDistance
  CurrentState : ESortingState
  bCopyInProgress : Bool
deriving DecidableEq, Repr

/-- The operation `std::atomic::compare_exchange_strong(Expected, Desired)` on a value
`Current`: the result is the success flag, the new value of the atomic and the new value
of `Expected`. -/
def compare_exchange_strong (Current Expected Desired : ESortingState) :
    Bool × ESortingState × ESortingState :=
  if Current = Expected then (true, Desired, Expected) else (false, Current, Current)

namespace FMultithreadedSortingBuffers

/-- The constructor `FMultithreadedSortingBuffers(NumSplats)`; the uninitialised
entries of `DataCPU` are taken from `Uninitialized`. -/
def create (Uninitialized : List FIndexedDistance) : FMultithreadedSortingBuffers :=
  { IdxDistA := FSplatCPUToGPUBuffer.create
    IdxDistB := FSplatCPUToGPUBuffer.create
    CopyDst := none
    DrawSrc := none
    DataCPU := Uninitialized
    CurrentState := ESortingState.Ready
    bCopyInProgress := false }

/-- The method `BeginSorting`; `none` is the failed `check(bSuccess)`. -/
def BeginSorting (B : FMultithreadedSortingBuffers) : Option FMultithreadedSortingBuffers :=
  let R := compare_exchange_strong B.CurrentState ESortingState.Ready ESortingState.InProgress
  if R.1 then some { B with CurrentState := R.2.1 } else none

/-- The method `EndSorting`: the returned flag and the new state; `none` is the failed
`check(ExpectedState == ESortingState::TearDown)`. -/
def EndSorting (B : FMultithreadedSortingBuffers) :
    Option (Bool × FMultithreadedSortingBuffers) :=
  let R := compare_exchange_strong B.CurrentState ESortingState.InProgress ESortingState.Ready
  if !R.1 then
    if R.2.2 = ESortingState.TearDown then some (true, { B with CurrentState := R.2.1 })
    else none
  else
    some (false, { B with CurrentState := R.2.1 })

/-- The buffer a role pointer points at. -/
def Buffer (B : FMultithreadedSortingBuffers) : EBuffer → FSplatCPUToGPUBuffer
  | EBuffer.IdxDistA => B.IdxDistA
  | EBuffer.IdxDistB => B.IdxDistB

/-- The method `InitResources_RenderThread`; `bIsInRenderingThread` is what the engine's
`IsInRenderingThread()` returns for the calling thread, `none` is the failed `check`. -/
def InitResources_RenderThread (bIsInRenderingThread : Bool)
    (B : FMultithreadedSortingBuffers) : Option FMultithreadedSortingBuffers :=
  if bIsInRenderingThread then
    some { B with IdxDistA := B.IdxDistA.InitRHI, IdxDistB := B.IdxDistB.InitRHI }
  else none

end FMultithreadedSortingBuffers

/-- A command on the render command queue (`ENQUEUE_RENDER_COMMAND`): the copy enqueued by
`EnqueueCopy`, with the destination buffer and the byte count it captured, or the
release enqueued by `DeferredRelease`, with the two buffers moved into it. -/
inductive ERenderCommand where
  | CopyIndices (DstBuffer : EBuffer) (Size : Nat)
  | DestroyCPUSortingResources (IdxDistA IdxDistB : FSplatCPUToGPUBuffer)
deriving DecidableEq, Repr

/-- What one call of `ReleaseResources` did: the buffers after the call, the render
commands it enqueued, and whether it ran `IdxDistA.ReleaseResource();
IdxDistB.ReleaseResource();` itself. -/
structure FReleaseResult where
  Buffers : FMultithreadedSortingBuffers
  Enqueued : List ERenderCommand
  bReleasedHere : Bool
deriving DecidableEq, Repr

/-- The number of times a call of `ReleaseResources` releases the pair of GPU buffers:
once if it released them itself, and once for every release it enqueued. -/
def FReleaseResult.NumReleases (R : FReleaseResult) : Nat :=
  (if R.bReleasedHere then 1 else 0) + R.Enqueued.length

/-- What `BeginCopy` hands back through its reference parameters: the destination buffer
(`CopyDst->VertexBufferRHI`), the source as an index into `DataCPU` (`&DataCPU[0]`), and
the number of bytes. -/
structure FCopyRequest where
  DstBuffer : EBuffer
  Src : Nat
  Size : Nat
deriving DecidableEq, Repr

namespace FMultithreadedSortingBuffers

/-- The lambda `DeferredRelease` of `ReleaseResources`: both buffers are moved into a
render command that releases them when the render thread reaches it. -/
def DeferredRelease (B : FMultithreadedSortingBuffers) : FReleaseResult :=
  { Buffers := { B with IdxDistA := FSplatCPUToGPUBuffer.MovedFrom,
                        IdxDistB := FSplatCPUToGPUBuffer.MovedFrom }
    Enqueued := [ERenderCommand.DestroyCPUSortingResources B.IdxDistA B.IdxDistB]
    bReleasedHere := false }

/-- The method `ReleaseResources`, called from a thread for which `IsInRenderingThread()`
returns `bIsInRenderingThread`; `none` is a failed `check`. -/
def ReleaseResources (bIsInRenderingThread : Bool) (B : FMultithreadedSortingBuffers) :
    Option FReleaseResult :=
  let PreviousState := B.CurrentState
  let B1 := { B with CurrentState := ESortingState.TearDown }
  match PreviousState with
  | ESortingState.Ready =>
    if !bIsInRenderingThread then none
    else if B1.bCopyInProgress then some (DeferredRelease B1)
    else
      some { Buffers := { B1 with IdxDistA := B1.IdxDistA.ReleaseResource,
                                  IdxDistB := B1.IdxDistB.ReleaseResource }
             Enqueued := []
             bReleasedHere := true }
  | ESortingState.InProgress =>
    if !bIsInRenderingThread then none
    else some { Buffers := B1, Enqueued := [], bReleasedHere := false }
  | ESortingState.TearDown =>
    if bIsInRenderingThread then none
    else some (DeferredRelease B1)

/-- The method `IsGPUBufferReady`: `DrawSrc != nullptr`. -/
def IsGPUBufferReady (B : FMultithreadedSortingBuffers) : Bool := B.DrawSrc.isSome

/-- The method `GetIndicesSRV`, as the buffer whose view is returned; `none` is a failed
`check`. -/
def GetIndicesSRV (B : FMultithreadedSortingBuffers) : Option EBuffer :=
  match B.DrawSrc with
  | none => none
  | some D => if (B.Buffer D).ShaderResourceViewRHI then some D else none

/-- The method `IsReadyForSorting`; `none` is the failed
`check(State != ESortingState::TearDown)`. -/
def IsReadyForSorting (B : FMultithreadedSortingBuffers) : Option Bool :=
  if B.CurrentState = ESortingState.TearDown then none
  else some (decide (B.CurrentState = ESortingState.Ready))

/-- The method `BeginCopy`: the buffers after the call and the values handed back;
`none` is a failed `check`, including the range check of `DataCPU[0]` on an empty
array.  `Size` is a `uint32`. -/
def BeginCopy (B : FMultithreadedSortingBuffers) :
    Option (FMultithreadedSortingBuffers × FCopyRequest) :=
  let bAlreadyCopying := B.bCopyInProgress
  let B1 := { B with bCopyInProgress := true }
  if bAlreadyCopying then none
  else if B1.CurrentState = ESortingState.Ready then none
  else
    match B1.CopyDst with
    | none => none
    | some D =>
      if !(B1.Buffer D).VertexBufferRHI then none
      else if B1.DataCPU.length = 0 then none
      else some (B1, { DstBuffer := D, Src := 0, Size := (B1.DataCPU.length * 8) % 2 ^ 32 })

/-- The method `EndCopy`; `none` is the failed `check(bCopying)`. -/
def EndCopy (B : FMultithreadedSortingBuffers) : Option FMultithreadedSortingBuffers :=
  if B.bCopyInProgress then some { B with bCopyInProgress := false } else none

/-- The method `WaitCopy`: the buffers after the call and the range `[Begin, End)` of
the scratch array, as indices into `DataCPU`.  While a copy is in progress the call
waits and does not return: that is `none`, as is the failed range check of `DataCPU[0]`
on an empty array. -/
def WaitCopy (B : FMultithreadedSortingBuffers) :
    Option (FMultithreadedSortingBuffers × Nat × Nat) :=
  if B.bCopyInProgress then none
  else
    let DrawSrc1 : Option EBuffer :=
      match B.DrawSrc with
      | none => if B.CopyDst.isSome then some EBuffer.IdxDistB else some EBuffer.IdxDistA
      | some D => some D
    let B1 := { B with CopyDst := DrawSrc1, DrawSrc := B.CopyDst }
    if B1.DataCPU.length = 0 then none
    else some (B1, 0, B1.DataCPU.length)

end FMultithreadedSortingBuffers

/-! ## The sorting protocol: the task, the render thread and the owner -/

/-- How far the one sorting task (`FCPUSortingTask`) has got: `Constructed` after its
constructor called `BeginSorting`, `Writing` after `DoWork` returned from `WaitCopy`
(it computes, partitions and sorts the keys in the scratch array), `CopyEnqueued` after
`EnqueueCopy`, `MustRelease` after `EndSorting` returned true, and `NoTask` when no task
is in flight. -/
inductive ETaskPhase where
  | NoTask
  | Constructed
  | Writing
  | CopyEnqueued
  | MustRelease
deriving DecidableEq, Repr

/-- The caller of a `ReleaseResources` that released the GPU buffers or enqueued their
release: the owning proxy (`DestroyRenderThreadResources`) or the sorting task. -/
inductive EReleaser where
  | Owner
  | Task
deriving DecidableEq, Repr

/-- The sorting buffers together with their environment: the render command queue
(oldest command first), the phase of the sorting task, and three records of what has
happened: the destinations of the copies that have completed, who released the GPU
buffers, how many times the pair of buffers actually was released, and the state the
owner's `ReleaseResources` found (once it has been called). -/
structure FSortingSystem where
  Buffers : FMultithreadedSortingBuffers
  Queue : List ERenderCommand
  Task : ETaskPhase
  CopiedInto : List EBuffer
  Releases : List EReleaser
  NumReleased : Nat
  OwnerFound : Option ESortingState
deriving DecidableEq, Repr

/-- The steps of the protocol.  On the render thread: `TryEnqueueSort` (the proxy starts
a task if `IsReadyForSorting()`), `RenderCommand` (the oldest command of the queue runs)
and `OwnerReleaseResources` (the proxy's `DestroyRenderThreadResources`).  On the task
thread, in the order of `DoWork`: `TaskWaitCopy`, `TaskWrite` (the scratch array is
overwritten with new keys), `TaskEnqueueCopy`, `TaskEndSorting` and, when that
returned true, `TaskReleaseResources`. -/
inductive EEvent where
  | TryEnqueueSort
  | TaskWaitCopy
  | TaskWrite (Data : List FIndexedDistance)
  | TaskEnqueueCopy
  | TaskEndSorting
  | TaskReleaseResources
  | RenderCommand
  | OwnerReleaseResources
deriving DecidableEq, Repr

/-- A render command is the copy command of `EnqueueCopy`. -/
def ERenderCommand.IsCopy : ERenderCommand → Bool
  | ERenderCommand.CopyIndices _ _ => true
  | ERenderCommand.DestroyCPUSortingResources _ _ => false

/-- A render command is the release command of `DeferredRelease`. -/
def ERenderCommand.IsDestroy : ERenderCommand → Bool
  | ERenderCommand.CopyIndices _ _ => false
  | ERenderCommand.DestroyCPUSortingResources _ _ => true

namespace FSortingSystem

/-- The system after the proxy created the buffers and its
`CreateRenderThreadResources` ran `InitResources_RenderThread` on the render thread. -/
def Initial (Uninitialized : List FIndexedDistance) : FSortingSystem :=
  { Buffers :=
      { FMultithreadedSortingBuffers.create Uninitialized with
        IdxDistA := FSplatCPUToGPUBuffer.create.InitRHI
        IdxDistB := FSplatCPUToGPUBuffer.create.InitRHI }
    Queue := []
    Task := ETaskPhase.NoTask
    CopiedInto := []
    Releases := []
    NumReleased := 0
    OwnerFound := none }

/-- The effect of a call of `ReleaseResources` by `Who` on the system. -/
def ApplyRelease (S : FSortingSystem) (Who : EReleaser) (R : FReleaseResult) :
    FSortingSystem :=
  { S with
    Buffers := R.Buffers
    Queue := S.Queue ++ R.Enqueued
    Releases := S.Releases ++ List.replicate R.NumReleases Who
    NumReleased := S.NumReleased + (if R.bReleasedHere then 1 else 0) }

/-- One step of the protocol; `none` when the step cannot be taken in this state (the
task is in another phase, `WaitCopy` still waits, the queue is empty) or an assertion
fails. -/
def Step (E : EEvent) (S : FSortingSystem) : Option FSortingSystem :=
  match E with
  | EEvent.TryEnqueueSort =>
    match S.Buffers.IsReadyForSorting with
    | none => none
    | some false => some S
    | some true =>
      match S.Buffers.BeginSorting with
      | none => none
      | some B => some { S with Buffers := B, Task := ETaskPhase.Constructed }
  | EEvent.TaskWaitCopy =>
    if S.Task = ETaskPhase.Constructed then
      match S.Buffers.WaitCopy with
      | none => none
      | some (B, _, _) => some { S with Buffers := B, Task := ETaskPhase.Writing }
    else none
  | EEvent.TaskWrite Data =>
    if S.Task = ETaskPhase.Writing ∧ Data.length = S.Buffers.DataCPU.length then
      some { S with Buffers := { S.Buffers with DataCPU := Data } }
    else none
  | EEvent.TaskEnqueueCopy =>
    if S.Task = ETaskPhase.Writing then
      match S.Buffers.BeginCopy with
      | none => none
      | some (B, Request) =>
        some { S with
          Buffers := B
          Queue := S.Queue ++ [ERenderCommand.CopyIndices Request.DstBuffer Request.Size]
          Task := ETaskPhase.CopyEnqueued }
    else none
  | EEvent.TaskEndSorting =>
    if S.Task = ETaskPhase.CopyEnqueued then
      match S.Buffers.EndSorting with
      | none => none
      | some (bNeedsTearDown, B) =>
        some { S with
          Buffers := B
          Task := if bNeedsTearDown then ETaskPhase.MustRelease else ETaskPhase.NoTask }
    else none
  | EEvent.TaskReleaseResources =>
    if S.Task = ETaskPhase.MustRelease then
      match S.Buffers.ReleaseResources false with
      | none => none
      | some R => some { S.ApplyRelease EReleaser.Task R with Task := ETaskPhase.NoTask }
    else none
  | EEvent.RenderCommand =>
    match S.Queue with
    | [] => none
    | ERenderCommand.CopyIndices DstBuffer _ :: Rest =>
      match S.Buffers.EndCopy with
      | none => none
      | some B =>
        some { S with Buffers := B, Queue := Rest, CopiedInto := S.CopiedInto ++ [DstBuffer] }
    | ERenderCommand.DestroyCPUSortingResources _ _ :: Rest =>
      some { S with Queue := Rest, NumReleased := S.NumReleased + 1 }
  | EEvent.OwnerReleaseResources =>
    match S.Buffers.ReleaseResources true with
    | none => none
    | some R =>
      some { S.ApplyRelease EReleaser.Owner R with OwnerFound := some S.Buffers.CurrentState }

/-- A run of the protocol: the steps are taken in order; `none` when one of them cannot
be taken. -/
def Run : List EEvent → FSortingSystem → Option FSortingSystem
  | [], S => some S
  | E :: Rest, S =>
    match Step E S with
    | some S1 => Run Rest S1
    | none => none

/-- The invariant of the protocol.  The first six properties concern the copy handshake
and the role pointers, the others the bookkeeping of the teardown. -/
structure Inv (S : FSortingSystem) : Prop where
  copy_pending : S.Buffers.bCopyInProgress = true →
    ∃ C Size, S.Buffers.CopyDst = some C ∧
      S.Queue.filter ERenderCommand.IsCopy = [ERenderCommand.CopyIndices C Size]
  copy_idle : S.Buffers.bCopyInProgress = false →
    S.Queue.filter ERenderCommand.IsCopy = []
  writing_idle : S.Task = ETaskPhase.Writing → S.Buffers.bCopyInProgress = false
  dst_copied : S.Task ≠ ETaskPhase.Writing → S.Buffers.bCopyInProgress = false →
    ∀ C, S.Buffers.CopyDst = some C → C ∈ S.CopiedInto
  draw_copied : ∀ D, S.Buffers.DrawSrc = some D →
    S.Buffers.CopyDst ≠ some D ∧ S.Buffers.CopyDst ≠ none ∧ D ∈ S.CopiedInto
  first_dst : S.Buffers.DrawSrc = none →
    ∀ C, S.Buffers.CopyDst = some C → C = EBuffer.IdxDistA
  owner_none : S.OwnerFound = none →
    (S.Buffers.CurrentState = ESortingState.Ready ∨
      S.Buffers.CurrentState = ESortingState.InProgress) ∧
    (S.Buffers.CurrentState = ESortingState.Ready ↔ S.Task = ETaskPhase.NoTask) ∧
    S.Task ≠ ETaskPhase.MustRelease ∧ S.Releases = []
  owner_ready : S.OwnerFound = some ESortingState.Ready →
    S.Buffers.CurrentState = ESortingState.TearDown ∧ S.Task = ETaskPhase.NoTask ∧
    S.Releases = [EReleaser.Owner]
  owner_inProgress : S.OwnerFound = some ESortingState.InProgress →
    S.Buffers.CurrentState = ESortingState.TearDown ∧
    ((S.Task ≠ ETaskPhase.NoTask ∧ S.Releases = []) ∨
      (S.Task = ETaskPhase.NoTask ∧ S.Releases = [EReleaser.Task]))
  owner_tearDown : S.OwnerFound ≠ some ESortingState.TearDown
  released : S.NumReleased + (S.Queue.filter ERenderCommand.IsDestroy).length =
    S.Releases.length

end FSortingSystem

/-! ## The role pointers and example runs of the protocol -/

/-- The role pointers `(CopyDst, DrawSrc)` the specification names after the `n`-th
`WaitCopy`: both null before the first, `(A, null)` after the first, then `(B, A)` and
`(A, B)` in turn. -/
def RolePointersAfter : Nat → Option EBuffer × Option EBuffer
  | 0 => (none, none)
  | 1 => (some EBuffer.IdxDistA, none)
  | n + 2 =>
    if n % 2 = 0 then (some EBuffer.IdxDistB, some EBuffer.IdxDistA)
    else (some EBuffer.IdxDistA, some EBuffer.IdxDistB)

/-- One complete sort cycle without teardown: the proxy starts the task, the task waits,
writes `Data`, enqueues the copy and ends the sort, and the render thread runs the copy. -/
def ExampleCycle (Data : List FIndexedDistance) : List EEvent :=
  [EEvent.TryEnqueueSort, EEvent.TaskWaitCopy, EEvent.TaskWrite Data, EEvent.TaskEnqueueCopy,
    EEvent.TaskEndSorting, EEvent.RenderCommand]

/-- A sort cycle during which the owner requests the teardown: the task releases. -/
def ExampleTeardownInProgress : List EEvent :=
  [EEvent.TryEnqueueSort, EEvent.TaskWaitCopy, EEvent.OwnerReleaseResources,
    EEvent.TaskEnqueueCopy, EEvent.TaskEndSorting, EEvent.TaskReleaseResources,
    EEvent.RenderCommand, EEvent.RenderCommand]

/-- A sort cycle after which the owner requests the teardown, the copy still being in
progress: the owner's release is deferred. -/
def ExampleTeardownReady : List EEvent :=
  [EEvent.TryEnqueueSort, EEvent.TaskWaitCopy, EEvent.TaskEnqueueCopy, EEvent.TaskEndSorting,
    EEvent.OwnerReleaseResources, EEvent.RenderCommand, EEvent.RenderCommand]

/-! ## `USplatAsset::Serialize` (`SplatAsset.cpp`, `SplatBuffers.h`) -/

/-- The engine's `FColor`, four 8-bit channels. -/
structure FColor where
  B : Nat
  G : Nat
  R : Nat
  A : Nat
deriving DecidableEq, Repr

/-- One value in an archive, as one engine serializer writes it. -/
inductive FArchiveItem where
  | UInt32 (Value : Nat)
  | VectorArray (Values : List FVector3f)
  | UInt32Array (Values : List Nat)
  | CovMatData (Values : List FPackedCovMat)
  | ColorData (Values : List FColor)
deriving DecidableEq

/-- The engine's `FArchive` as far as `USplatAsset::Serialize` uses it: the two mode
flags and the items of the archive (a saving archive appends at the end, a loading one
reads from the front).  `NumBufferSerializers` counts the calls of the `operator<<` of
`std::optional<TSplatStaticBuffer<T>>` made on this archive. -/
structure FArchive where
  bIsSaving : Bool
  bIsLoading : Bool
  Items : List FArchiveItem
  NumBufferSerializers : Nat
deriving DecidableEq

namespace FArchive

/-- The engine's serializer of one value whose archive representation is given by
`Wrap` and `Unwrap`: saving appends the value, loading takes the next item, which must
be of this kind (`none` otherwise: the archive is malformed), and an archive that neither
saves nor loads leaves the value alone. -/
def SerializeItem {T : Type} (Wrap : T → FArchiveItem) (Unwrap : FArchiveItem → Option T)
    (Ar : FArchive) (Value : T) : Option (FArchive × T) :=
  if Ar.bIsSaving then some ({ Ar with Items := Ar.Items ++ [Wrap Value] }, Value)
  else if Ar.bIsLoading then
    match Ar.Items with
    | [] => none
    | Item :: Rest =>
      match Unwrap Item with
      | none => none
      | some Loaded => some ({ Ar with Items := Rest }, Loaded)
  else some (Ar, Value)

/-- The engine's `Ar << Value` for a `uint32`. -/
def SerializeUInt32 (Ar : FArchive) (Value : Nat) : Option (FArchive × Nat) :=
  SerializeItem FArchiveItem.UInt32
    (fun Item => match Item with
      | FArchiveItem.UInt32 V => some V
      | _ => none) Ar Value

/-- The engine's `Ar << Array` for a `TArray<FVector3f>`. -/
def SerializeVectorArray (Ar : FArchive) (Values : List FVector3f) :
    Option (FArchive × List FVector3f) :=
  SerializeItem FArchiveItem.VectorArray
    (fun Item => match Item with
      | FArchiveItem.VectorArray V => some V
      | _ => none) Ar Values

/-- The engine's `Ar << Array` for a `TArray<uint32>`. -/
def SerializeUInt32Array (Ar : FArchive) (Values : List Nat) :
    Option (FArchive × List Nat) :=
  SerializeItem FArchiveItem.UInt32Array
    (fun Item => match Item with
      | FArchiveItem.UInt32Array V => some V
      | _ => none) Ar Values

/-- The engine's `TStaticMeshVertexData<FPackedCovMat>::Serialize`. -/
def SerializeCovMatData (Ar : FArchive) (Values : List FPackedCovMat) :
    Option (FArchive × List FPackedCovMat) :=
  SerializeItem FArchiveItem.CovMatData
    (fun Item => match Item with
      | FArchiveItem.CovMatData V => some V
      | _ => none) Ar Values

/-- The engine's `TStaticMeshVertexData<FColor>::Serialize`. -/
def SerializeColorData (Ar : FArchive) (Values : List FColor) :
    Option (FArchive × List FColor) :=
  SerializeItem FArchiveItem.ColorData
    (fun Item => match Item with
      | FArchiveItem.ColorData V => some V
      | _ => none) Ar Values

end FArchive

/-- The class `TSplatStaticBuffer<T>`: `Data` is the `unique_ptr` to the CPU-side vertex
data, `none` when it is null. -/
structure TSplatStaticBuffer (T : Type) where
  Data : Option (List T)
deriving DecidableEq

/-- The `operator<<` of `std::optional<TSplatStaticBuffer<T>>`; `DataSerialize` is
`TStaticMeshVertexData<T>::Serialize`, and `none` is a failed `check` or a malformed
archive. -/
def TSplatStaticBuffer.Serialize {T : Type}
    (DataSerialize : FArchive → List T → Option (FArchive × List T))
    (Ar : FArchive) (Buffer : Option (TSplatStaticBuffer T)) :
    Option (FArchive × Option (TSplatStaticBuffer T)) :=
  let Ar0 := { Ar with NumBufferSerializers := Ar.NumBufferSerializers + 1 }
  if Ar0.bIsSaving then
    match Buffer with
    | none => none
    | some Present =>
      match Present.Data with
      | none => none
      | some Data =>
        match DataSerialize Ar0 Data with
        | none => none
        | some (Ar1, Data1) => some (Ar1, some { Data := some Data1 })
  else if Ar0.bIsLoading then
    match Buffer with
    | some _ => none
    | none =>
      match DataSerialize Ar0 [] with
      | none => none
      | some (Ar1, LocalData) => some (Ar1, some { Data := some LocalData })
  else some (Ar0, Buffer)

/-- The members of `USplatAsset` that `Serialize` reads or writes, and the packed
position buffer, which it leaves alone. -/
structure USplatAsset where
  NumSplats : Nat
  PositionsFullPrecision : List FVector3f
  Positions : Option (TSplatStaticBuffer FPackedPos)
  CovariancesCM : Option (TSplatStaticBuffer FPackedCovMat)
  Colors : Option (TSplatStaticBuffer FColor)
  ConvexHullVertices : List FVector3f
  ConvexHullIndices : List Nat
deriving DecidableEq

namespace USplatAsset

/-- A default-constructed asset: `NumSplats = 0`, empty arrays, no buffers. -/
def create : USplatAsset :=
  { NumSplats := 0
    PositionsFullPrecision := []
    Positions := none
    CovariancesCM := none
    Colors := none
    ConvexHullVertices := []
    ConvexHullIndices := [] }

/-- The method `USplatAsset::Serialize`, after `Super::Serialize(Ar)`, which handles the
members of the engine's base class only. -/
def Serialize (Ar : FArchive) (A : USplatAsset) : Option (FArchive × USplatAsset) :=
  match Ar.SerializeUInt32 A.NumSplats with
  | none => none
  | some (Ar1, NumSplats1) =>
    let A1 := { A with NumSplats := NumSplats1 }
    if A1.NumSplats > 0 then
      match Ar1.SerializeVectorArray A1.PositionsFullPrecision with
      | none => none
      | some (Ar2, PositionsFullPrecision1) =>
        match TSplatStaticBuffer.Serialize FArchive.SerializeCovMatData Ar2
            A1.CovariancesCM with
        | none => none
        | some (Ar3, CovariancesCM1) =>
          match TSplatStaticBuffer.Serialize FArchive.SerializeColorData Ar3 A1.Colors with
          | none => none
          | some (Ar4, Colors1) =>
            match Ar4.SerializeVectorArray A1.ConvexHullVertices with
            | none => none
            | some (Ar5, ConvexHullVertices1) =>
              match Ar5.SerializeUInt32Array A1.ConvexHullIndices with
              | none => none
              | some (Ar6, ConvexHullIndices1) =>
                some (Ar6,
                  { A1 with
                    PositionsFullPrecision := PositionsFullPrecision1
                    CovariancesCM := CovariancesCM1
                    Colors := Colors1
                    ConvexHullVertices := ConvexHullVertices1
                    ConvexHullIndices := ConvexHullIndices1 })
    else some (Ar1, A1)

end USplatAsset

/-! ## Further fields of `FPackedCovMat`, and `NumThreadGroups` (`SplatRendering.cpp`) -/

/-- The XY field of the documented format: 11 bits starting at bit 43. -/
def FPackedCovMat.FieldXY (C : FPackedCovMat) : Nat := (C.Packed >>> 43) &&& 0x7FF

/-- The XZ field of the documented format: 11 bits starting at bit 32. -/
def FPackedCovMat.FieldXZ (C : FPackedCovMat) : Nat := (C.Packed >>> 32) &&& 0x7FF

/-- The YZ field of the documented format: 11 bits starting at bit 11. -/
def FPackedCovMat.FieldYZ (C : FPackedCovMat) : Nat := (C.Packed >>> 11) &&& 0x7FF

/-- The constant `Shaders::THREAD_GROUP_SIZE_X` (`SplatShaders.h`). -/
def THREAD_GROUP_SIZE_X : Nat := 32

/-- The function `NumThreadGroups`; the sum is taken in `uint32`. -/
def NumThreadGroups (NumElements : Nat) : Nat :=
  ((NumElements + (THREAD_GROUP_SIZE_X - 1)) % 2 ^ 32) / THREAD_GROUP_SIZE_X

/-! ## IEEE-754 binary32 bit patterns -/

/-- The sign bit of a binary32 bit pattern (bit 31). -/
def Binary32SignBit (Raw : Nat) : Nat := (Raw >>> 31) % 2

/-- The biased exponent field of a binary32 bit pattern (bits 23 to 30). -/
def Binary32ExponentField (Raw : Nat) : Nat := (Raw >>> 23) % 2 ^ 8

/-- The mantissa field of a binary32 bit pattern (bits 0 to 22). -/
def Binary32MantissaField (Raw : Nat) : Nat := Raw % 2 ^ 23

/-- The value of the float with IEEE-754 binary32 bit pattern `Raw`: `none` for an
infinity or a NaN (exponent field 255), a zero or denormal for exponent field 0, and
`± 2 ^ (E - 127) * (1 + M / 2 ^ 23)` otherwise. -/
def Binary32Value (Raw : Nat) : Option ℚ :=
  let Sign : ℚ := if Binary32SignBit Raw = 1 then -1 else 1
  let M : ℚ := (Binary32MantissaField Raw : ℚ) / 2 ^ 23
  if Binary32ExponentField Raw = 255 then none
  else if Binary32ExponentField Raw = 0 then some (Sign * (2 : ℚ) ^ (-126 : ℤ) * M)
  else some (Sign * (2 : ℚ) ^ ((Binary32ExponentField Raw : ℤ) - 127) * (1 + M))

/-! ## Sorting the whole scratch buffer, and `NeedsSort` (`SplatSceneProxy.h`) -/

/-- The alternative that the equivalence of the partition names: the keys are written
as in `DoWork`, and `std::sort` is then applied to the whole scratch array instead of
the visible range only. -/
def DoWork_SortAll (Transform : FMatrix44f) (OriginCM Forward : FVector3f)
    (PositionsM : List FVector3f) (DataCPU : List FIndexedDistance) :
    Option (List FIndexedDistance) :=
  match WriteKeys Transform OriginCM Forward PositionsM 0 DataCPU with
  | some Data => some (StdSort Data)
  | none => none

/-- The method `FSplatSceneProxy::NeedsSort`: `CPUSorting` is the shared pointer to the
sorting buffers (`none` when null), the result `none` is the failed
`check(bIsSortingOnGPU || CPUSorting)`; the second operand of `&&` is evaluated only
when sorting is on the CPU. -/
def NeedsSort (bIsSortingOnGPU : Bool) (CPUSorting : Option FMultithreadedSortingBuffers) :
    Option Bool :=
  if bIsSortingOnGPU then some false
  else
    match CPUSorting with
    | none => none
    | some Buffers => some (!Buffers.IsGPUBufferReady)

/-! ## `WaitCopy` statement by statement (`CPUSorting.h`) -/

/-- The first statement of `WaitCopy` after its wait loop:
`if (!DrawSrc) { DrawSrc = CopyDst ? &IdxDistB : &IdxDistA; }`. -/
def FMultithreadedSortingBuffers.WaitCopy_SelectFirst (B : FMultithreadedSortingBuffers) :
    FMultithreadedSortingBuffers :=
  match B.DrawSrc with
  | none =>
    { B with DrawSrc := if B.CopyDst.isSome then some EBuffer.IdxDistB else some EBuffer.IdxDistA }
  | some _ => B

/-- The second statement of `WaitCopy`: `std::swap(CopyDst, DrawSrc)`. -/
def FMultithreadedSortingBuffers.WaitCopy_Swap (B : FMultithreadedSortingBuffers) :
    FMultithreadedSortingBuffers :=
  { B with CopyDst := B.DrawSrc, DrawSrc := B.CopyDst }

/-- The states of the buffers object that another thread can read while `WaitCopy`
runs, once its wait loop has seen the flag clear: before the first statement, between
the two statements, and after the swap.  `DrawSrc` and `CopyDst` are plain pointers and
`WaitCopy` holds no lock, so a call of `IsGPUBufferReady` or `GetIndicesSRV` on the
render thread can fall between any two of them.  It is `none` while the loop waits. -/
def FMultithreadedSortingBuffers.WaitCopy_Observable (B : FMultithreadedSortingBuffers) :
    Option (List FMultithreadedSortingBuffers) :=
  if B.bCopyInProgress then none
  else some [B, B.WaitCopy_SelectFirst, B.WaitCopy_SelectFirst.WaitCopy_Swap]

/-! ## IEEE-754 binary32 arithmetic -/

/-- Rounding of a real number to the nearest integer, a tie going to the even one. -/
def RoundHalfEven (x : ℚ) : ℤ :=
  if x - ⌊x⌋ < 1 / 2 then ⌊x⌋
  else if 1 / 2 < x - ⌊x⌋ then ⌊x⌋ + 1
  else if ⌊x⌋ % 2 = 0 then ⌊x⌋ else ⌊x⌋ + 1

/-- The exponent of the spacing of binary32 values around `x`: 23 below the binary
exponent of `x`, and `-149` in the subnormal range (binary exponents below `-126`). -/
def Binary32UlpExponent (x : ℚ) : ℤ := max (Int.log 2 |x|) (-126) - 23

/-- The binary32 value nearest to the real number `x`, ties to even (the default
rounding of IEEE-754), with the exponent unbounded above: the results of magnitude
`2 ^ 128` and more are the ones that overflow. -/
def RoundBinary32 (x : ℚ) : ℚ :=
  (RoundHalfEven (x / 2 ^ Binary32UlpExponent x) : ℚ) * 2 ^ Binary32UlpExponent x

/-- A binary32 value: a finite number, an infinity or a NaN.  The two zeros are not
told apart. -/
inductive FFloat where
  | Finite (Value : ℚ)
  | Infinity (bNegative : Bool)
  | NaN
deriving DecidableEq

namespace FFloat

/-- The binary32 result for the exact result `x` of an operation: `x` rounded to
nearest even, or an infinity when the rounded magnitude is `2 ^ 128` or more. -/
def OfReal (x : ℚ) : FFloat :=
  if 2 ^ 128 ≤ |RoundBinary32 x| then Infinity (decide (x < 0)) else Finite (RoundBinary32 x)

/-- IEEE-754 subtraction in binary32. -/
def Sub : FFloat → FFloat → FFloat
  | Finite a, Finite b => OfReal (a - b)
  | Finite _, Infinity s => Infinity (!s)
  | Infinity s, Finite _ => Infinity s
  | Infinity s, Infinity t => if s = t then NaN else Infinity s
  | _, _ => NaN

/-- IEEE-754 multiplication in binary32. -/
def Mul : FFloat → FFloat → FFloat
  | Finite a, Finite b => OfReal (a * b)
  | Finite a, Infinity s => if a = 0 then NaN else Infinity (xor s (decide (a < 0)))
  | Infinity s, Finite b => if b = 0 then NaN else Infinity (xor s (decide (b < 0)))
  | Infinity s, Infinity t => Infinity (xor s t)
  | _, _ => NaN

/-- IEEE-754 division in binary32 (a finite non-zero number divided by zero gives the
infinity of the sign of the dividend, the zero being taken as positive). -/
def Div : FFloat → FFloat → FFloat
  | Finite a, Finite b =>
    if b = 0 then (if a = 0 then NaN else Infinity (decide (a < 0))) else OfReal (a / b)
  | Finite _, Infinity _ => Finite 0
  | Infinity s, Finite b => Infinity (xor s (decide (b < 0)))
  | Infinity _, Infinity _ => NaN
  | _, _ => NaN

end FFloat

/-- A finite binary32 value: `m * 2 ^ k` with `|m| < 2 ^ 24` and `-149 ≤ k ≤ 104`. -/
def IsBinary32 (x : ℚ) : Prop :=
  ∃ m k : ℤ, |m| < 2 ^ 24 ∧ -149 ≤ k ∧ k ≤ 104 ∧ x = (m : ℚ) * 2 ^ k

/-- The value assigned to `Distance` for a view-space depth `Z`, with the two float
operations of `NEAR_CLIP_CM / Z * MAX_DISTANCE` each rounded to binary32 (the constant
`MAX_DISTANCE` is converted to the float 65534).  For `Z ≥ 10` no operation can
overflow: the quotient is at most 1 and the product at most 65534. -/
def FIndexedDistance.DistanceOfBinary32 (Z : ℚ) : Nat :=
  if Z ≥ FIndexedDistance.NEAR_CLIP_CM then
    toUInt16 (RoundBinary32
      (RoundBinary32 (FIndexedDistance.NEAR_CLIP_CM / Z) *
        RoundBinary32 (FIndexedDistance.MAX_DISTANCE : ℚ)))
  else FIndexedDistance.NOT_VISIBLE

/-! ## `USplatAsset::SetPositionsMetersInternal` in binary32 -/

/-- An `FVector3f` whose components are binary32 results. -/
structure FVector3fBinary32 where
  X : FFloat
  Y : FFloat
  Z : FFloat
deriving DecidableEq

namespace FVector3fBinary32

/-- A vector of finite floats. -/
def ofVector (V : FVector3f) : FVector3fBinary32 :=
  ⟨FFloat.Finite V.X, FFloat.Finite V.Y, FFloat.Finite V.Z⟩

/-- Component-wise `operator-`. -/
def sub (a b : FVector3fBinary32) : FVector3fBinary32 :=
  ⟨a.X.Sub b.X, a.Y.Sub b.Y, a.Z.Sub b.Z⟩

/-- Scalar times vector, `Scale * V`. -/
def smul (s : FFloat) (v : FVector3fBinary32) : FVector3fBinary32 :=
  ⟨s.Mul v.X, s.Mul v.Y, s.Mul v.Z⟩

/-- Component-wise `operator/` of two vectors. -/
def div (a b : FVector3fBinary32) : FVector3fBinary32 :=
  ⟨a.X.Div b.X, a.Y.Div b.Y, a.Z.Div b.Z⟩

end FVector3fBinary32

/-- The template `ToUNorm<Bits>(F)` on a binary32 argument: `MaxValue` is converted to
float, the product is a binary32 product, `std::round` of a float is exact.  The result
is `none` where the conversion `uint32(FScaled)` is undefined: for a NaN and for an
infinite `FScaled`. -/
def ToUNormBinary32 (Bits : Nat) (F : FFloat) : Option Nat :=
  let MaxValue : Nat := ((1 <<< Bits) - 1) % 2 ^ 32
  match F with
  | FFloat.Finite V =>
    if V = 0 then some 0
    else if V > 1 then some MaxValue
    else
      match (FFloat.Finite V).Mul (FFloat.OfReal (MaxValue : ℚ)) with
      | FFloat.Finite FScaled => some (toUInt32 ((stdRound FScaled : ℤ) : ℚ))
      | _ => none
  | FFloat.Infinity bNegative => if bNegative then none else some MaxValue
  | FFloat.NaN => none

/-- The constructor `FPackedPos(float X, float Y, float Z)` on binary32 arguments;
`none` when one of the three conversions is undefined. -/
def FPackedPos.createBinary32 (X Y Z : FFloat) : Option FPackedPos :=
  match ToUNormBinary32 11 X, ToUNormBinary32 11 Y, ToUNormBinary32 10 Z with
  | some XPacked, some YPacked, some ZPacked =>
    some ⟨((ZPacked <<< 22) % 2 ^ 32) ||| ((YPacked <<< 11) % 2 ^ 32) ||| XPacked⟩
  | _, _, _ => none

/-- The constructor `FPackedPos(const FVector3f& V)` on binary32 components. -/
def FPackedPos.ofVectorBinary32 (V : FVector3fBinary32) : Option FPackedPos :=
  FPackedPos.createBinary32 V.X V.Y V.Z

/-- The members of `USplatAsset` written by `SetPositionsMetersInternal`, as binary32
values; a packed position is `none` when its conversion is undefined. -/
structure FPackedPositionsBinary32 where
  PosScaleCM : FVector3fBinary32
  PosMaxCM : FVector3fBinary32
  PosMinCM : FVector3fBinary32
  Positions : List (Option FPackedPos)

/-- The normalized vector `(PosM - PosMinM) / (PosMaxM - PosMinM)` that the second loop
hands to `FPackedPos`, every operation in binary32. -/
def NormalizedBinary32 (PosM PosMinM PosMaxM : FVector3f) : FVector3fBinary32 :=
  ((FVector3fBinary32.ofVector PosM).sub (FVector3fBinary32.ofVector PosMinM)).div
    ((FVector3fBinary32.ofVector PosMaxM).sub (FVector3fBinary32.ofVector PosMinM))

/-- The method `USplatAsset::SetPositionsMetersInternal` on finite float positions, with
every arithmetic operation in binary32 (the comparisons of the first loop and of the
checks are exact); `none` is a failed `check`. -/
def SetPositionsMetersInternalBinary32 (NumSplats : Nat) (PositionsMeters : List FVector3f) :
    Option FPackedPositionsBinary32 :=
  if PositionsMeters.length ≠ NumSplats then none
  else
    let PosMaxM := BoundsMax PositionsMeters
    let PosMinM := BoundsMin PositionsMeters
    if ¬ (PosMaxM.GetMin > FLT_LOWEST) then none
    else if ¬ (PosMinM.GetMax < FLT_MAX) then none
    else
      some
        { PosScaleCM :=
            (FVector3fBinary32.smul (FFloat.Finite MetersToCentimeters)
              ((FVector3fBinary32.ofVector PosMaxM).sub
                (FVector3fBinary32.ofVector PosMinM))).div
              (FVector3fBinary32.ofVector FPackedPos.MAX)
          PosMaxCM :=
            FVector3fBinary32.smul (FFloat.Finite MetersToCentimeters)
              (FVector3fBinary32.ofVector PosMaxM)
          PosMinCM :=
            FVector3fBinary32.smul (FFloat.Finite MetersToCentimeters)
              (FVector3fBinary32.ofVector PosMinM)
          Positions :=
            PositionsMeters.map
              (fun PosM => FPackedPos.ofVectorBinary32 (NormalizedBinary32 PosM PosMinM PosMaxM)) }

/-- The decoding that the round-trip property of packed positions names,
`PosMinCM + PosScaleCM * (qx, qy, qz)`, evaluated exactly on the stored binary32 values;
`none` when a stored value is not finite. -/
def DecodePositionBinary32 (A : FPackedPositionsBinary32) (P : FPackedPos) : Option FVector3f :=
  match A.PosMinCM, A.PosScaleCM with
  | ⟨FFloat.Finite MinX, FFloat.Finite MinY, FFloat.Finite MinZ⟩,
    ⟨FFloat.Finite ScaleX, FFloat.Finite ScaleY, FFloat.Finite ScaleZ⟩ =>
    some ⟨MinX + ScaleX * (P.FieldX : ℚ), MinY + ScaleY * (P.FieldY : ℚ),
      MinZ + ScaleZ * (P.FieldZ : ℚ)⟩
  | _, _ => none

/-! ## Lemmas on the conversions -/

theorem truncToInt_of_nonneg {x : ℚ} (h : 0 ≤ x) : truncToInt x = ⌊x⌋ := by
  simp [truncToInt, h]

theorem toUInt16_of_range {x : ℚ} (h0 : 0 ≤ x) (h1 : x < 2 ^ 16) :
    toUInt16 x = ⌊x⌋.toNat := by
  have hf0 : 0 ≤ ⌊x⌋ := Int.floor_nonneg.mpr h0
  have hf1 : ⌊x⌋ < 2 ^ 16 := by
    have : (⌊x⌋ : ℚ) ≤ x := Int.floor_le x
    have h2 : (⌊x⌋ : ℚ) < ((2 ^ 16 : ℤ) : ℚ) := by push_cast; linarith
    exact_mod_cast h2
  unfold toUInt16
  rw [truncToInt_of_nonneg h0, Int.emod_eq_of_lt hf0 hf1]

namespace FIndexedDistance

theorem scaled_nonneg {Z : ℚ} (h : 10 ≤ Z) : 0 ≤ NEAR_CLIP_CM / Z * (MAX_DISTANCE : ℚ) := by
  have hz : 0 < Z := by linarith
  unfold NEAR_CLIP_CM MAX_DISTANCE
  positivity

theorem scaled_le_max {Z : ℚ} (h : 10 ≤ Z) :
    NEAR_CLIP_CM / Z * (MAX_DISTANCE : ℚ) ≤ 65534 := by
  have hz : 0 < Z := by linarith
  have h1 : NEAR_CLIP_CM / Z ≤ 1 := by
    unfold NEAR_CLIP_CM
    rw [div_le_one hz]; exact h
  have : NEAR_CLIP_CM / Z * (MAX_DISTANCE : ℚ) ≤ 1 * (MAX_DISTANCE : ℚ) := by
    apply mul_le_mul_of_nonneg_right h1
    unfold MAX_DISTANCE; norm_num
  simpa [MAX_DISTANCE] using this

/-- For a visible depth the stored key is the floor of `10 / Z * 65534`. -/
theorem DistanceOf_visible {Z : ℚ} (h : 10 ≤ Z) :
    DistanceOf Z = ⌊NEAR_CLIP_CM / Z * (MAX_DISTANCE : ℚ)⌋.toNat := by
  have hge : Z ≥ NEAR_CLIP_CM := by unfold NEAR_CLIP_CM; exact h
  unfold DistanceOf
  rw [if_pos hge]
  apply toUInt16_of_range (scaled_nonneg h)
  have := scaled_le_max h
  norm_num
  linarith

theorem DistanceOf_hidden {Z : ℚ} (h : Z < 10) : DistanceOf Z = NOT_VISIBLE := by
  have hge : ¬ Z ≥ NEAR_CLIP_CM := by unfold NEAR_CLIP_CM; linarith
  unfold DistanceOf
  rw [if_neg hge]

theorem DistanceOf_visible_le {Z : ℚ} (h : 10 ≤ Z) : DistanceOf Z ≤ 0xFFFE := by
  rw [DistanceOf_visible h]
  have h1 := scaled_le_max h
  have h2 : ⌊NEAR_CLIP_CM / Z * (MAX_DISTANCE : ℚ)⌋ ≤ 65534 := by
    have : ⌊NEAR_CLIP_CM / Z * (MAX_DISTANCE : ℚ)⌋ ≤ ⌊(65534 : ℚ)⌋ := Int.floor_mono h1
    simpa using this
  omega

theorem DistanceOf_antitone {Z1 Z2 : ℚ} (h1 : 10 ≤ Z1) (h12 : Z1 ≤ Z2) :
    DistanceOf Z2 ≤ DistanceOf Z1 := by
  have h2 : 10 ≤ Z2 := le_trans h1 h12
  rw [DistanceOf_visible h1, DistanceOf_visible h2]
  apply Int.toNat_le_toNat
  apply Int.floor_mono
  have hz1 : 0 < Z1 := by linarith
  apply mul_le_mul_of_nonneg_right
  · unfold NEAR_CLIP_CM
    exact div_le_div_of_nonneg_left (by norm_num) hz1 h12
  · unfold MAX_DISTANCE; norm_num

end FIndexedDistance

namespace FIndexedDistance

theorem create_of_normalized (InIndex : Nat) (OriginCM Forward PositionCM : FVector3f)
    (hF : Forward.IsNormalized = true) :
    create InIndex OriginCM Forward PositionCM =
      some ⟨InIndex, DistanceOf (ViewZ OriginCM Forward PositionCM)⟩ := by
  unfold create
  rw [if_pos hF]

theorem forwardX_normalized : FVector3f.IsNormalized ⟨1, 0, 0⟩ = true := by
  simp [FVector3f.IsNormalized, FVector3f.SizeSquared, FVector3f.THRESH_VECTOR_NORMALIZED]

theorem viewZ_along_X (x : ℚ) : ViewZ ⟨0, 0, 0⟩ ⟨1, 0, 0⟩ ⟨x, 0, 0⟩ = x := by
  simp [ViewZ, FVector3f.sub, FVector3f.Dot]

theorem DistanceOf_5 : DistanceOf 5 = 65535 := by
  rw [DistanceOf_hidden (by norm_num)]; rfl

theorem DistanceOf_50 : DistanceOf 50 = 13106 := by
  rw [DistanceOf_visible (by norm_num)]
  have : ⌊NEAR_CLIP_CM / 50 * (MAX_DISTANCE : ℚ)⌋ = 13106 := by
    rw [Int.floor_eq_iff]; norm_num [NEAR_CLIP_CM, MAX_DISTANCE]
  rw [this]; rfl

theorem DistanceOf_500 : DistanceOf 500 = 1310 := by
  rw [DistanceOf_visible (by norm_num)]
  have : ⌊NEAR_CLIP_CM / 500 * (MAX_DISTANCE : ℚ)⌋ = 1310 := by
    rw [Int.floor_eq_iff]; norm_num [NEAR_CLIP_CM, MAX_DISTANCE]
  rw [this]; rfl

/-- Between visible depths a strictly smaller key belongs to the strictly farther one. -/
theorem DistanceOf_lt_imp_farther {Za Zb : ℚ} (ha : 10 ≤ Za)
    (h : DistanceOf Za < DistanceOf Zb) : Zb < Za := by
  by_contra hle
  push_neg at hle
  have := DistanceOf_antitone ha hle
  omega

end FIndexedDistance

/-! ## The depth key: claims C3 to C6 -/

/-- C4: the depth key is monotonic in the pinned direction: for two positions seen
from the same view with depths `10 <= z1 < z2`, the `Distance` stored for `z1` is
greater than or equal to the one stored for `z2`. -/
theorem key_antitone_in_depth (Index1 Index2 : Nat)
    (OriginCM Forward Position1 Position2 : FVector3f) (hF : Forward.IsNormalized = true)
    (h1 : 10 ≤ FIndexedDistance.ViewZ OriginCM Forward Position1)
    (h12 : FIndexedDistance.ViewZ OriginCM Forward Position1 <
      FIndexedDistance.ViewZ OriginCM Forward Position2) :
    ∃ K1 K2, FIndexedDistance.create Index1 OriginCM Forward Position1 = some K1 ∧
      FIndexedDistance.create Index2 OriginCM Forward Position2 = some K2 ∧
      K1.Distance ≥ K2.Distance := by
  refine ⟨_, _, FIndexedDistance.create_of_normalized Index1 OriginCM Forward Position1 hF,
    FIndexedDistance.create_of_normalized Index2 OriginCM Forward Position2 hF, ?_⟩
  exact FIndexedDistance.DistanceOf_antitone h1 (le_of_lt h12)

/-- Witness of C4: the splats at `z = 50` and `z = 500` seen along the X axis. -/
theorem key_antitone_in_depth_witness :
    ∃ K1 K2, FIndexedDistance.create 0 ⟨0, 0, 0⟩ ⟨1, 0, 0⟩ ⟨50, 0, 0⟩ = some K1 ∧
      FIndexedDistance.create 1 ⟨0, 0, 0⟩ ⟨1, 0, 0⟩ ⟨500, 0, 0⟩ = some K2 ∧
      K1.Distance ≥ K2.Distance :=
  key_antitone_in_depth 0 1 ⟨0, 0, 0⟩ ⟨1, 0, 0⟩ ⟨50, 0, 0⟩ ⟨500, 0, 0⟩
    FIndexedDistance.forwardX_normalized
    (by rw [FIndexedDistance.viewZ_along_X]; norm_num)
    (by rw [FIndexedDistance.viewZ_along_X, FIndexedDistance.viewZ_along_X]; norm_num)

/-- C6, the code at the failing input: the key `a` of the splat at `z = 500` and the
key `b` of the splat at `z = 50`, both visible and built from the same view, satisfy
`a < b`, although `a` is the farther splat. -/
theorem key_less_than_means_farther_at_500_50 :
    FIndexedDistance.create 0 ⟨0, 0, 0⟩ ⟨1, 0, 0⟩ ⟨500, 0, 0⟩ = some ⟨0, 1310⟩ ∧
      FIndexedDistance.create 1 ⟨0, 0, 0⟩ ⟨1, 0, 0⟩ ⟨50, 0, 0⟩ = some ⟨1, 13106⟩ ∧
      FIndexedDistance.lt ⟨0, 1310⟩ ⟨1, 13106⟩ = true ∧
      ¬ (FIndexedDistance.ViewZ ⟨0, 0, 0⟩ ⟨1, 0, 0⟩ ⟨500, 0, 0⟩ <
        FIndexedDistance.ViewZ ⟨0, 0, 0⟩ ⟨1, 0, 0⟩ ⟨50, 0, 0⟩) := by
  refine ⟨?_, ?_, ?_, ?_⟩
  · rw [FIndexedDistance.create_of_normalized _ _ _ _ FIndexedDistance.forwardX_normalized,
      FIndexedDistance.viewZ_along_X, FIndexedDistance.DistanceOf_500]
  · rw [FIndexedDistance.create_of_normalized _ _ _ _ FIndexedDistance.forwardX_normalized,
      FIndexedDistance.viewZ_along_X, FIndexedDistance.DistanceOf_50]
  · decide
  · rw [FIndexedDistance.viewZ_along_X, FIndexedDistance.viewZ_along_X]; norm_num

/-! ## Lemmas on the loop, `std::partition` and `std::sort` -/

theorem KeysFrom_length (Transform : FMatrix44f) (OriginCM Forward : FVector3f) :
    ∀ (Ps : List FVector3f) (Index : Nat),
      (KeysFrom Transform OriginCM Forward Ps Index).length = Ps.length
  | [], _ => rfl
  | _ :: Rest, Index => by
    simp [KeysFrom, KeysFrom_length Transform OriginCM Forward Rest (Index + 1)]

theorem KeysFrom_getElem (Transform : FMatrix44f) (OriginCM Forward : FVector3f) :
    ∀ (Ps : List FVector3f) (Index k : Nat) (hk : k < Ps.length),
      (KeysFrom Transform OriginCM Forward Ps Index)[k]? =
        some (KeyAt Transform OriginCM Forward (Index + k) Ps[k])
  | [], _, k, hk => by simp at hk
  | P :: Rest, Index, 0, _ => by simp [KeysFrom]
  | P :: Rest, Index, k + 1, hk => by
    have hk2 : k < Rest.length := by simpa using hk
    have := KeysFrom_getElem Transform OriginCM Forward Rest (Index + 1) k hk2
    simp only [KeysFrom, List.getElem?_cons_succ, List.getElem_cons_succ]
    rw [this]
    congr 2
    omega

theorem mem_KeysFrom (Transform : FMatrix44f) (OriginCM Forward : FVector3f) :
    ∀ (Ps : List FVector3f) (Index : Nat) (K : FIndexedDistance),
      K ∈ KeysFrom Transform OriginCM Forward Ps Index →
      ∃ (k : Nat) (hk : k < Ps.length),
        K = KeyAt Transform OriginCM Forward (Index + k) Ps[k]
  | [], _, K, h => by simp [KeysFrom] at h
  | P :: Rest, Index, K, h => by
    simp only [KeysFrom, List.mem_cons] at h
    rcases h with h | h
    · exact ⟨0, by simp, by simpa using h⟩
    · obtain ⟨k, hk, hK⟩ := mem_KeysFrom Transform OriginCM Forward Rest (Index + 1) K h
      refine ⟨k + 1, by simpa using hk, ?_⟩
      rw [hK]
      simp only [List.getElem_cons_succ]
      congr 1
      omega

theorem WriteKeys_nil (Transform : FMatrix44f) (OriginCM Forward : FVector3f)
    (Index : Nat) (Data : List FIndexedDistance) :
    WriteKeys Transform OriginCM Forward [] Index Data = some Data := rfl

theorem WriteKeys_cons (Transform : FMatrix44f) (OriginCM Forward : FVector3f)
    (hF : Forward.IsNormalized = true) (P : FVector3f) (Rest : List FVector3f)
    (Index : Nat) (Data : List FIndexedDistance) (hlt : Index < Data.length) :
    WriteKeys Transform OriginCM Forward (P :: Rest) Index Data =
      WriteKeys Transform OriginCM Forward Rest (Index + 1)
        (Data.set Index (KeyAt Transform OriginCM Forward Index P)) := by
  show (if Index < Data.length then
      match FIndexedDistance.create Index OriginCM Forward (PositionWorldCM Transform P) with
      | some Key => WriteKeys Transform OriginCM Forward Rest (Index + 1) (Data.set Index Key)
      | none => none
    else none) = _
  rw [if_pos hlt, FIndexedDistance.create_of_normalized _ _ _ _ hF]
  rfl

theorem take_succ_set {α : Type} (Data : List α) (Index : Nat) (K : α)
    (hlt : Index < Data.length) :
    (Data.set Index K).take (Index + 1) = Data.take Index ++ [K] := by
  induction Data generalizing Index with
  | nil => simp at hlt
  | cons a t ih =>
    cases Index with
    | zero => simp
    | succ n =>
      have : n < t.length := by simpa using hlt
      simp [ih n this]

theorem drop_succ_set {α : Type} (Data : List α) (Index n : Nat) (K : α) :
    (Data.set Index K).drop (Index + 1 + n) = Data.drop (Index + (n + 1)) := by
  induction Data generalizing Index with
  | nil => simp
  | cons a t ih =>
    cases Index with
    | zero =>
      have : 0 + (n + 1) = n + 1 := by omega
      simp [this, Nat.add_comm 1 n]
    | succ m =>
      have e1 : m + 1 + 1 + n = (m + 1 + n) + 1 := by omega
      have e2 : m + 1 + (n + 1) = (m + (n + 1)) + 1 := by omega
      rw [e1, e2]
      simp only [List.set_cons_succ, List.drop_succ_cons]
      exact ih m

theorem WriteKeys_eq (Transform : FMatrix44f) (OriginCM Forward : FVector3f)
    (hF : Forward.IsNormalized = true) (Ps : List FVector3f) :
    ∀ (Index : Nat) (Data : List FIndexedDistance),
      Index + Ps.length ≤ Data.length →
      WriteKeys Transform OriginCM Forward Ps Index Data =
        some (Data.take Index ++ KeysFrom Transform OriginCM Forward Ps Index ++
          Data.drop (Index + Ps.length)) := by
  induction Ps with
  | nil =>
    intro Index Data _
    rw [WriteKeys_nil]
    simp only [KeysFrom, List.append_nil, List.length_nil, Nat.add_zero,
      List.take_append_drop]
  | cons P Rest ih =>
    intro Index Data h
    have hlt : Index < Data.length := by
      rw [List.length_cons] at h; omega
    rw [WriteKeys_cons Transform OriginCM Forward hF P Rest Index Data hlt,
      ih (Index + 1) _ (by rw [List.length_set]; rw [List.length_cons] at h; omega),
      take_succ_set Data Index _ hlt, drop_succ_set, List.length_cons]
    simp only [KeysFrom, List.append_assoc, List.singleton_append]

theorem WriteKeys_full (Transform : FMatrix44f) (OriginCM Forward : FVector3f)
    (hF : Forward.IsNormalized = true) (Ps : List FVector3f) (Data : List FIndexedDistance)
    (hlen : Data.length = Ps.length) :
    WriteKeys Transform OriginCM Forward Ps 0 Data =
      some (KeysFrom Transform OriginCM Forward Ps 0) := by
  rw [WriteKeys_eq Transform OriginCM Forward hF Ps 0 Data (by omega)]
  simp [← hlen]

theorem rdropWhile_append_rtakeWhile {α : Type} (p : α → Bool) (l : List α) :
    l.rdropWhile p ++ l.rtakeWhile p = l := by
  unfold List.rdropWhile List.rtakeWhile
  rw [← List.reverse_append, List.takeWhile_append_dropWhile, List.reverse_reverse]

theorem PartitionLoop_zero {α : Type} (Pred : α → Bool) (Mid : List α) :
    PartitionLoop Pred 0 Mid = ([], Mid) := by
  cases Mid <;> rfl

theorem PartitionLoop_nil {α : Type} (Pred : α → Bool) (Fuel : Nat) :
    PartitionLoop Pred Fuel [] = ([], []) := by
  cases Fuel <;> rfl

theorem PartitionLoop_cons {α : Type} (Pred : α → Bool) (Fuel : Nat) (x : α)
    (Rest : List α) :
    PartitionLoop Pred (Fuel + 1) (x :: Rest) =
      if Pred x then
        ((x :: (PartitionLoop Pred Fuel Rest).1), (PartitionLoop Pred Fuel Rest).2)
      else
        match (Rest.rdropWhile (fun e => !Pred e)).getLast? with
        | none => ([], x :: Rest)
        | some y =>
          ((y :: (PartitionLoop Pred Fuel (Rest.rdropWhile (fun e => !Pred e)).dropLast).1),
           (PartitionLoop Pred Fuel (Rest.rdropWhile (fun e => !Pred e)).dropLast).2 ++
             x :: Rest.rtakeWhile (fun e => !Pred e)) := rfl

/-- With at least `Mid.length` rounds, the two ranges `std::partition` leaves are a
rearrangement of the input, the first holds only elements that satisfy the predicate
and the second only elements that do not. -/
theorem PartitionLoop_spec {α : Type} (Pred : α → Bool) :
    ∀ (Fuel : Nat) (Mid : List α), Mid.length ≤ Fuel →
      ((PartitionLoop Pred Fuel Mid).1 ++ (PartitionLoop Pred Fuel Mid).2).Perm Mid ∧
      (∀ a ∈ (PartitionLoop Pred Fuel Mid).1, Pred a = true) ∧
      (∀ a ∈ (PartitionLoop Pred Fuel Mid).2, Pred a = false) := by
  intro Fuel
  induction Fuel with
  | zero =>
    intro Mid h
    have : Mid = [] := List.length_eq_zero.mp (Nat.le_zero.mp h)
    subst this
    simp [PartitionLoop_nil]
  | succ Fuel ih =>
    intro Mid h
    cases Mid with
    | nil => simp [PartitionLoop_nil]
    | cons x Rest =>
      have hRest : Rest.length ≤ Fuel := by
        rw [List.length_cons] at h; omega
      rw [PartitionLoop_cons]
      by_cases hx : Pred x = true
      · rw [if_pos hx]
        obtain ⟨hp, h1, h2⟩ := ih Rest hRest
        refine ⟨?_, ?_, h2⟩
        · exact List.Perm.cons x hp
        · intro a ha
          rcases List.mem_cons.mp ha with rfl | ha
          · exact hx
          · exact h1 a ha
      · rw [if_neg hx]
        have hxf : Pred x = false := by simpa using hx
        have hsplit := rdropWhile_append_rtakeWhile (fun e => !Pred e) Rest
        have htail : ∀ a ∈ Rest.rtakeWhile (fun e => !Pred e), Pred a = false := by
          intro a ha
          have := List.mem_rtakeWhile_imp ha
          simpa using this
        cases hlast : (Rest.rdropWhile (fun e => !Pred e)).getLast? with
        | none =>
          have hnil : Rest.rdropWhile (fun e => !Pred e) = [] :=
            List.getLast?_eq_none_iff.mp hlast
          rw [hnil, List.nil_append] at hsplit
          refine ⟨by simp, by simp, ?_⟩
          intro a ha
          rcases List.mem_cons.mp ha with rfl | ha
          · exact hxf
          · rw [← hsplit] at ha
            exact htail a ha
        | some y =>
          have hne : Rest.rdropWhile (fun e => !Pred e) ≠ [] := by
            intro hnil
            rw [hnil] at hlast
            simp at hlast
          have hylast : y = (Rest.rdropWhile (fun e => !Pred e)).getLast hne := by
            rw [List.getLast?_eq_getLast _ hne] at hlast
            exact (Option.some.inj hlast).symm
          have hy : Pred y = true := by
            have := List.rdropWhile_last_not (fun e => !Pred e) Rest hne
            rw [← hylast] at this
            simpa using this
          have hkeep : (Rest.rdropWhile (fun e => !Pred e)).dropLast ++ [y] =
              Rest.rdropWhile (fun e => !Pred e) := by
            rw [hylast]
            exact List.dropLast_concat_getLast hne
          have hlen : (Rest.rdropWhile (fun e => !Pred e)).dropLast.length ≤ Fuel := by
            have h1 : (Rest.rdropWhile (fun e => !Pred e)).length ≤ Rest.length :=
              (List.rdropWhile_prefix (fun e => !Pred e) Rest).length_le
            rw [List.length_dropLast]
            omega
          obtain ⟨hp, h1, h2⟩ := ih _ hlen
          refine ⟨?_, ?_, ?_⟩
          · show (y :: _ ++ (_ ++ x :: _)).Perm (x :: Rest)
            have e : x :: Rest = x :: ((Rest.rdropWhile (fun e => !Pred e)).dropLast ++ [y] ++
                Rest.rtakeWhile (fun e => !Pred e)) := by
              rw [hkeep, hsplit]
            rw [e]
            generalize (Rest.rdropWhile (fun e => !Pred e)).dropLast = D at hp ⊢
            generalize Rest.rtakeWhile (fun e => !Pred e) = T
            generalize (PartitionLoop Pred Fuel D).1 = A at hp ⊢
            generalize (PartitionLoop Pred Fuel D).2 = B at hp ⊢
            have step1 : (y :: (A ++ (B ++ x :: T))).Perm (y :: x :: ((A ++ B) ++ T)) := by
              apply List.Perm.cons
              show (A ++ (B ++ x :: T)).Perm (x :: ((A ++ B) ++ T))
              rw [← List.append_assoc]
              exact List.perm_middle
            have step2 : (y :: x :: ((A ++ B) ++ T)).Perm (x :: y :: (D ++ T)) :=
              (List.Perm.swap x y _).trans
                (List.Perm.cons x (List.Perm.cons y (List.Perm.append_right T hp)))
            have step3 : (x :: y :: (D ++ T)).Perm (x :: (D ++ [y] ++ T)) := by
              apply List.Perm.cons
              rw [List.append_assoc, List.singleton_append]
              exact List.perm_middle.symm
            exact (step1.trans step2).trans step3
          · intro a ha
            rcases List.mem_cons.mp ha with rfl | ha
            · exact hy
            · exact h1 a ha
          · intro a ha
            rcases List.mem_append.mp ha with ha | ha
            · exact h2 a ha
            · rcases List.mem_cons.mp ha with rfl | ha
              · exact hxf
              · exact htail a ha

theorem StdPartition_perm {α : Type} (Pred : α → Bool) (Data : List α) :
    ((StdPartition Pred Data).1 ++ (StdPartition Pred Data).2).Perm Data :=
  (PartitionLoop_spec Pred Data.length Data (le_refl _)).1

theorem StdPartition_fst {α : Type} (Pred : α → Bool) (Data : List α) :
    ∀ a ∈ (StdPartition Pred Data).1, Pred a = true :=
  (PartitionLoop_spec Pred Data.length Data (le_refl _)).2.1

theorem StdPartition_snd {α : Type} (Pred : α → Bool) (Data : List α) :
    ∀ a ∈ (StdPartition Pred Data).2, Pred a = false :=
  (PartitionLoop_spec Pred Data.length Data (le_refl _)).2.2

theorem StdPartition_length {α : Type} (Pred : α → Bool) (Data : List α) :
    (StdPartition Pred Data).1.length + (StdPartition Pred Data).2.length = Data.length := by
  rw [← List.length_append]
  exact (StdPartition_perm Pred Data).length_eq

theorem NotAfter_iff (a b : FIndexedDistance) :
    FIndexedDistance.NotAfter a b ↔ a.Distance ≤ b.Distance := by
  unfold FIndexedDistance.NotAfter FIndexedDistance.lt
  simp only [decide_eq_false_iff_not, not_lt]

theorem StdSort_perm (Data : List FIndexedDistance) : (StdSort Data).Perm Data :=
  List.perm_insertionSort _ Data

theorem StdSort_sorted (Data : List FIndexedDistance) :
    (StdSort Data).Pairwise (fun a b => a.Distance ≤ b.Distance) := by
  have h : (StdSort Data).Pairwise FIndexedDistance.NotAfter :=
    List.sorted_insertionSort FIndexedDistance.NotAfter Data
  exact h.imp (fun {a b} hab => (NotAfter_iff a b).mp hab)

theorem DoWork_Partition_eq (Transform : FMatrix44f) (OriginCM Forward : FVector3f)
    (hF : Forward.IsNormalized = true) (Ps : List FVector3f) (Data : List FIndexedDistance)
    (hlen : Data.length = Ps.length) :
    DoWork_Partition Transform OriginCM Forward Ps Data =
      some (StdPartition FIndexedDistance.IsMaybeVisible
        (KeysFrom Transform OriginCM Forward Ps 0)) := by
  unfold DoWork_Partition
  rw [WriteKeys_full Transform OriginCM Forward hF Ps Data hlen]

theorem DoWork_Sort_eq (Transform : FMatrix44f) (OriginCM Forward : FVector3f)
    (hF : Forward.IsNormalized = true) (Ps : List FVector3f) (Data : List FIndexedDistance)
    (hlen : Data.length = Ps.length) :
    DoWork_Sort Transform OriginCM Forward Ps Data =
      some (StdSort (StdPartition FIndexedDistance.IsMaybeVisible
          (KeysFrom Transform OriginCM Forward Ps 0)).1,
        (StdPartition FIndexedDistance.IsMaybeVisible
          (KeysFrom Transform OriginCM Forward Ps 0)).2) := by
  unfold DoWork_Sort
  rw [DoWork_Partition_eq Transform OriginCM Forward hF Ps Data hlen]

theorem IsMaybeVisible_true_iff (K : FIndexedDistance) :
    FIndexedDistance.IsMaybeVisible K = true ↔ K.Distance ≠ FIndexedDistance.NOT_VISIBLE := by
  simp [FIndexedDistance.IsMaybeVisible]

theorem IsMaybeVisible_false_iff (K : FIndexedDistance) :
    FIndexedDistance.IsMaybeVisible K = false ↔ K.Distance = FIndexedDistance.NOT_VISIBLE := by
  simp [FIndexedDistance.IsMaybeVisible]

theorem KeyAt_mem_KeysFrom (Transform : FMatrix44f) (OriginCM Forward : FVector3f)
    (Ps : List FVector3f) (i : Nat) (hi : i < Ps.length) :
    KeyAt Transform OriginCM Forward i Ps[i] ∈ KeysFrom Transform OriginCM Forward Ps 0 := by
  have h := KeysFrom_getElem Transform OriginCM Forward Ps 0 i hi
  rw [Nat.zero_add] at h
  exact List.getElem?_mem h

/-! ## The sort phase of `DoWork`: claims C1 and C2 -/

/-- C1: for every position array with as many entries as the scratch buffer and every
view (origin, normalized forward vector, transform), after the keys are written and
`std::partition` has run with `IsMaybeVisible`, the scratch buffer is a prefix without
any sentinel key followed by a suffix of sentinel keys only, every splat with view-space
depth `z < 10` has its entry in the suffix and none in the prefix, and the two lengths
add up to the number of splats. -/
theorem partition_moves_sentinels_to_suffix (Transform : FMatrix44f)
    (OriginCM Forward : FVector3f) (PositionsM : List FVector3f)
    (DataCPU : List FIndexedDistance) (hF : Forward.IsNormalized = true)
    (hlen : DataCPU.length = PositionsM.length) :
    ∃ Visible Hidden,
      DoWork_Partition Transform OriginCM Forward PositionsM DataCPU = some (Visible, Hidden) ∧
      (∀ K ∈ Visible, K.Distance ≠ FIndexedDistance.NOT_VISIBLE) ∧
      (∀ K ∈ Hidden, K.Distance = FIndexedDistance.NOT_VISIBLE) ∧
      (∀ (i : Nat) (hi : i < PositionsM.length),
        FIndexedDistance.ViewZ OriginCM Forward (PositionWorldCM Transform PositionsM[i]) < 10 →
          (∃ K ∈ Hidden, K.Index = i) ∧ (∀ K ∈ Visible, K.Index ≠ i)) ∧
      Visible.length + Hidden.length = PositionsM.length := by
  have hperm := StdPartition_perm FIndexedDistance.IsMaybeVisible
    (KeysFrom Transform OriginCM Forward PositionsM 0)
  have hfst := StdPartition_fst FIndexedDistance.IsMaybeVisible
    (KeysFrom Transform OriginCM Forward PositionsM 0)
  have hsnd := StdPartition_snd FIndexedDistance.IsMaybeVisible
    (KeysFrom Transform OriginCM Forward PositionsM 0)
  refine ⟨(StdPartition FIndexedDistance.IsMaybeVisible
      (KeysFrom Transform OriginCM Forward PositionsM 0)).1,
    (StdPartition FIndexedDistance.IsMaybeVisible
      (KeysFrom Transform OriginCM Forward PositionsM 0)).2,
    DoWork_Partition_eq Transform OriginCM Forward hF PositionsM DataCPU hlen,
    ?_, ?_, ?_, ?_⟩
  · intro K hK
    exact (IsMaybeVisible_true_iff K).mp (hfst K hK)
  · intro K hK
    exact (IsMaybeVisible_false_iff K).mp (hsnd K hK)
  · intro i hi hz
    have hkey : (KeyAt Transform OriginCM Forward i PositionsM[i]).Distance =
        FIndexedDistance.NOT_VISIBLE := FIndexedDistance.DistanceOf_hidden hz
    constructor
    · have hmem := KeyAt_mem_KeysFrom Transform OriginCM Forward PositionsM i hi
      have hmem2 := (hperm.mem_iff).mpr hmem
      rcases List.mem_append.mp hmem2 with h | h
      · exact absurd hkey ((IsMaybeVisible_true_iff _).mp (hfst _ h))
      · exact ⟨_, h, rfl⟩
    · intro K hK hidx
      have hK2 : K ∈ KeysFrom Transform OriginCM Forward PositionsM 0 :=
        (hperm.mem_iff).mp (List.mem_append_left _ hK)
      obtain ⟨k, hk, hKeq⟩ := mem_KeysFrom Transform OriginCM Forward PositionsM 0 K hK2
      have hki : k = i := by
        rw [hKeq] at hidx
        simpa [KeyAt] using hidx
      subst hki
      have : K.Distance = FIndexedDistance.NOT_VISIBLE := by
        rw [hKeq]
        simpa using hkey
      exact (IsMaybeVisible_true_iff K).mp (hfst K hK) this
  · exact (StdPartition_length _ _).trans (KeysFrom_length Transform OriginCM Forward PositionsM 0)

theorem scenario_forward_normalized : ScenarioForward.IsNormalized = true :=
  FIndexedDistance.forwardX_normalized

theorem scenario_viewZ (x : ℚ) :
    FIndexedDistance.ViewZ ScenarioOriginCM ScenarioForward
      (PositionWorldCM 1 ⟨x, 0, 0⟩) = 100 * x := by
  simp [FIndexedDistance.ViewZ, ScenarioOriginCM, ScenarioForward, PositionWorldCM,
    TransformPosition, FVector3f.smul, FVector3f.sub, FVector3f.Dot, MetersToCentimeters,
    Matrix.one_apply]

/-- Witness of C1: the three splats of the end-to-end scenario. -/
theorem partition_moves_sentinels_to_suffix_witness :
    ScenarioForward.IsNormalized = true ∧
    ScenarioDataCPU.length = ScenarioPositionsM.length ∧
    ∃ Visible Hidden,
      DoWork_Partition 1 ScenarioOriginCM ScenarioForward ScenarioPositionsM ScenarioDataCPU =
        some (Visible, Hidden) ∧
      (∀ K ∈ Visible, K.Distance ≠ FIndexedDistance.NOT_VISIBLE) ∧
      (∀ K ∈ Hidden, K.Distance = FIndexedDistance.NOT_VISIBLE) ∧
      (∀ (i : Nat) (hi : i < ScenarioPositionsM.length),
        FIndexedDistance.ViewZ ScenarioOriginCM ScenarioForward
            (PositionWorldCM 1 ScenarioPositionsM[i]) < 10 →
          (∃ K ∈ Hidden, K.Index = i) ∧ (∀ K ∈ Visible, K.Index ≠ i)) ∧
      Visible.length + Hidden.length = ScenarioPositionsM.length :=
  ⟨scenario_forward_normalized, rfl,
    partition_moves_sentinels_to_suffix 1 ScenarioOriginCM ScenarioForward ScenarioPositionsM
      ScenarioDataCPU scenario_forward_normalized rfl⟩

/-- C2: after `std::partition` and `std::sort` the visible prefix is in ascending order
of the 16-bit key; and whenever three splats lie at view-space depths 5, 50 and 500
(in whatever order they are stored), the buffer ends up as the prefix
`[splat at 500, splat at 50]` with keys 1310 and 13106, followed by the sentinel suffix
`[splat at 5]`. -/
theorem sort_orders_visible_keys :
    (∀ (Transform : FMatrix44f) (OriginCM Forward : FVector3f) (PositionsM : List FVector3f)
        (DataCPU : List FIndexedDistance), Forward.IsNormalized = true →
        DataCPU.length = PositionsM.length →
        ∃ Visible Hidden,
          DoWork_Sort Transform OriginCM Forward PositionsM DataCPU = some (Visible, Hidden) ∧
          ∀ (i j : Nat) (hij : i < j) (hj : j < Visible.length),
            Visible[i].Distance ≤ Visible[j].Distance) ∧
    (∀ (Transform : FMatrix44f) (OriginCM Forward : FVector3f) (Ps : Fin 3 → FVector3f)
        (DataCPU : List FIndexedDistance) (i5 i50 i500 : Fin 3),
        Forward.IsNormalized = true → DataCPU.length = 3 →
        FIndexedDistance.ViewZ OriginCM Forward (PositionWorldCM Transform (Ps i5)) = 5 →
        FIndexedDistance.ViewZ OriginCM Forward (PositionWorldCM Transform (Ps i50)) = 50 →
        FIndexedDistance.ViewZ OriginCM Forward (PositionWorldCM Transform (Ps i500)) = 500 →
        DoWork_Sort Transform OriginCM Forward [Ps 0, Ps 1, Ps 2] DataCPU =
          some ([⟨i500, 1310⟩, ⟨i50, 13106⟩], [⟨i5, 65535⟩])) := by
  constructor
  · intro Transform OriginCM Forward PositionsM DataCPU hF hlen
    refine ⟨_, _, DoWork_Sort_eq Transform OriginCM Forward hF PositionsM DataCPU hlen, ?_⟩
    intro i j hij hj
    exact List.pairwise_iff_getElem.mp (StdSort_sorted _) i j (by omega) hj hij
  · intro Transform OriginCM Forward Ps DataCPU i5 i50 i500 hF hlen h5 h50 h500
    rw [DoWork_Sort_eq Transform OriginCM Forward hF _ DataCPU (by simpa using hlen)]
    have hne1 : i5 ≠ i50 := by
      intro h; rw [h, h50] at h5; norm_num at h5
    have hne2 : i5 ≠ i500 := by
      intro h; rw [h, h500] at h5; norm_num at h5
    have hne3 : i50 ≠ i500 := by
      intro h; rw [h, h500] at h50; norm_num at h50
    simp only [KeysFrom, KeyAt]
    fin_cases i5 <;> fin_cases i50 <;> fin_cases i500 <;>
      first
      | exact absurd rfl hne1
      | exact absurd rfl hne2
      | exact absurd rfl hne3
      | (simp only [Fin.zero_eta, Fin.mk_one, Fin.reduceFinMk] at h5 h50 h500
         simp only [h5, h50, h500, FIndexedDistance.DistanceOf_5,
           FIndexedDistance.DistanceOf_50, FIndexedDistance.DistanceOf_500]
         decide)

/-- Witness of C2: the end-to-end scenario, splats 0, 1 and 2 at depths 5, 50 and 500. -/
theorem sort_orders_visible_keys_witness :
    (∃ Visible Hidden,
      DoWork_Sort 1 ScenarioOriginCM ScenarioForward ScenarioPositionsM ScenarioDataCPU =
        some (Visible, Hidden) ∧
      ∀ (i j : Nat) (hij : i < j) (hj : j < Visible.length),
        Visible[i].Distance ≤ Visible[j].Distance) ∧
    DoWork_Sort 1 ScenarioOriginCM ScenarioForward ScenarioPositionsM ScenarioDataCPU =
      some ([⟨2, 1310⟩, ⟨1, 13106⟩], [⟨0, 65535⟩]) :=
  ⟨sort_orders_visible_keys.1 1 ScenarioOriginCM ScenarioForward ScenarioPositionsM
      ScenarioDataCPU scenario_forward_normalized rfl,
    sort_orders_visible_keys.2 1 ScenarioOriginCM ScenarioForward
      ![⟨5 / 100, 0, 0⟩, ⟨50 / 100, 0, 0⟩, ⟨5, 0, 0⟩] ScenarioDataCPU 0 1 2
      scenario_forward_normalized rfl
      (by rw [Matrix.cons_val_zero, scenario_viewZ]; norm_num)
      (by rw [Matrix.cons_val_one, Matrix.head_cons, scenario_viewZ]; norm_num)
      (by rw [Matrix.cons_val_two, Matrix.tail_cons, Matrix.head_cons, scenario_viewZ]
          norm_num)⟩

/-! ## Packed positions: lemmas -/

theorem pack3_eq (x y z : Nat) (hx : x < 2 ^ 11) (hy : y < 2 ^ 11) (hz : z < 2 ^ 10) :
    ((z <<< 22) % 2 ^ 32) ||| ((y <<< 11) % 2 ^ 32) ||| x = 2 ^ 11 * (2 ^ 11 * z + y) + x := by
  have e1 : (z <<< 22) % 2 ^ 32 = 2 ^ 22 * z := by
    rw [Nat.shiftLeft_eq, Nat.mod_eq_of_lt (by omega)]; omega
  have e2 : (y <<< 11) % 2 ^ 32 = 2 ^ 11 * y := by
    rw [Nat.shiftLeft_eq, Nat.mod_eq_of_lt (by omega)]; omega
  rw [e1, e2, ← Nat.mul_add_lt_is_or (by omega : 2 ^ 11 * y < 2 ^ 22) z]
  have e3 : 2 ^ 22 * z + 2 ^ 11 * y = 2 ^ 11 * (2 ^ 11 * z + y) := by omega
  rw [e3, ← Nat.mul_add_lt_is_or hx]

theorem ToUNorm_MaxValue (Bits : Nat) (hB : Bits ≤ 32) :
    ((1 <<< Bits) - 1) % 2 ^ 32 = 2 ^ Bits - 1 := by
  rw [Nat.shiftLeft_eq, Nat.one_mul]
  apply Nat.mod_eq_of_lt
  have h1 : 2 ^ Bits ≤ 2 ^ 32 := Nat.pow_le_pow_right (by norm_num) hB
  have h2 : 0 < 2 ^ Bits := Nat.two_pow_pos Bits
  omega

theorem stdRound_of_nonneg {x : ℚ} (h : 0 ≤ x) : stdRound x = ⌊x + 1 / 2⌋ := by
  simp [stdRound, h]

theorem toUInt32_intCast {r : ℤ} (h0 : 0 ≤ r) (h1 : r < 2 ^ 32) :
    toUInt32 (r : ℚ) = r.toNat := by
  unfold toUInt32 truncToInt
  have : (0 : ℚ) ≤ (r : ℚ) := by exact_mod_cast h0
  rw [if_pos this, Int.floor_intCast, Int.emod_eq_of_lt h0 h1]

/-- For an argument in `[0, 1]` the result of `ToUNorm` is within one half of
`F * (2 ^ Bits - 1)` and at most `2 ^ Bits - 1`. -/
theorem ToUNorm_spec (Bits : Nat) (hB : Bits ≤ 32) (F : ℚ) (h0 : 0 ≤ F) (h1 : F ≤ 1) :
    ToUNorm Bits F ≤ 2 ^ Bits - 1 ∧
      |(ToUNorm Bits F : ℚ) - F * ((2 ^ Bits - 1 : Nat) : ℚ)| ≤ 1 / 2 := by
  unfold ToUNorm
  simp only
  rw [ToUNorm_MaxValue Bits hB]
  by_cases hF0 : F = 0
  · rw [if_pos hF0, hF0]
    simp
  · rw [if_neg hF0, if_neg (not_lt.mpr h1)]
    set M : Nat := 2 ^ Bits - 1 with hM
    have hMlt : (M : ℤ) < 2 ^ 32 := by
      have h1 : 2 ^ Bits ≤ 2 ^ 32 := Nat.pow_le_pow_right (by norm_num) hB
      have h2 : 0 < 2 ^ Bits := Nat.two_pow_pos Bits
      have : M < 2 ^ 32 := by omega
      exact_mod_cast this
    have hFM0 : 0 ≤ F * (M : ℚ) := mul_nonneg h0 (Nat.cast_nonneg M)
    have hFM1 : F * (M : ℚ) ≤ (M : ℚ) := by
      have := mul_le_mul_of_nonneg_right h1 (Nat.cast_nonneg (α := ℚ) M)
      simpa using this
    rw [stdRound_of_nonneg hFM0]
    have hr0 : 0 ≤ ⌊F * (M : ℚ) + 1 / 2⌋ := Int.floor_nonneg.mpr (by linarith)
    have hrM : ⌊F * (M : ℚ) + 1 / 2⌋ ≤ (M : ℤ) := by
      have : ⌊F * (M : ℚ) + 1 / 2⌋ < (M : ℤ) + 1 := by
        rw [Int.floor_lt]; push_cast; linarith
      omega
    rw [toUInt32_intCast hr0 (lt_of_le_of_lt hrM hMlt)]
    constructor
    · omega
    · have hcast : ((⌊F * (M : ℚ) + 1 / 2⌋.toNat : Nat) : ℚ) = (⌊F * (M : ℚ) + 1 / 2⌋ : ℚ) := by
        have := Int.toNat_of_nonneg hr0
        exact_mod_cast this
      rw [hcast, abs_le]
      have hle := Int.floor_le (F * (M : ℚ) + 1 / 2)
      have hlt := Int.lt_floor_add_one (F * (M : ℚ) + 1 / 2)
      constructor <;> linarith

theorem foldl_ComponentMax_ge (Ps : List FVector3f) :
    ∀ (Acc : FVector3f),
      (Acc.X ≤ (Ps.foldl (fun A P => A.ComponentMax P) Acc).X ∧
        Acc.Y ≤ (Ps.foldl (fun A P => A.ComponentMax P) Acc).Y ∧
        Acc.Z ≤ (Ps.foldl (fun A P => A.ComponentMax P) Acc).Z) ∧
      ∀ p ∈ Ps, p.X ≤ (Ps.foldl (fun A P => A.ComponentMax P) Acc).X ∧
        p.Y ≤ (Ps.foldl (fun A P => A.ComponentMax P) Acc).Y ∧
        p.Z ≤ (Ps.foldl (fun A P => A.ComponentMax P) Acc).Z := by
  induction Ps with
  | nil => intro Acc; simp
  | cons P Rest ih =>
    intro Acc
    obtain ⟨⟨hx, hy, hz⟩, hall⟩ := ih (Acc.ComponentMax P)
    simp only [List.foldl_cons]
    have ax : Acc.X ≤ (Acc.ComponentMax P).X := le_max_left _ _
    have ay : Acc.Y ≤ (Acc.ComponentMax P).Y := le_max_left _ _
    have az : Acc.Z ≤ (Acc.ComponentMax P).Z := le_max_left _ _
    have px : P.X ≤ (Acc.ComponentMax P).X := le_max_right _ _
    have py : P.Y ≤ (Acc.ComponentMax P).Y := le_max_right _ _
    have pz : P.Z ≤ (Acc.ComponentMax P).Z := le_max_right _ _
    refine ⟨⟨le_trans ax hx, le_trans ay hy, le_trans az hz⟩, ?_⟩
    intro p hp
    rcases List.mem_cons.mp hp with rfl | hp
    · exact ⟨le_trans px hx, le_trans py hy, le_trans pz hz⟩
    · exact hall p hp

theorem foldl_ComponentMin_le (Ps : List FVector3f) :
    ∀ (Acc : FVector3f),
      ((Ps.foldl (fun A P => A.ComponentMin P) Acc).X ≤ Acc.X ∧
        (Ps.foldl (fun A P => A.ComponentMin P) Acc).Y ≤ Acc.Y ∧
        (Ps.foldl (fun A P => A.ComponentMin P) Acc).Z ≤ Acc.Z) ∧
      ∀ p ∈ Ps, (Ps.foldl (fun A P => A.ComponentMin P) Acc).X ≤ p.X ∧
        (Ps.foldl (fun A P => A.ComponentMin P) Acc).Y ≤ p.Y ∧
        (Ps.foldl (fun A P => A.ComponentMin P) Acc).Z ≤ p.Z := by
  induction Ps with
  | nil => intro Acc; simp
  | cons P Rest ih =>
    intro Acc
    obtain ⟨⟨hx, hy, hz⟩, hall⟩ := ih (Acc.ComponentMin P)
    simp only [List.foldl_cons]
    have ax : (Acc.ComponentMin P).X ≤ Acc.X := min_le_left _ _
    have ay : (Acc.ComponentMin P).Y ≤ Acc.Y := min_le_left _ _
    have az : (Acc.ComponentMin P).Z ≤ Acc.Z := min_le_left _ _
    have px : (Acc.ComponentMin P).X ≤ P.X := min_le_right _ _
    have py : (Acc.ComponentMin P).Y ≤ P.Y := min_le_right _ _
    have pz : (Acc.ComponentMin P).Z ≤ P.Z := min_le_right _ _
    refine ⟨⟨le_trans hx ax, le_trans hy ay, le_trans hz az⟩, ?_⟩
    intro p hp
    rcases List.mem_cons.mp hp with rfl | hp
    · exact ⟨le_trans hx px, le_trans hy py, le_trans hz pz⟩
    · exact hall p hp

theorem le_BoundsMax (Ps : List FVector3f) (p : FVector3f) (hp : p ∈ Ps) :
    p.X ≤ (BoundsMax Ps).X ∧ p.Y ≤ (BoundsMax Ps).Y ∧ p.Z ≤ (BoundsMax Ps).Z :=
  (foldl_ComponentMax_ge Ps _).2 p hp

theorem BoundsMin_le (Ps : List FVector3f) (p : FVector3f) (hp : p ∈ Ps) :
    (BoundsMin Ps).X ≤ p.X ∧ (BoundsMin Ps).Y ≤ p.Y ∧ (BoundsMin Ps).Z ≤ p.Z :=
  (foldl_ComponentMin_le Ps _).2 p hp

theorem ToUNorm_lt_of_unit (Bits : Nat) (hB : Bits ≤ 32) (F : ℚ) (h0 : 0 ≤ F) (h1 : F ≤ 1) :
    ToUNorm Bits F < 2 ^ Bits := by
  have h := (ToUNorm_spec Bits hB F h0 h1).1
  have := Nat.two_pow_pos Bits
  omega

theorem foldl_ComponentMax_lub (Ps : List FVector3f) (c : FVector3f) :
    ∀ (Acc : FVector3f), (Acc.X ≤ c.X ∧ Acc.Y ≤ c.Y ∧ Acc.Z ≤ c.Z) →
      (∀ p ∈ Ps, p.X ≤ c.X ∧ p.Y ≤ c.Y ∧ p.Z ≤ c.Z) →
      (Ps.foldl (fun A P => A.ComponentMax P) Acc).X ≤ c.X ∧
        (Ps.foldl (fun A P => A.ComponentMax P) Acc).Y ≤ c.Y ∧
        (Ps.foldl (fun A P => A.ComponentMax P) Acc).Z ≤ c.Z := by
  induction Ps with
  | nil => intro Acc hA _; exact hA
  | cons P Rest ih =>
    intro Acc hA hall
    simp only [List.foldl_cons]
    have hP := hall P (List.mem_cons_self _ _)
    exact ih (Acc.ComponentMax P)
      ⟨max_le hA.1 hP.1, max_le hA.2.1 hP.2.1, max_le hA.2.2 hP.2.2⟩
      (fun p hp => hall p (List.mem_cons_of_mem _ hp))

theorem foldl_ComponentMin_glb (Ps : List FVector3f) (c : FVector3f) :
    ∀ (Acc : FVector3f), (c.X ≤ Acc.X ∧ c.Y ≤ Acc.Y ∧ c.Z ≤ Acc.Z) →
      (∀ p ∈ Ps, c.X ≤ p.X ∧ c.Y ≤ p.Y ∧ c.Z ≤ p.Z) →
      c.X ≤ (Ps.foldl (fun A P => A.ComponentMin P) Acc).X ∧
        c.Y ≤ (Ps.foldl (fun A P => A.ComponentMin P) Acc).Y ∧
        c.Z ≤ (Ps.foldl (fun A P => A.ComponentMin P) Acc).Z := by
  induction Ps with
  | nil => intro Acc hA _; exact hA
  | cons P Rest ih =>
    intro Acc hA hall
    simp only [List.foldl_cons]
    have hP := hall P (List.mem_cons_self _ _)
    exact ih (Acc.ComponentMin P)
      ⟨le_min hA.1 hP.1, le_min hA.2.1 hP.2.1, le_min hA.2.2 hP.2.2⟩
      (fun p hp => hall p (List.mem_cons_of_mem _ hp))

/-- For finite positions the bounds found by the first loop are the bounding box. -/
theorem Bounds_eq_of_IsBoundingBox (Ps : List FVector3f) (Lo Hi : FVector3f)
    (hfin : ∀ p ∈ Ps, p.IsFinite) (hbox : IsBoundingBox Ps Lo Hi) :
    BoundsMin Ps = Lo ∧ BoundsMax Ps = Hi := by
  obtain ⟨hin, ⟨ax, hax, eax⟩, ⟨ay, hay, eay⟩, ⟨az, haz, eaz⟩,
    ⟨bx, hbx, ebx⟩, ⟨wy, hby, eby⟩, ⟨bz, hbz, ebz⟩⟩ := hbox
  have hLoFin : Lo.X ≤ FLT_MAX ∧ Lo.Y ≤ FLT_MAX ∧ Lo.Z ≤ FLT_MAX :=
    ⟨eax ▸ (hfin ax hax).1.2, eay ▸ (hfin ay hay).2.1.2, eaz ▸ (hfin az haz).2.2.2⟩
  have hHiFin : FLT_LOWEST ≤ Hi.X ∧ FLT_LOWEST ≤ Hi.Y ∧ FLT_LOWEST ≤ Hi.Z :=
    ⟨ebx ▸ (hfin bx hbx).1.1, eby ▸ (hfin wy hby).2.1.1, ebz ▸ (hfin bz hbz).2.2.1⟩
  have hmin := foldl_ComponentMin_glb Ps Lo ⟨FLT_MAX, FLT_MAX, FLT_MAX⟩ hLoFin
    (fun p hp => ⟨(hin p hp).1.1, (hin p hp).2.1.1, (hin p hp).2.2.1⟩)
  have hmax := foldl_ComponentMax_lub Ps Hi ⟨FLT_LOWEST, FLT_LOWEST, FLT_LOWEST⟩ hHiFin
    (fun p hp => ⟨(hin p hp).1.2, (hin p hp).2.1.2, (hin p hp).2.2.2⟩)
  constructor
  · have h1 : (BoundsMin Ps).X = Lo.X :=
      le_antisymm (eax ▸ (BoundsMin_le Ps ax hax).1) hmin.1
    have h2 : (BoundsMin Ps).Y = Lo.Y :=
      le_antisymm (eay ▸ (BoundsMin_le Ps ay hay).2.1) hmin.2.1
    have h3 : (BoundsMin Ps).Z = Lo.Z :=
      le_antisymm (eaz ▸ (BoundsMin_le Ps az haz).2.2) hmin.2.2
    cases hB : BoundsMin Ps
    cases Lo
    simp_all
  · have h1 : (BoundsMax Ps).X = Hi.X :=
      le_antisymm hmax.1 (ebx ▸ (le_BoundsMax Ps bx hbx).1)
    have h2 : (BoundsMax Ps).Y = Hi.Y :=
      le_antisymm hmax.2.1 (eby ▸ (le_BoundsMax Ps wy hby).2.1)
    have h3 : (BoundsMax Ps).Z = Hi.Z :=
      le_antisymm hmax.2.2 (ebz ▸ (le_BoundsMax Ps bz hbz).2.2)
    cases hB : BoundsMax Ps
    cases Hi
    simp_all


/-! ## Packed covariances: lemmas and claim C8 -/

theorem shiftLeft_and_shiftLeft (a b k : Nat) : (a <<< k) &&& (b <<< k) = (a &&& b) <<< k := by
  apply Nat.eq_of_testBit_eq
  intro i
  simp only [Nat.testBit_and, Nat.testBit_shiftLeft]
  by_cases h : k ≤ i <;> simp [h]

/-- The exponent field written by `ToFloat` with 5 exponent bits: the clamped, biased
exponent, between 1 and 30, shifted above the significand. -/
theorem ToFloat_exponent_field (s : Nat) (hs : s ≤ 23) (e : ℤ) :
    ∃ E : Nat, 1 ≤ E ∧ E ≤ 30 ∧
      ((((max (-(((1 <<< (5 - 1) : Nat) : ℤ) - 1) + 1) (min e (((1 <<< (5 - 1) : Nat) : ℤ) - 1)) +
          ((((1 <<< (5 - 1) : Nat) : ℤ)) - 1)) * 2 ^ s) % 2 ^ 32).toNat &&&
        (((1 <<< 5) - 1) <<< s)) = 2 ^ s * E := by
  have hb : (((1 <<< (5 - 1) : Nat) : ℤ) - 1) = 15 := by
    have h16 : (1 <<< (5 - 1) : Nat) = 16 := by decide
    rw [h16]; norm_num
  rw [hb]
  have h1 : 1 ≤ max (-15 + 1) (min e 15) + 15 := by
    have := le_max_left (-15 + 1 : ℤ) (min e 15)
    omega
  have h2 : max (-15 + 1) (min e 15) + 15 ≤ 30 := by
    have : max (-15 + 1 : ℤ) (min e 15) ≤ 15 := max_le (by norm_num) (min_le_right _ _)
    omega
  obtain ⟨E, hE⟩ := Int.eq_ofNat_of_zero_le (by omega : 0 ≤ max (-15 + 1) (min e 15) + 15)
  rw [hE] at h1 h2 ⊢
  have hE1 : 1 ≤ E := by exact_mod_cast h1
  have hE2 : E ≤ 30 := by exact_mod_cast h2
  refine ⟨E, hE1, hE2, ?_⟩
  have hpow : 2 ^ s ≤ 2 ^ 23 := Nat.pow_le_pow_right (by norm_num) hs
  have hlt : E * 2 ^ s < 2 ^ 32 := by
    calc E * 2 ^ s ≤ 30 * 2 ^ 23 := Nat.mul_le_mul hE2 hpow
      _ < 2 ^ 32 := by norm_num
  have hcast : ((E : ℤ) * 2 ^ s % 2 ^ 32).toNat = E * 2 ^ s := by
    have : ((E : ℤ) * 2 ^ s % 2 ^ 32) = ((E * 2 ^ s % 2 ^ 32 : Nat) : ℤ) := by
      push_cast; rfl
    rw [this, Int.toNat_ofNat, Nat.mod_eq_of_lt hlt]
  rw [hcast, ← Nat.shiftLeft_eq, shiftLeft_and_shiftLeft]
  have h31 : (1 <<< 5) - 1 = 2 ^ 5 - 1 := by decide
  rw [h31, Nat.and_pow_two_sub_one_eq_mod, Nat.mod_eq_of_lt (by omega), Nat.shiftLeft_eq,
    Nat.mul_comm]

/-- The shape of the result of the sign-less `ToFloat<0, 5, SigBits>` on a non-zero
float: exponent field in `[1, 30]`, significand below `2 ^ SigBits`. -/
theorem ToFloat_unsigned_shape (s : Nat) (hs : s ≤ 23) (Raw : Nat) (hRaw : Raw % 2 ^ 31 ≠ 0) :
    ∃ E m : Nat, 1 ≤ E ∧ E ≤ 30 ∧ m < 2 ^ s ∧ ToFloat 0 5 s Raw = 2 ^ s * E + m := by
  obtain ⟨E, hE1, hE2, hE⟩ :=
    ToFloat_exponent_field s hs ((((Raw &&& 0x7F800000) >>> 23 : Nat) : ℤ) - 127)
  refine ⟨E, ((Raw &&& 0x007FFFFF) >>> (23 - s)) &&& ((1 <<< s) - 1), hE1, hE2, ?_, ?_⟩
  · have : (1 <<< s) - 1 = 2 ^ s - 1 := by rw [Nat.shiftLeft_eq, Nat.one_mul]
    rw [this, Nat.and_pow_two_sub_one_eq_mod]
    exact Nat.mod_lt _ (Nat.two_pow_pos s)
  · unfold ToFloat
    rw [if_neg hRaw]
    simp only [Nat.zero_ne_one, if_false]
    rw [hE]
    have hm : ((Raw &&& 0x007FFFFF) >>> (23 - s)) &&& ((1 <<< s) - 1) < 2 ^ s := by
      have : (1 <<< s) - 1 = 2 ^ s - 1 := by rw [Nat.shiftLeft_eq, Nat.one_mul]
      rw [this, Nat.and_pow_two_sub_one_eq_mod]
      exact Nat.mod_lt _ (Nat.two_pow_pos s)
    exact (Nat.mul_add_lt_is_or hm E).symm

theorem ToFloat_zero (Signed ExpBits SigBits Raw : Nat) (hRaw : Raw % 2 ^ 31 = 0) :
    ToFloat Signed ExpBits SigBits Raw = 0 := by
  unfold ToFloat
  rw [if_pos hRaw]

theorem ToFloat_lt (Signed s Raw : Nat) (hSigned : Signed ≤ 1) (hs : s ≤ 23) :
    ToFloat Signed 5 s Raw < 2 ^ (Signed + 5 + s) := by
  by_cases hRaw : Raw % 2 ^ 31 = 0
  · rw [ToFloat_zero _ _ _ _ hRaw]
    exact Nat.two_pow_pos _
  · obtain ⟨E, hE1, hE2, hE⟩ :=
      ToFloat_exponent_field s hs ((((Raw &&& 0x7F800000) >>> 23 : Nat) : ℤ) - 127)
    have hm : ((Raw &&& 0x007FFFFF) >>> (23 - s)) &&& ((1 <<< s) - 1) < 2 ^ s := by
      have : (1 <<< s) - 1 = 2 ^ s - 1 := by rw [Nat.shiftLeft_eq, Nat.one_mul]
      rw [this, Nat.and_pow_two_sub_one_eq_mod]
      exact Nat.mod_lt _ (Nat.two_pow_pos s)
    have hpos := Nat.two_pow_pos s
    have h5 : 2 ^ (5 + s) = 32 * 2 ^ s := by rw [Nat.pow_add]
    have hexp : 2 ^ s * E < 2 ^ (5 + s) := by
      rw [h5]
      have := Nat.mul_le_mul_left (2 ^ s) hE2
      omega
    have hmlt : ((Raw &&& 0x007FFFFF) >>> (23 - s)) &&& ((1 <<< s) - 1) < 2 ^ (5 + s) := by
      rw [h5]; omega
    unfold ToFloat
    rw [if_neg hRaw]
    simp only
    rw [hE]
    interval_cases Signed
    · simp only [Nat.zero_ne_one, if_false, Nat.zero_add]
      exact Nat.or_lt_two_pow hexp hmlt
    · simp only [if_true]
      have h6 : 2 ^ (1 + 5 + s) = 2 * 2 ^ (5 + s) := by
        rw [show 1 + 5 + s = (5 + s) + 1 by omega, Nat.pow_succ]; omega
      have hsign : ((Raw &&& 0x80000000) >>> (31 - 5 - s)) &&& (1 <<< (5 + s)) <
          2 ^ (1 + 5 + s) := by
        apply Nat.and_lt_two_pow
        rw [Nat.shiftLeft_eq, Nat.one_mul, h6]
        have := Nat.two_pow_pos (5 + s)
        omega
      have hexp2 : 2 ^ s * E < 2 ^ (1 + 5 + s) := by rw [h6]; omega
      have hmlt2 : ((Raw &&& 0x007FFFFF) >>> (23 - s)) &&& ((1 <<< s) - 1) <
          2 ^ (1 + 5 + s) := by rw [h6]; omega
      exact Nat.or_lt_two_pow (Nat.or_lt_two_pow hsign hexp2) hmlt2

theorem pack6_eq (xx xy xz yy yz zz : Nat) (hxx : xx < 2 ^ 10) (hxy : xy < 2 ^ 11)
    (hxz : xz < 2 ^ 11) (hyy : yy < 2 ^ 10) (hyz : yz < 2 ^ 11) (hzz : zz < 2 ^ 11) :
    ((xx <<< 54) % 2 ^ 64) ||| ((xy <<< 43) % 2 ^ 64) ||| ((xz <<< 32) % 2 ^ 64) |||
      ((yy <<< 22) % 2 ^ 32) ||| ((yz <<< 11) % 2 ^ 32) ||| zz =
      2 ^ 11 * (2 ^ 11 * (2 ^ 10 * (2 ^ 11 * (2 ^ 11 * xx + xy) + xz) + yy) + yz) + zz := by
  have e1 : (xx <<< 54) % 2 ^ 64 = 2 ^ 54 * xx := by
    rw [Nat.shiftLeft_eq, Nat.mod_eq_of_lt (by omega)]; omega
  have e2 : (xy <<< 43) % 2 ^ 64 = 2 ^ 43 * xy := by
    rw [Nat.shiftLeft_eq, Nat.mod_eq_of_lt (by omega)]; omega
  have e3 : (xz <<< 32) % 2 ^ 64 = 2 ^ 32 * xz := by
    rw [Nat.shiftLeft_eq, Nat.mod_eq_of_lt (by omega)]; omega
  have e4 : (yy <<< 22) % 2 ^ 32 = 2 ^ 22 * yy := by
    rw [Nat.shiftLeft_eq, Nat.mod_eq_of_lt (by omega)]; omega
  have e5 : (yz <<< 11) % 2 ^ 32 = 2 ^ 11 * yz := by
    rw [Nat.shiftLeft_eq, Nat.mod_eq_of_lt (by omega)]; omega
  rw [e1, e2, e3, e4, e5]
  rw [← Nat.mul_add_lt_is_or (by omega : 2 ^ 43 * xy < 2 ^ 54) xx]
  have a1 : 2 ^ 54 * xx + 2 ^ 43 * xy = 2 ^ 43 * (2 ^ 11 * xx + xy) := by omega
  rw [a1, ← Nat.mul_add_lt_is_or (by omega : 2 ^ 32 * xz < 2 ^ 43)]
  have a2 : 2 ^ 43 * (2 ^ 11 * xx + xy) + 2 ^ 32 * xz =
      2 ^ 32 * (2 ^ 11 * (2 ^ 11 * xx + xy) + xz) := by omega
  rw [a2, ← Nat.mul_add_lt_is_or (by omega : 2 ^ 22 * yy < 2 ^ 32)]
  have a3 : 2 ^ 32 * (2 ^ 11 * (2 ^ 11 * xx + xy) + xz) + 2 ^ 22 * yy =
      2 ^ 22 * (2 ^ 10 * (2 ^ 11 * (2 ^ 11 * xx + xy) + xz) + yy) := by omega
  rw [a3, ← Nat.mul_add_lt_is_or (by omega : 2 ^ 11 * yz < 2 ^ 22)]
  have a4 : 2 ^ 22 * (2 ^ 10 * (2 ^ 11 * (2 ^ 11 * xx + xy) + xz) + yy) + 2 ^ 11 * yz =
      2 ^ 11 * (2 ^ 11 * (2 ^ 10 * (2 ^ 11 * (2 ^ 11 * xx + xy) + xz) + yy) + yz) := by omega
  rw [a4, ← Nat.mul_add_lt_is_or hzz]

theorem FPackedCovMat_Packed_eq (Sigma : Fin 4 → Fin 4 → Nat) :
    (FPackedCovMat.create Sigma).Packed =
      2 ^ 11 * (2 ^ 11 * (2 ^ 10 * (2 ^ 11 * (2 ^ 11 * ToFloat 0 5 5 (Sigma 0 0) +
        ToFloat 1 5 5 (Sigma 0 1)) + ToFloat 1 5 5 (Sigma 0 2)) + ToFloat 0 5 5 (Sigma 1 1)) +
        ToFloat 1 5 5 (Sigma 1 2)) + ToFloat 0 5 6 (Sigma 2 2) := by
  unfold FPackedCovMat.create
  simp only
  exact pack6_eq _ _ _ _ _ _
    (ToFloat_lt 0 5 _ (by norm_num) (by norm_num))
    (ToFloat_lt 1 5 _ (by norm_num) (by norm_num))
    (ToFloat_lt 1 5 _ (by norm_num) (by norm_num))
    (ToFloat_lt 0 5 _ (by norm_num) (by norm_num))
    (ToFloat_lt 1 5 _ (by norm_num) (by norm_num))
    (ToFloat_lt 0 6 _ (by norm_num) (by norm_num))

theorem FieldXX_create (Sigma : Fin 4 → Fin 4 → Nat) :
    (FPackedCovMat.create Sigma).FieldXX = ToFloat 0 5 5 (Sigma 0 0) := by
  have h1 := ToFloat_lt 0 5 (Sigma 0 0) (by norm_num) (by norm_num)
  have h2 := ToFloat_lt 1 5 (Sigma 0 1) (by norm_num) (by norm_num)
  have h3 := ToFloat_lt 1 5 (Sigma 0 2) (by norm_num) (by norm_num)
  have h4 := ToFloat_lt 0 5 (Sigma 1 1) (by norm_num) (by norm_num)
  have h5 := ToFloat_lt 1 5 (Sigma 1 2) (by norm_num) (by norm_num)
  have h6 := ToFloat_lt 0 6 (Sigma 2 2) (by norm_num) (by norm_num)
  unfold FPackedCovMat.FieldXX
  rw [FPackedCovMat_Packed_eq]
  have : (0x3FF : Nat) = 2 ^ 10 - 1 := by norm_num
  rw [this, Nat.and_pow_two_sub_one_eq_mod, Nat.shiftRight_eq_div_pow]
  omega

theorem FieldYY_create (Sigma : Fin 4 → Fin 4 → Nat) :
    (FPackedCovMat.create Sigma).FieldYY = ToFloat 0 5 5 (Sigma 1 1) := by
  have h1 := ToFloat_lt 0 5 (Sigma 0 0) (by norm_num) (by norm_num)
  have h2 := ToFloat_lt 1 5 (Sigma 0 1) (by norm_num) (by norm_num)
  have h3 := ToFloat_lt 1 5 (Sigma 0 2) (by norm_num) (by norm_num)
  have h4 := ToFloat_lt 0 5 (Sigma 1 1) (by norm_num) (by norm_num)
  have h5 := ToFloat_lt 1 5 (Sigma 1 2) (by norm_num) (by norm_num)
  have h6 := ToFloat_lt 0 6 (Sigma 2 2) (by norm_num) (by norm_num)
  unfold FPackedCovMat.FieldYY
  rw [FPackedCovMat_Packed_eq]
  have : (0x3FF : Nat) = 2 ^ 10 - 1 := by norm_num
  rw [this, Nat.and_pow_two_sub_one_eq_mod, Nat.shiftRight_eq_div_pow]
  omega

theorem FieldZZ_create (Sigma : Fin 4 → Fin 4 → Nat) :
    (FPackedCovMat.create Sigma).FieldZZ = ToFloat 0 5 6 (Sigma 2 2) := by
  have h1 := ToFloat_lt 0 5 (Sigma 0 0) (by norm_num) (by norm_num)
  have h2 := ToFloat_lt 1 5 (Sigma 0 1) (by norm_num) (by norm_num)
  have h3 := ToFloat_lt 1 5 (Sigma 0 2) (by norm_num) (by norm_num)
  have h4 := ToFloat_lt 0 5 (Sigma 1 1) (by norm_num) (by norm_num)
  have h5 := ToFloat_lt 1 5 (Sigma 1 2) (by norm_num) (by norm_num)
  have h6 := ToFloat_lt 0 6 (Sigma 2 2) (by norm_num) (by norm_num)
  unfold FPackedCovMat.FieldZZ
  rw [FPackedCovMat_Packed_eq]
  have : (0x7FF : Nat) = 2 ^ 11 - 1 := by norm_num
  rw [this, Nat.and_pow_two_sub_one_eq_mod]
  omega

/-- The decoder accepts every field the sign-less `ToFloat<0, 5, SigBits>` writes, and
the decoded value is not negative. -/
theorem DecodeUFloat_ToFloat_nonneg (s : Nat) (hs : s ≤ 23) (Raw : Nat) :
    ∃ v : ℚ, DecodeUFloat 5 s (ToFloat 0 5 s Raw) = some v ∧ 0 ≤ v := by
  by_cases hRaw : Raw % 2 ^ 31 = 0
  · rw [ToFloat_zero _ _ _ _ hRaw]
    refine ⟨(2 : ℚ) ^ (1 - ((2 : ℤ) ^ (5 - 1) - 1)) * (((0 % 2 ^ s : Nat) : ℚ) / 2 ^ s), ?_, ?_⟩
    · unfold DecodeUFloat
      simp
    · simp
  · obtain ⟨E, m, hE1, hE2, hm, hshape⟩ := ToFloat_unsigned_shape s hs Raw hRaw
    have hpos := Nat.two_pow_pos s
    have hE : ((2 ^ s * E + m) >>> s) % 2 ^ 5 = E := by
      rw [Nat.shiftRight_eq_div_pow, Nat.mul_add_div hpos, Nat.div_eq_of_lt hm, Nat.add_zero]
      omega
    have hM : (2 ^ s * E + m) % 2 ^ s = m := by
      rw [Nat.mul_add_mod, Nat.mod_eq_of_lt hm]
    refine ⟨(2 : ℚ) ^ ((E : ℤ) - ((2 : ℤ) ^ (5 - 1) - 1)) * (1 + (m : ℚ) / 2 ^ s), ?_, ?_⟩
    · rw [hshape]
      unfold DecodeUFloat
      simp only
      rw [hE, hM, if_neg (by omega), if_neg (by omega)]
    · positivity

theorem scale_sandwich_diag (R : FMatrix44f) (v : FVector3f) (i : Fin 4) :
    (R.transpose * FScaleMatrix44f_Make v * FScaleMatrix44f_Make v * R) i i =
      (v.X * R 0 i) ^ 2 + (v.Y * R 1 i) ^ 2 + (v.Z * R 2 i) ^ 2 + (R 3 i) ^ 2 := by
  simp [Matrix.mul_apply, Fin.sum_univ_four, FScaleMatrix44f_Make, Matrix.transpose_apply]
  ring

theorem CovarianceMatrix_diag_nonneg (Rotation : FQuat4f) (ScaleMeters : FVector3f)
    (i : Fin 4) : 0 ≤ CovarianceMatrix Rotation ScaleMeters i i := by
  unfold CovarianceMatrix
  rw [scale_sandwich_diag]
  positivity

/-- C8: for every covariance matrix built by `SetCovariancesQuatScaleMeters` from a
rotation and a scale, the three diagonal terms are not negative, the sign-less fields
XX, YY and ZZ of the packed matrix are the encodings of these terms, and the values
decoded from the three fields exist and are not negative.  The decoder is the one of
the small-float format (the shaders are not among the sources); the bit pattern under
which a float is stored is arbitrary. -/
theorem covariance_diagonal_never_negative (FloatBits : ℚ → Nat) (NumSplats : Nat)
    (Rotations : List FQuat4f) (ScalesMeters : List FVector3f)
    (hR : Rotations.length = NumSplats) (hS : ScalesMeters.length = NumSplats) :
    ∃ Data, SetCovariancesQuatScaleMeters FloatBits NumSplats Rotations ScalesMeters =
        some Data ∧
      Data.length = NumSplats ∧
      ∀ (i : Nat) (Rotation : FQuat4f) (ScaleMeters : FVector3f) (C : FPackedCovMat),
        Rotations[i]? = some Rotation → ScalesMeters[i]? = some ScaleMeters →
        Data[i]? = some C →
        (0 ≤ CovarianceMatrix Rotation ScaleMeters 0 0 ∧
          0 ≤ CovarianceMatrix Rotation ScaleMeters 1 1 ∧
          0 ≤ CovarianceMatrix Rotation ScaleMeters 2 2) ∧
        (C.FieldXX = ToFloat 0 5 5 (FloatBits (CovarianceMatrix Rotation ScaleMeters 0 0)) ∧
          C.FieldYY = ToFloat 0 5 5 (FloatBits (CovarianceMatrix Rotation ScaleMeters 1 1)) ∧
          C.FieldZZ = ToFloat 0 5 6 (FloatBits (CovarianceMatrix Rotation ScaleMeters 2 2))) ∧
        (∃ v : ℚ, DecodeUFloat 5 5 C.FieldXX = some v ∧ 0 ≤ v) ∧
        (∃ v : ℚ, DecodeUFloat 5 5 C.FieldYY = some v ∧ 0 ≤ v) ∧
        (∃ v : ℚ, DecodeUFloat 5 6 C.FieldZZ = some v ∧ 0 ≤ v) := by
  refine ⟨(List.zip Rotations ScalesMeters).map
      (fun RS => FPackedCovMat.create (fun i j => FloatBits (CovarianceMatrix RS.1 RS.2 i j))),
    ?_, ?_, ?_⟩
  · unfold SetCovariancesQuatScaleMeters
    rw [if_neg (not_not.mpr hR), if_neg (not_not.mpr hS)]
  · rw [List.length_map, List.length_zip, hR, hS, Nat.min_self]
  · intro i Rotation ScaleMeters C hRot hScale hC
    have hzip : (List.zip Rotations ScalesMeters)[i]? = some (Rotation, ScaleMeters) :=
      List.getElem?_zip_eq_some.mpr ⟨hRot, hScale⟩
    rw [List.getElem?_map, hzip, Option.map_some', Option.some.injEq] at hC
    subst hC
    refine ⟨⟨CovarianceMatrix_diag_nonneg _ _ 0, CovarianceMatrix_diag_nonneg _ _ 1,
      CovarianceMatrix_diag_nonneg _ _ 2⟩, ⟨FieldXX_create _, FieldYY_create _,
      FieldZZ_create _⟩, ?_, ?_, ?_⟩
    · rw [FieldXX_create]
      exact DecodeUFloat_ToFloat_nonneg 5 (by norm_num) _
    · rw [FieldYY_create]
      exact DecodeUFloat_ToFloat_nonneg 5 (by norm_num) _
    · rw [FieldZZ_create]
      exact DecodeUFloat_ToFloat_nonneg 6 (by norm_num) _

/-- Witness of C8: one splat with the identity rotation and scale `(1, 2, 3)` metres,
every float stored under the bit pattern of `1.0f`. -/
theorem covariance_diagonal_never_negative_witness :
    ∃ Data, SetCovariancesQuatScaleMeters (fun _ => 0x3F800000) 1 [⟨0, 0, 0, 1⟩]
        [⟨1, 2, 3⟩] = some Data ∧
      Data.length = 1 ∧
      ∀ (i : Nat) (Rotation : FQuat4f) (ScaleMeters : FVector3f) (C : FPackedCovMat),
        ([⟨0, 0, 0, 1⟩] : List FQuat4f)[i]? = some Rotation →
        ([⟨1, 2, 3⟩] : List FVector3f)[i]? = some ScaleMeters →
        Data[i]? = some C →
        (0 ≤ CovarianceMatrix Rotation ScaleMeters 0 0 ∧
          0 ≤ CovarianceMatrix Rotation ScaleMeters 1 1 ∧
          0 ≤ CovarianceMatrix Rotation ScaleMeters 2 2) ∧
        (C.FieldXX = ToFloat 0 5 5 ((fun _ => 0x3F800000)
            (CovarianceMatrix Rotation ScaleMeters 0 0)) ∧
          C.FieldYY = ToFloat 0 5 5 ((fun _ => 0x3F800000)
            (CovarianceMatrix Rotation ScaleMeters 1 1)) ∧
          C.FieldZZ = ToFloat 0 5 6 ((fun _ => 0x3F800000)
            (CovarianceMatrix Rotation ScaleMeters 2 2))) ∧
        (∃ v : ℚ, DecodeUFloat 5 5 C.FieldXX = some v ∧ 0 ≤ v) ∧
        (∃ v : ℚ, DecodeUFloat 5 5 C.FieldYY = some v ∧ 0 ≤ v) ∧
        (∃ v : ℚ, DecodeUFloat 5 6 C.FieldZZ = some v ∧ 0 ≤ v) :=
  covariance_diagonal_never_negative (fun _ => 0x3F800000) 1 [⟨0, 0, 0, 1⟩] [⟨1, 2, 3⟩]
    rfl rfl

/-! ## The sorting state machine: claims C9 and C10 -/

theorem BeginSorting_of_ready (B : FMultithreadedSortingBuffers)
    (h : B.CurrentState = ESortingState.Ready) :
    B.BeginSorting = some { B with CurrentState := ESortingState.InProgress } := by
  unfold FMultithreadedSortingBuffers.BeginSorting compare_exchange_strong
  simp [h]

theorem BeginSorting_of_not_ready (B : FMultithreadedSortingBuffers)
    (h : B.CurrentState ≠ ESortingState.Ready) : B.BeginSorting = none := by
  unfold FMultithreadedSortingBuffers.BeginSorting compare_exchange_strong
  simp [h]

/-- C9: `BeginSorting` succeeds exactly when the state is `Ready`, and then it only
changes the state, to `InProgress`; in every other state the assertion fails; hence a
second `BeginSorting` right after a successful one fails. -/
theorem BeginSorting_succeeds_iff_ready (B : FMultithreadedSortingBuffers) :
    (B.BeginSorting.isSome = true ↔ B.CurrentState = ESortingState.Ready) ∧
    (B.CurrentState = ESortingState.Ready →
      B.BeginSorting = some { B with CurrentState := ESortingState.InProgress }) ∧
    (B.CurrentState ≠ ESortingState.Ready → B.BeginSorting = none) ∧
    (∀ B1, B.BeginSorting = some B1 →
      B1.CurrentState = ESortingState.InProgress ∧ B1.BeginSorting = none) := by
  refine ⟨?_, BeginSorting_of_ready B, BeginSorting_of_not_ready B, ?_⟩
  · constructor
    · intro h
      by_contra hne
      rw [BeginSorting_of_not_ready B hne] at h
      simp at h
    · intro h
      rw [BeginSorting_of_ready B h]
      rfl
  · intro B1 h1
    by_cases hr : B.CurrentState = ESortingState.Ready
    · rw [BeginSorting_of_ready B hr] at h1
      have hB1 : B1 = { B with CurrentState := ESortingState.InProgress } :=
        (Option.some.inj h1).symm
      subst hB1
      exact ⟨rfl, BeginSorting_of_not_ready _ (by simp)⟩
    · rw [BeginSorting_of_not_ready B hr] at h1
      simp at h1

/-- Witness of C9: on the freshly constructed buffers the first `BeginSorting` succeeds
and leaves the state `InProgress`, and a second one fails. -/
theorem BeginSorting_succeeds_iff_ready_witness :
    (FMultithreadedSortingBuffers.create []).BeginSorting =
        some { FMultithreadedSortingBuffers.create [] with
          CurrentState := ESortingState.InProgress } ∧
      ({ FMultithreadedSortingBuffers.create [] with
          CurrentState := ESortingState.InProgress } :
        FMultithreadedSortingBuffers).BeginSorting = none :=
  ⟨(BeginSorting_succeeds_iff_ready (FMultithreadedSortingBuffers.create [])).2.1 rfl,
    ((BeginSorting_succeeds_iff_ready (FMultithreadedSortingBuffers.create [])).2.2.2 _
      ((BeginSorting_succeeds_iff_ready (FMultithreadedSortingBuffers.create [])).2.1 rfl)).2⟩

theorem EndSorting_of_inProgress (B : FMultithreadedSortingBuffers)
    (h : B.CurrentState = ESortingState.InProgress) :
    B.EndSorting = some (false, { B with CurrentState := ESortingState.Ready }) := by
  unfold FMultithreadedSortingBuffers.EndSorting compare_exchange_strong
  simp [h]

theorem EndSorting_of_tearDown (B : FMultithreadedSortingBuffers)
    (h : B.CurrentState = ESortingState.TearDown) : B.EndSorting = some (true, B) := by
  unfold FMultithreadedSortingBuffers.EndSorting compare_exchange_strong
  simp [h]
  cases B
  simp_all

theorem EndSorting_of_ready (B : FMultithreadedSortingBuffers)
    (h : B.CurrentState = ESortingState.Ready) : B.EndSorting = none := by
  unfold FMultithreadedSortingBuffers.EndSorting compare_exchange_strong
  simp [h]

/-- C10: `EndSorting` in state `InProgress` sets the state to `Ready` and returns
false; in state `TearDown` it returns true and leaves the buffers as they are; in state
`Ready` its assertion fails; so it returns true only when the state was `TearDown`. -/
theorem EndSorting_reports_teardown (B : FMultithreadedSortingBuffers) :
    (B.CurrentState = ESortingState.InProgress →
      B.EndSorting = some (false, { B with CurrentState := ESortingState.Ready })) ∧
    (B.CurrentState = ESortingState.TearDown → B.EndSorting = some (true, B)) ∧
    (B.CurrentState = ESortingState.Ready → B.EndSorting = none) ∧
    (∀ B1, B.EndSorting = some (true, B1) →
      B.CurrentState = ESortingState.TearDown ∧ B1 = B) := by
  refine ⟨EndSorting_of_inProgress B, EndSorting_of_tearDown B, EndSorting_of_ready B, ?_⟩
  intro B1 h1
  cases hs : B.CurrentState with
  | Ready =>
    rw [EndSorting_of_ready B hs] at h1
    simp at h1
  | InProgress =>
    rw [EndSorting_of_inProgress B hs] at h1
    simp at h1
  | TearDown =>
    rw [EndSorting_of_tearDown B hs] at h1
    simp only [Option.some.injEq, Prod.mk.injEq, true_and] at h1
    exact ⟨rfl, h1.symm⟩

/-- Witness of C10: a sort in progress ends with `false` and state `Ready`; after a
teardown request it ends with `true` and the state stays `TearDown`. -/
theorem EndSorting_reports_teardown_witness :
    ({ FMultithreadedSortingBuffers.create [] with
        CurrentState := ESortingState.InProgress } :
      FMultithreadedSortingBuffers).EndSorting =
        some (false, FMultithreadedSortingBuffers.create []) ∧
    ({ FMultithreadedSortingBuffers.create [] with
        CurrentState := ESortingState.TearDown } :
      FMultithreadedSortingBuffers).EndSorting =
        some (true, { FMultithreadedSortingBuffers.create [] with
          CurrentState := ESortingState.TearDown }) :=
  ⟨(EndSorting_reports_teardown _).1 rfl, (EndSorting_reports_teardown _).2.1 rfl⟩

/-! ## The sorting protocol: the invariant -/

namespace FSortingSystem

theorem Inv_Initial (Data : List FIndexedDistance) : Inv (Initial Data) := by
  constructor <;> simp [Initial, FMultithreadedSortingBuffers.create]

theorem Inv_TaskWrite (S S1 : FSortingSystem) (Data : List FIndexedDistance)
    (h : Step (EEvent.TaskWrite Data) S = some S1) (hI : Inv S) : Inv S1 := by
  simp only [Step] at h
  split at h
  · cases h
    obtain ⟨h1, h2, h3, h4, h5, h6, h7, h8, h9, h10, h11⟩ := hI
    exact ⟨h1, h2, h3, h4, h5, h6, h7, h8, h9, h10, h11⟩
  · cases h

theorem Inv_TryEnqueueSort (S S1 : FSortingSystem)
    (h : Step EEvent.TryEnqueueSort S = some S1) (hI : Inv S) : Inv S1 := by
  obtain ⟨h1, h2, h3, h4, h5, h6, h7, h8, h9, h10, h11⟩ := hI
  obtain ⟨B, Q, T, CI, Rel, NR, OF⟩ := S
  obtain ⟨IA, IB, CD, DS, DC, CS, Fl⟩ := B
  simp only [Step, FMultithreadedSortingBuffers.IsReadyForSorting,
    FMultithreadedSortingBuffers.BeginSorting, compare_exchange_strong] at h
  cases CS <;> simp at h
  · subst h
    simp only at h1 h2 h3 h4 h5 h6 h7 h8 h9 h10 h11
    cases OF with
    | none =>
      have hT : T = ETaskPhase.NoTask := by simpa using (h7 rfl).2.1
      subst hT
      refine ⟨h1, h2, ?_, ?_, h5, h6, ?_, ?_, ?_, h10, h11⟩
      · intro hw; cases hw
      · intro _ hf C hC
        exact h4 (by simp) hf C hC
      · intro _
        exact ⟨Or.inr rfl, by simp, by simp, (h7 rfl).2.2.2⟩
      · intro hc; cases hc
      · intro hc; cases hc
    | some st =>
      cases st
      · have := (h8 rfl).1; cases this
      · have := (h9 rfl).1; cases this
      · exact absurd rfl h10
  · subst h
    exact ⟨h1, h2, h3, h4, h5, h6, h7, h8, h9, h10, h11⟩

theorem Inv_TaskWaitCopy (S S1 : FSortingSystem)
    (h : Step EEvent.TaskWaitCopy S = some S1) (hI : Inv S) : Inv S1 := by
  obtain ⟨h1, h2, h3, h4, h5, h6, h7, h8, h9, h10, h11⟩ := hI
  obtain ⟨B, Q, T, CI, Rel, NR, OF⟩ := S
  obtain ⟨IA, IB, CD, DS, DC, CS, Fl⟩ := B
  simp only [Step, FMultithreadedSortingBuffers.WaitCopy] at h
  simp only at h1 h2 h3 h4 h5 h6 h7 h8 h9 h10 h11
  by_cases hT : T = ETaskPhase.Constructed
  swap
  · rw [if_neg hT] at h; cases h
  rw [if_pos hT] at h
  subst hT
  cases Fl
  swap
  · simp at h
  by_cases hDC : DC.length = 0
  · simp [hDC] at h
  simp only [Bool.false_eq_true, if_false, hDC] at h
  cases h
  have hCopied : ∀ C, CD = some C → C ∈ CI := h4 (by simp) rfl
  refine ⟨?_, h2, ?_, ?_, ?_, ?_, ?_, ?_, ?_, h10, h11⟩
  · intro hc; cases hc
  · intro _; rfl
  · intro hc; exact absurd rfl hc
  · intro D hD
    simp only at hD
    subst hD
    cases DS with
    | none =>
      have hA := h6 rfl D rfl
      subst hA
      exact ⟨by simp, by simp, hCopied _ rfl⟩
    | some D0 =>
      have := h5 D0 rfl
      refine ⟨?_, by simp, hCopied _ rfl⟩
      simp only [ne_eq, Option.some.injEq]
      intro hEq
      subst hEq
      exact this.1 rfl
  · intro hD C hC
    simp only at hD hC
    subst hD
    cases DS with
    | none => simpa using hC.symm
    | some D0 => exact absurd rfl (h5 D0 rfl).2.1
  · intro hO
    obtain ⟨a, b, c, d⟩ := h7 hO
    refine ⟨a, ?_, by simp, d⟩
    constructor
    · intro hR; have := b.mp hR; cases this
    · intro hc; cases hc
  · intro hO
    have := (h8 hO).2.1
    cases this
  · intro hO
    obtain ⟨a, b⟩ := h9 hO
    refine ⟨a, Or.inl ⟨by simp, ?_⟩⟩
    rcases b with ⟨_, b⟩ | ⟨b, _⟩
    · exact b
    · cases b

theorem Inv_TaskEnqueueCopy (S S1 : FSortingSystem)
    (h : Step EEvent.TaskEnqueueCopy S = some S1) (hI : Inv S) : Inv S1 := by
  obtain ⟨h1, h2, h3, h4, h5, h6, h7, h8, h9, h10, h11⟩ := hI
  obtain ⟨B, Q, T, CI, Rel, NR, OF⟩ := S
  obtain ⟨IA, IB, CD, DS, DC, CS, Fl⟩ := B
  simp only [Step, FMultithreadedSortingBuffers.BeginCopy] at h
  simp only at h1 h2 h3 h4 h5 h6 h7 h8 h9 h10 h11
  by_cases hT : T = ETaskPhase.Writing
  swap
  · rw [if_neg hT] at h; cases h
  rw [if_pos hT] at h
  subst hT
  cases Fl
  swap
  · simp at h
  cases CD with
  | none => simp at h
  | some C =>
    by_cases hS : CS = ESortingState.Ready
    · simp [hS] at h
    by_cases hV : (FMultithreadedSortingBuffers.Buffer
        { IdxDistA := IA, IdxDistB := IB, CopyDst := some C, DrawSrc := DS, DataCPU := DC,
          CurrentState := CS, bCopyInProgress := true } C).VertexBufferRHI = true
    swap
    · simp [hS, hV] at h
    by_cases hDC : DC.length = 0
    · simp [hS, hV, hDC] at h
    simp only [Bool.false_eq_true, if_false, hS, hV, hDC, Bool.not_true] at h
    cases h
    have hQ := h2 rfl
    refine ⟨?_, ?_, ?_, ?_, h5, h6, ?_, ?_, ?_, h10, ?_⟩
    · intro _
      exact ⟨C, (DC.length * 8) % 2 ^ 32, rfl, by
        simp [List.filter_append, hQ, ERenderCommand.IsCopy]⟩
    · intro hc; cases hc
    · intro hc; cases hc
    · intro _ hc; cases hc
    · intro hO
      obtain ⟨a, b, c, d⟩ := h7 hO
      refine ⟨a, ?_, by simp, d⟩
      constructor
      · intro hR; have := b.mp hR; cases this
      · intro hc; cases hc
    · intro hO
      have := (h8 hO).2.1
      cases this
    · intro hO
      obtain ⟨a, b⟩ := h9 hO
      refine ⟨a, Or.inl ⟨by simp, ?_⟩⟩
      rcases b with ⟨_, b⟩ | ⟨b, _⟩
      · exact b
      · cases b
    · simpa [List.filter_append, ERenderCommand.IsDestroy] using h11

theorem Inv_TaskEndSorting (S S1 : FSortingSystem)
    (h : Step EEvent.TaskEndSorting S = some S1) (hI : Inv S) : Inv S1 := by
  obtain ⟨h1, h2, h3, h4, h5, h6, h7, h8, h9, h10, h11⟩ := hI
  obtain ⟨B, Q, T, CI, Rel, NR, OF⟩ := S
  obtain ⟨IA, IB, CD, DS, DC, CS, Fl⟩ := B
  simp only [Step, FMultithreadedSortingBuffers.EndSorting, compare_exchange_strong] at h
  simp only at h1 h2 h3 h4 h5 h6 h7 h8 h9 h10 h11
  by_cases hT : T = ETaskPhase.CopyEnqueued
  swap
  · rw [if_neg hT] at h; cases h
  rw [if_pos hT] at h
  subst hT
  have h4' : Fl = false → ∀ C, CD = some C → C ∈ CI := h4 (by simp)
  cases CS with
  | Ready => simp at h
  | InProgress =>
    simp at h
    subst h
    refine ⟨h1, h2, ?_, ?_, h5, h6, ?_, ?_, ?_, h10, h11⟩
    · intro hc; cases hc
    · intro _; exact h4'
    · intro hO
      exact ⟨Or.inl rfl, by simp, by simp, (h7 hO).2.2.2⟩
    · intro hO; have := (h8 hO).1; cases this
    · intro hO; have := (h9 hO).1; cases this
  | TearDown =>
    simp at h
    subst h
    refine ⟨h1, h2, ?_, ?_, h5, h6, ?_, ?_, ?_, h10, h11⟩
    · intro hc; cases hc
    · intro _; exact h4'
    · intro hO
      rcases (h7 hO).1 with hc | hc <;> cases hc
    · intro hO; have := (h8 hO).2.1; cases this
    · intro hO
      obtain ⟨a, b⟩ := h9 hO
      refine ⟨a, Or.inl ⟨by simp, ?_⟩⟩
      rcases b with ⟨_, b⟩ | ⟨b, _⟩
      · exact b
      · cases b

theorem filter_IsCopy_append_destroy (Q : List ERenderCommand)
    (A B : FSplatCPUToGPUBuffer) :
    List.filter ERenderCommand.IsCopy (Q ++ [ERenderCommand.DestroyCPUSortingResources A B]) =
      List.filter ERenderCommand.IsCopy Q := by
  simp [List.filter_append, ERenderCommand.IsCopy]

theorem filter_IsDestroy_append_destroy (Q : List ERenderCommand)
    (A B : FSplatCPUToGPUBuffer) :
    (List.filter ERenderCommand.IsDestroy
      (Q ++ [ERenderCommand.DestroyCPUSortingResources A B])).length =
      (List.filter ERenderCommand.IsDestroy Q).length + 1 := by
  simp [List.filter_append, ERenderCommand.IsDestroy]

theorem Inv_TaskReleaseResources (S S1 : FSortingSystem)
    (h : Step EEvent.TaskReleaseResources S = some S1) (hI : Inv S) : Inv S1 := by
  obtain ⟨h1, h2, h3, h4, h5, h6, h7, h8, h9, h10, h11⟩ := hI
  obtain ⟨B, Q, T, CI, Rel, NR, OF⟩ := S
  obtain ⟨IA, IB, CD, DS, DC, CS, Fl⟩ := B
  simp only [Step, FMultithreadedSortingBuffers.ReleaseResources,
    FMultithreadedSortingBuffers.DeferredRelease, ApplyRelease,
    FReleaseResult.NumReleases] at h
  simp only at h1 h2 h3 h4 h5 h6 h7 h8 h9 h10 h11
  by_cases hT : T = ETaskPhase.MustRelease
  swap
  · rw [if_neg hT] at h; cases h
  rw [if_pos hT] at h
  subst hT
  have h4' : Fl = false → ∀ C, CD = some C → C ∈ CI := h4 (by simp)
  cases CS with
  | Ready => simp at h
  | InProgress => simp at h
  | TearDown =>
    simp at h
    subst h
    refine ⟨?_, ?_, ?_, ?_, h5, h6, ?_, ?_, ?_, h10, ?_⟩
    · intro hF
      obtain ⟨C, Size, hC, hQ⟩ := h1 hF
      exact ⟨C, Size, hC, by dsimp only; rw [filter_IsCopy_append_destroy]; exact hQ⟩
    · intro hF
      dsimp only
      rw [filter_IsCopy_append_destroy]; exact h2 hF
    · intro hc; cases hc
    · intro _; exact h4'
    · intro hO
      exact absurd rfl (h7 hO).2.2.1
    · intro hO; have := (h8 hO).2.1; cases this
    · intro hO
      obtain ⟨a, b⟩ := h9 hO
      refine ⟨rfl, Or.inr ⟨rfl, ?_⟩⟩
      rcases b with ⟨_, b⟩ | ⟨b, _⟩
      · dsimp only
        rw [b]; rfl
      · cases b
    · dsimp only
      rw [filter_IsDestroy_append_destroy]
      simp
      omega

theorem Inv_RenderCommand (S S1 : FSortingSystem)
    (h : Step EEvent.RenderCommand S = some S1) (hI : Inv S) : Inv S1 := by
  obtain ⟨h1, h2, h3, h4, h5, h6, h7, h8, h9, h10, h11⟩ := hI
  obtain ⟨B, Q, T, CI, Rel, NR, OF⟩ := S
  obtain ⟨IA, IB, CD, DS, DC, CS, Fl⟩ := B
  simp only at h1 h2 h3 h4 h5 h6 h7 h8 h9 h10 h11
  cases Q with
  | nil => simp [Step] at h
  | cons X Rest =>
    cases X with
    | CopyIndices D Size =>
      simp only [Step, FMultithreadedSortingBuffers.EndCopy] at h
      cases Fl with
      | false => simp at h
      | true =>
        simp at h
        subst h
        obtain ⟨C, Size1, hC, hQ⟩ := h1 rfl
        simp only [List.filter_cons, ERenderCommand.IsCopy, if_true, List.cons.injEq,
          ERenderCommand.CopyIndices.injEq] at hQ
        obtain ⟨⟨hD, _⟩, hRest⟩ := hQ
        subst hD
        refine ⟨?_, ?_, ?_, ?_, ?_, h6, h7, h8, h9, h10, ?_⟩
        · intro hc; cases hc
        · intro _; exact hRest
        · intro _; rfl
        · intro _ _ C1 hC1
          have : C1 = D := by
            rw [hC] at hC1; exact (Option.some.inj hC1).symm
          subst this
          simp
        · intro D1 hD1
          obtain ⟨a, b, c⟩ := h5 D1 hD1
          exact ⟨a, b, List.mem_append_left _ c⟩
        · simpa [List.filter_cons, ERenderCommand.IsDestroy] using h11
    | DestroyCPUSortingResources A Bb =>
      simp only [Step] at h
      simp at h
      subst h
      refine ⟨?_, ?_, h3, h4, h5, h6, h7, h8, h9, h10, ?_⟩
      · intro hF
        simpa [List.filter_cons, ERenderCommand.IsCopy] using h1 hF
      · intro hF
        simpa [List.filter_cons, ERenderCommand.IsCopy] using h2 hF
      · simp only [List.filter_cons, ERenderCommand.IsDestroy, if_true,
          List.length_cons] at h11
        dsimp only
        omega

theorem Inv_OwnerReleaseResources (S S1 : FSortingSystem)
    (h : Step EEvent.OwnerReleaseResources S = some S1) (hI : Inv S) : Inv S1 := by
  obtain ⟨h1, h2, h3, h4, h5, h6, h7, h8, h9, h10, h11⟩ := hI
  obtain ⟨B, Q, T, CI, Rel, NR, OF⟩ := S
  obtain ⟨IA, IB, CD, DS, DC, CS, Fl⟩ := B
  simp only [Step, FMultithreadedSortingBuffers.ReleaseResources,
    FMultithreadedSortingBuffers.DeferredRelease, ApplyRelease,
    FReleaseResult.NumReleases] at h
  simp only at h1 h2 h3 h4 h5 h6 h7 h8 h9 h10 h11
  have hOF : OF = none := by
    cases OF with
    | none => rfl
    | some st =>
      cases st
      · have := (h8 rfl).1; subst this; simp at h
      · have := (h9 rfl).1; subst this; simp at h
      · exact absurd rfl h10
  subst hOF
  obtain ⟨_, hRT, _, hRel⟩ := h7 rfl
  subst hRel
  cases CS with
  | TearDown => simp at h
  | InProgress =>
    simp at h
    subst h
    have hT : T ≠ ETaskPhase.NoTask := by
      intro hc; have := hRT.mpr hc; cases this
    refine ⟨?_, ?_, h3, h4, h5, h6, ?_, ?_, ?_, ?_, ?_⟩
    · intro hF; simpa using h1 hF
    · intro hF; simpa using h2 hF
    · intro hc; cases hc
    · intro hc; cases hc
    · intro _; exact ⟨rfl, Or.inl ⟨hT, rfl⟩⟩
    · intro hc; cases hc
    · simpa using h11
  | Ready =>
    have hT : T = ETaskPhase.NoTask := hRT.mp rfl
    subst hT
    cases Fl with
    | true =>
      simp at h
      subst h
      refine ⟨?_, ?_, ?_, ?_, h5, h6, ?_, ?_, ?_, ?_, ?_⟩
      · intro hF
        obtain ⟨C, Size, hC, hQ⟩ := h1 hF
        exact ⟨C, Size, hC, by dsimp only; rw [filter_IsCopy_append_destroy]; exact hQ⟩
      · intro hc; cases hc
      · intro hc; cases hc
      · intro _ hc; cases hc
      · intro hc; cases hc
      · intro _; exact ⟨rfl, rfl, rfl⟩
      · intro hc; cases hc
      · intro hc; cases hc
      · have h11' : NR + (List.filter ERenderCommand.IsDestroy Q).length = 0 := h11
        dsimp only
        rw [filter_IsDestroy_append_destroy]
        simp only [List.length_append, List.length_replicate, List.length_nil,
          List.length_cons, List.length_singleton]
        omega
    | false =>
      simp at h
      subst h
      refine ⟨?_, ?_, ?_, ?_, h5, h6, ?_, ?_, ?_, ?_, ?_⟩
      · intro hc; cases hc
      · intro _; simpa using h2 rfl
      · intro _; rfl
      · intro _ _; exact h4 (by simp) rfl
      · intro hc; cases hc
      · intro _; exact ⟨rfl, rfl, rfl⟩
      · intro hc; cases hc
      · intro hc; cases hc
      · have h11' : NR + (List.filter ERenderCommand.IsDestroy Q).length = 0 := h11
        dsimp only
        simp only [List.length_append, List.length_replicate, List.length_nil,
          List.length_cons, List.length_singleton, List.append_nil]
        omega

/-- Every step of the protocol keeps the invariant. -/
theorem Inv_Step (E : EEvent) (S S1 : FSortingSystem) (h : Step E S = some S1)
    (hI : Inv S) : Inv S1 := by
  cases E with
  | TryEnqueueSort => exact Inv_TryEnqueueSort S S1 h hI
  | TaskWaitCopy => exact Inv_TaskWaitCopy S S1 h hI
  | TaskWrite Data => exact Inv_TaskWrite S S1 Data h hI
  | TaskEnqueueCopy => exact Inv_TaskEnqueueCopy S S1 h hI
  | TaskEndSorting => exact Inv_TaskEndSorting S S1 h hI
  | TaskReleaseResources => exact Inv_TaskReleaseResources S S1 h hI
  | RenderCommand => exact Inv_RenderCommand S S1 h hI
  | OwnerReleaseResources => exact Inv_OwnerReleaseResources S S1 h hI

theorem Run_cons (E : EEvent) (Rest : List EEvent) (S : FSortingSystem) :
    Run (E :: Rest) S = (Step E S).bind (Run Rest) := by
  show (match Step E S with
    | some S1 => Run Rest S1
    | none => none) = _
  cases Step E S <;> rfl

/-- Every state a run reaches from a state with the invariant has the invariant. -/
theorem Inv_Run (L : List EEvent) : ∀ (S S1 : FSortingSystem), Run L S = some S1 →
    Inv S → Inv S1 := by
  induction L with
  | nil =>
    intro S S1 h hI
    cases h
    exact hI
  | cons E Rest ih =>
    intro S S1 h hI
    rw [Run_cons] at h
    cases hS : Step E S with
    | none => rw [hS] at h; cases h
    | some S2 =>
      rw [hS] at h
      exact ih S2 S1 h (Inv_Step E S S2 hS hI)

end FSortingSystem

/-! ## The role pointers: claim C13 -/

namespace FSortingSystem

theorem Inv_reachable (Data : List FIndexedDistance) (L : List EEvent) (S : FSortingSystem)
    (h : Run L (Initial Data) = some S) : Inv S :=
  Inv_Run L (Initial Data) S h (Inv_Initial Data)

theorem no_copy_queued_of_idle (S : FSortingSystem) (hI : Inv S)
    (hF : S.Buffers.bCopyInProgress = false) (D : EBuffer) (Size : Nat) :
    ERenderCommand.CopyIndices D Size ∉ S.Queue := by
  intro hmem
  have h0 := hI.copy_idle hF
  have : ERenderCommand.CopyIndices D Size ∈ S.Queue.filter ERenderCommand.IsCopy :=
    List.mem_filter.mpr ⟨hmem, rfl⟩
  rw [h0] at this
  simp at this

end FSortingSystem

namespace FSortingSystem

theorem RolePointersAfter_succ (n : Nat) :
    RolePointersAfter (n + 1) =
      ((match (RolePointersAfter n).2 with
        | none =>
          if (RolePointersAfter n).1.isSome then some EBuffer.IdxDistB
          else some EBuffer.IdxDistA
        | some D => some D), (RolePointersAfter n).1) := by
  match n with
  | 0 => rfl
  | 1 => rfl
  | k + 2 =>
    have h1 : RolePointersAfter (k + 2 + 1) =
        if (k + 1) % 2 = 0 then (some EBuffer.IdxDistB, some EBuffer.IdxDistA)
        else (some EBuffer.IdxDistA, some EBuffer.IdxDistB) := rfl
    have h2 : RolePointersAfter (k + 2) =
        if k % 2 = 0 then (some EBuffer.IdxDistB, some EBuffer.IdxDistA)
        else (some EBuffer.IdxDistA, some EBuffer.IdxDistB) := rfl
    rw [h1, h2]
    by_cases hk : k % 2 = 0
    · have hk1 : ¬ (k + 1) % 2 = 0 := by omega
      rw [if_pos hk, if_neg hk1]
    · have hk1 : (k + 1) % 2 = 0 := by omega
      rw [if_neg hk, if_pos hk1]

theorem WaitCopy_pointers (B B1 : FMultithreadedSortingBuffers) (b e : Nat)
    (h : B.WaitCopy = some (B1, b, e)) :
    B1.DrawSrc = B.CopyDst ∧
    B1.CopyDst = (match B.DrawSrc with
      | none => if B.CopyDst.isSome then some EBuffer.IdxDistB else some EBuffer.IdxDistA
      | some D => some D) := by
  unfold FMultithreadedSortingBuffers.WaitCopy at h
  split at h
  · cases h
  · simp only at h
    split at h
    · cases h
    · simp only [Option.some.injEq, Prod.mk.injEq] at h
      obtain ⟨h1, -, -⟩ := h
      subst h1
      exact ⟨rfl, rfl⟩

theorem ReleaseResources_pointers (t : Bool) (B : FMultithreadedSortingBuffers)
    (R : FReleaseResult) (h : B.ReleaseResources t = some R) :
    R.Buffers.CopyDst = B.CopyDst ∧ R.Buffers.DrawSrc = B.DrawSrc := by
  obtain ⟨IA, IB, CD, DS, DC, CS, Fl⟩ := B
  cases CS <;> cases t <;> cases Fl <;>
    simp only [FMultithreadedSortingBuffers.ReleaseResources,
      FMultithreadedSortingBuffers.DeferredRelease, Bool.not_true, Bool.not_false,
      if_true, if_false, Bool.false_eq_true, Option.some.injEq] at h <;>
    first
      | (subst h; exact ⟨rfl, rfl⟩)
      | cases h

theorem BeginSorting_pointers (B B1 : FMultithreadedSortingBuffers)
    (h : B.BeginSorting = some B1) :
    B1.CopyDst = B.CopyDst ∧ B1.DrawSrc = B.DrawSrc := by
  obtain ⟨IA, IB, CD, DS, DC, CS, Fl⟩ := B
  cases CS <;>
    simp [FMultithreadedSortingBuffers.BeginSorting, compare_exchange_strong] at h
  subst h
  exact ⟨rfl, rfl⟩

theorem EndSorting_pointers (B B1 : FMultithreadedSortingBuffers) (bN : Bool)
    (h : B.EndSorting = some (bN, B1)) :
    B1.CopyDst = B.CopyDst ∧ B1.DrawSrc = B.DrawSrc := by
  obtain ⟨IA, IB, CD, DS, DC, CS, Fl⟩ := B
  cases CS <;>
    simp [FMultithreadedSortingBuffers.EndSorting, compare_exchange_strong] at h <;>
    (obtain ⟨-, h⟩ := h; subst h; exact ⟨rfl, rfl⟩)

theorem Step_pointers (E : EEvent) (S S1 : FSortingSystem) (n : Nat)
    (h : Step E S = some S1)
    (hP : (S.Buffers.CopyDst, S.Buffers.DrawSrc) = RolePointersAfter n) :
    (S1.Buffers.CopyDst, S1.Buffers.DrawSrc) =
      RolePointersAfter (n + (if E = EEvent.TaskWaitCopy then 1 else 0)) := by
  have hCD : S.Buffers.CopyDst = (RolePointersAfter n).1 := congrArg Prod.fst hP
  have hDS : S.Buffers.DrawSrc = (RolePointersAfter n).2 := congrArg Prod.snd hP
  cases E with
  | TaskWaitCopy =>
    rw [if_pos rfl, RolePointersAfter_succ]
    simp only [Step] at h
    split at h
    · split at h
      · cases h
      · rename_i B b e hW
        simp only [Option.some.injEq] at h
        subst h
        obtain ⟨h1, h2⟩ := WaitCopy_pointers _ _ _ _ hW
        dsimp only
        rw [h1, h2, hCD, hDS]
    · cases h
  | TryEnqueueSort =>
    rw [if_neg (by simp), Nat.add_zero, ← hP]
    simp only [Step] at h
    split at h
    · cases h
    · simp only [Option.some.injEq] at h
      subst h
      rfl
    · split at h
      · cases h
      · rename_i B hB
        simp only [Option.some.injEq] at h
        subst h
        obtain ⟨h1, h2⟩ := BeginSorting_pointers _ _ hB
        dsimp only
        rw [h1, h2]
  | TaskWrite Data =>
    rw [if_neg (by simp), Nat.add_zero, ← hP]
    simp only [Step] at h
    split at h
    · simp only [Option.some.injEq] at h
      subst h
      rfl
    · cases h
  | TaskEnqueueCopy =>
    rw [if_neg (by simp), Nat.add_zero, ← hP]
    simp only [Step] at h
    split at h
    · split at h
      · cases h
      · rename_i B Request hB
        simp only [Option.some.injEq] at h
        subst h
        unfold FMultithreadedSortingBuffers.BeginCopy at hB
        dsimp only at hB
        split at hB
        · cases hB
        · split at hB
          · cases hB
          · split at hB
            · cases hB
            · split at hB
              · cases hB
              · split at hB
                · cases hB
                · simp only [Option.some.injEq, Prod.mk.injEq] at hB
                  obtain ⟨hB1, -⟩ := hB
                  subst hB1
                  rfl
    · cases h
  | TaskEndSorting =>
    rw [if_neg (by simp), Nat.add_zero, ← hP]
    simp only [Step] at h
    split at h
    · split at h
      · cases h
      · rename_i bN B hB
        simp only [Option.some.injEq] at h
        subst h
        obtain ⟨h1, h2⟩ := EndSorting_pointers _ _ _ hB
        dsimp only
        rw [h1, h2]
    · cases h
  | TaskReleaseResources =>
    rw [if_neg (by simp), Nat.add_zero, ← hP]
    simp only [Step] at h
    split at h
    · split at h
      · cases h
      · rename_i R hR
        simp only [Option.some.injEq] at h
        subst h
        obtain ⟨h1, h2⟩ := ReleaseResources_pointers _ _ _ hR
        simp only [ApplyRelease]
        rw [h1, h2]
    · cases h
  | RenderCommand =>
    rw [if_neg (by simp), Nat.add_zero, ← hP]
    simp only [Step] at h
    split at h
    · cases h
    · split at h
      · cases h
      · rename_i B hB
        simp only [Option.some.injEq] at h
        subst h
        unfold FMultithreadedSortingBuffers.EndCopy at hB
        split at hB
        · simp only [Option.some.injEq] at hB
          subst hB
          rfl
        · cases hB
    · simp only [Option.some.injEq] at h
      subst h
      rfl
  | OwnerReleaseResources =>
    rw [if_neg (by simp), Nat.add_zero, ← hP]
    simp only [Step] at h
    split at h
    · cases h
    · rename_i R hR
      simp only [Option.some.injEq] at h
      subst h
      obtain ⟨h1, h2⟩ := ReleaseResources_pointers _ _ _ hR
      simp only [ApplyRelease]
      rw [h1, h2]


theorem Run_pointers (L : List EEvent) : ∀ (S S1 : FSortingSystem) (n : Nat),
    Run L S = some S1 →
    (S.Buffers.CopyDst, S.Buffers.DrawSrc) = RolePointersAfter n →
    (S1.Buffers.CopyDst, S1.Buffers.DrawSrc) =
      RolePointersAfter (n + L.count EEvent.TaskWaitCopy) := by
  induction L with
  | nil =>
    intro S S1 n h hP
    simp only [Run, Option.some.injEq] at h
    subst h
    simpa using hP
  | cons E Rest ih =>
    intro S S1 n h hP
    rw [Run_cons] at h
    cases hS : Step E S with
    | none => rw [hS] at h; cases h
    | some S2 =>
      rw [hS] at h
      have h2 := ih S2 S1 _ h (Step_pointers E S S2 n hS hP)
      rw [h2]
      congr 1
      rw [List.count_cons]
      by_cases hE : E = EEvent.TaskWaitCopy
      · subst hE
        simp
        omega
      · have : ¬ (E == EEvent.TaskWaitCopy) = true := by simpa using hE
        simp only [hE, if_false, this, Bool.false_eq_true]
        omega

end FSortingSystem

/-- C13: each `WaitCopy` that returns makes `DrawSrc` the buffer that was `CopyDst`
before the call; and for every run of the protocol from the initial state, with `n` the
number of `WaitCopy` calls in it: after the first call `CopyDst` is buffer A and
`DrawSrc` is null, and from the second call on the two pointers name the two different
buffers and swap at each call (`CopyDst` is A after an odd number of calls and B after an
even number, `DrawSrc` is the other one). -/
theorem WaitCopy_swaps_roles (Data : List FIndexedDistance) (L : List EEvent)
    (S : FSortingSystem) (h : FSortingSystem.Run L (FSortingSystem.Initial Data) = some S) :
    (∀ (B B1 : FMultithreadedSortingBuffers) (b e : Nat),
      B.WaitCopy = some (B1, b, e) → B1.DrawSrc = B.CopyDst) ∧
    (L.count EEvent.TaskWaitCopy = 0 →
      S.Buffers.CopyDst = none ∧ S.Buffers.DrawSrc = none) ∧
    (L.count EEvent.TaskWaitCopy = 1 →
      S.Buffers.CopyDst = some EBuffer.IdxDistA ∧ S.Buffers.DrawSrc = none) ∧
    (2 ≤ L.count EEvent.TaskWaitCopy → L.count EEvent.TaskWaitCopy % 2 = 0 →
      S.Buffers.CopyDst = some EBuffer.IdxDistB ∧
      S.Buffers.DrawSrc = some EBuffer.IdxDistA) ∧
    (2 ≤ L.count EEvent.TaskWaitCopy → L.count EEvent.TaskWaitCopy % 2 = 1 →
      S.Buffers.CopyDst = some EBuffer.IdxDistA ∧
      S.Buffers.DrawSrc = some EBuffer.IdxDistB) := by
  have hP := FSortingSystem.Run_pointers L (FSortingSystem.Initial Data) S 0 h rfl
  rw [Nat.zero_add] at hP
  have hCD : S.Buffers.CopyDst = (RolePointersAfter (L.count EEvent.TaskWaitCopy)).1 :=
    congrArg Prod.fst hP
  have hDS : S.Buffers.DrawSrc = (RolePointersAfter (L.count EEvent.TaskWaitCopy)).2 :=
    congrArg Prod.snd hP
  refine ⟨fun B B1 b e hW => (FSortingSystem.WaitCopy_pointers B B1 b e hW).1, ?_, ?_, ?_, ?_⟩
  · intro h0
    rw [hCD, hDS, h0]
    exact ⟨rfl, rfl⟩
  · intro h1
    rw [hCD, hDS, h1]
    exact ⟨rfl, rfl⟩
  · intro h2 hE
    obtain ⟨k, hk⟩ : ∃ k, L.count EEvent.TaskWaitCopy = k + 2 := ⟨_, (Nat.sub_add_cancel h2).symm⟩
    have hk2 : k % 2 = 0 := by omega
    rw [hCD, hDS, hk]
    simp only [RolePointersAfter, hk2, if_true, and_self]
  · intro h2 hO
    obtain ⟨k, hk⟩ : ∃ k, L.count EEvent.TaskWaitCopy = k + 2 := ⟨_, (Nat.sub_add_cancel h2).symm⟩
    have hk2 : ¬ k % 2 = 0 := by omega
    rw [hCD, hDS, hk]
    simp only [RolePointersAfter, hk2, if_false, and_self]

/-- Witness of C13: after two sort cycles and the third `WaitCopy` the copy destination
is buffer A again and the draw source is buffer B. -/
theorem WaitCopy_swaps_roles_witness :
    ∃ S, FSortingSystem.Run
        (ExampleCycle [⟨1, 7⟩] ++ ExampleCycle [⟨1, 8⟩] ++
          [EEvent.TryEnqueueSort, EEvent.TaskWaitCopy])
        (FSortingSystem.Initial [⟨0, 0⟩]) = some S ∧
      S.Buffers.CopyDst = some EBuffer.IdxDistA ∧
      S.Buffers.DrawSrc = some EBuffer.IdxDistB :=
  ⟨_, rfl,
    (WaitCopy_swaps_roles [⟨0, 0⟩]
      (ExampleCycle [⟨1, 7⟩] ++ ExampleCycle [⟨1, 8⟩] ++
        [EEvent.TryEnqueueSort, EEvent.TaskWaitCopy]) _ rfl).2.2.2.2 (by decide) (by decide)⟩

/-! ## The handshake and the teardown: claims C15 and C16 -/

/-- C15: in every state the protocol reaches from the initial one, while the task is in
its write phase (between its `WaitCopy` and its `BeginCopy`) `bCopyInProgress` is false
and no copy command is waiting on the render queue, so every write of the scratch array
happens with no copy in progress; and whenever the render thread is about to run a copy
command the flag is true and the task is not in its write phase. -/
theorem scratch_write_excludes_copy (Data : List FIndexedDistance) (L : List EEvent)
    (S : FSortingSystem) (h : FSortingSystem.Run L (FSortingSystem.Initial Data) = some S) :
    (S.Task = ETaskPhase.Writing →
      S.Buffers.bCopyInProgress = false ∧
      ∀ D Size, ERenderCommand.CopyIndices D Size ∉ S.Queue) ∧
    (∀ NewData S1, FSortingSystem.Step (EEvent.TaskWrite NewData) S = some S1 →
      S.Buffers.bCopyInProgress = false ∧
      ∀ D Size, ERenderCommand.CopyIndices D Size ∉ S.Queue) ∧
    (S.Buffers.bCopyInProgress = true → S.Task ≠ ETaskPhase.Writing) ∧
    (∀ D Size Rest, S.Queue = ERenderCommand.CopyIndices D Size :: Rest →
      S.Buffers.bCopyInProgress = true ∧ S.Task ≠ ETaskPhase.Writing) := by
  have hI := FSortingSystem.Inv_reachable Data L S h
  have hW : S.Task = ETaskPhase.Writing →
      S.Buffers.bCopyInProgress = false ∧
      ∀ D Size, ERenderCommand.CopyIndices D Size ∉ S.Queue := fun hT =>
    ⟨hI.writing_idle hT,
      fun D Size => FSortingSystem.no_copy_queued_of_idle S hI (hI.writing_idle hT) D Size⟩
  have hF : S.Buffers.bCopyInProgress = true → S.Task ≠ ETaskPhase.Writing := by
    intro hFl hT
    rw [hI.writing_idle hT] at hFl
    cases hFl
  refine ⟨hW, ?_, hF, ?_⟩
  · intro NewData S1 hS
    apply hW
    simp only [FSortingSystem.Step] at hS
    split at hS
    · rename_i hc
      exact hc.1
    · cases hS
  · intro D Size Rest hQ
    have hFl : S.Buffers.bCopyInProgress = true := by
      cases hc : S.Buffers.bCopyInProgress with
      | true => rfl
      | false =>
        exfalso
        apply FSortingSystem.no_copy_queued_of_idle S hI hc D Size
        rw [hQ]
        exact List.mem_cons_self _ _
    exact ⟨hFl, hF hFl⟩

/-- Witness of C15: in the second sort cycle, after the task's `WaitCopy`, the task is
in its write phase, no copy is in progress and the render queue is empty. -/
theorem scratch_write_excludes_copy_witness :
    ∃ S, FSortingSystem.Run
        (ExampleCycle [⟨1, 7⟩] ++ [EEvent.TryEnqueueSort, EEvent.TaskWaitCopy])
        (FSortingSystem.Initial [⟨0, 0⟩]) = some S ∧
      S.Task = ETaskPhase.Writing ∧
      S.Buffers.bCopyInProgress = false ∧
      ∀ D Size, ERenderCommand.CopyIndices D Size ∉ S.Queue :=
  ⟨_, rfl, rfl,
    (scratch_write_excludes_copy [⟨0, 0⟩]
      (ExampleCycle [⟨1, 7⟩] ++ [EEvent.TryEnqueueSort, EEvent.TaskWaitCopy]) _ rfl).1 rfl⟩

/-- C16: in every state the protocol reaches from the initial one, `ReleaseResources`
has released (or enqueued the release of) the two GPU buffers at most once; and once the
owner has called `ReleaseResources` (which it can do only while the state is `Ready` or
`InProgress`) and the task, if any, has finished, there is exactly one release: made by
the task when the owner found the state `InProgress`, by the owner when it found
`Ready`; executed releases plus release commands still on the render queue are exactly
one, so exactly one release has been executed once the queue is empty. -/
theorem teardown_releases_exactly_once (Data : List FIndexedDistance) (L : List EEvent)
    (S : FSortingSystem) (h : FSortingSystem.Run L (FSortingSystem.Initial Data) = some S) :
    S.Releases.length ≤ 1 ∧
    S.NumReleased + (S.Queue.filter ERenderCommand.IsDestroy).length = S.Releases.length ∧
    (∀ Found, S.OwnerFound = some Found → S.Task = ETaskPhase.NoTask →
      (Found = ESortingState.Ready ∨ Found = ESortingState.InProgress) ∧
      (Found = ESortingState.InProgress → S.Releases = [EReleaser.Task]) ∧
      (Found = ESortingState.Ready → S.Releases = [EReleaser.Owner]) ∧
      S.NumReleased + (S.Queue.filter ERenderCommand.IsDestroy).length = 1 ∧
      (S.Queue = [] → S.NumReleased = 1)) := by
  have hI := FSortingSystem.Inv_reachable Data L S h
  have hLen : S.Releases.length ≤ 1 := by
    cases hO : S.OwnerFound with
    | none => rw [(hI.owner_none hO).2.2.2]; exact Nat.zero_le _
    | some Found =>
      cases Found with
      | Ready => rw [(hI.owner_ready hO).2.2]; exact Nat.le_refl _
      | InProgress =>
        rcases (hI.owner_inProgress hO).2 with ⟨-, hR⟩ | ⟨-, hR⟩
        · rw [hR]; exact Nat.zero_le _
        · rw [hR]; exact Nat.le_refl _
      | TearDown => exact absurd hO hI.owner_tearDown
  refine ⟨hLen, hI.released, ?_⟩
  intro Found hO hT
  have hRel : (Found = ESortingState.InProgress → S.Releases = [EReleaser.Task]) ∧
      (Found = ESortingState.Ready → S.Releases = [EReleaser.Owner]) ∧
      (Found = ESortingState.Ready ∨ Found = ESortingState.InProgress) := by
    cases Found with
    | Ready =>
      exact ⟨fun hc => (by cases hc), fun _ => (hI.owner_ready hO).2.2, Or.inl rfl⟩
    | InProgress =>
      refine ⟨fun _ => ?_, fun hc => (by cases hc), Or.inr rfl⟩
      rcases (hI.owner_inProgress hO).2 with ⟨hN, -⟩ | ⟨-, hR⟩
      · exact absurd hT hN
      · exact hR
    | TearDown => exact absurd hO hI.owner_tearDown
  have hOne : S.Releases.length = 1 := by
    rcases hRel.2.2 with hF | hF
    · rw [hRel.2.1 hF]; rfl
    · rw [hRel.1 hF]; rfl
  have hSum : S.NumReleased + (S.Queue.filter ERenderCommand.IsDestroy).length = 1 := by
    rw [hI.released, hOne]
  refine ⟨hRel.2.2, hRel.1, hRel.2.1, hSum, ?_⟩
  intro hQ
  rw [hQ] at hSum
  simpa using hSum

/-- Witness of C16: when the owner's request arrives during the sort the task releases,
when it arrives after `EndSorting` (here with the copy still in progress) the owner
releases; in both runs exactly one release has been executed at the end. -/
theorem teardown_releases_exactly_once_witness :
    (∃ S, FSortingSystem.Run ExampleTeardownInProgress (FSortingSystem.Initial [⟨0, 0⟩]) =
        some S ∧
      S.OwnerFound = some ESortingState.InProgress ∧
      S.Releases = [EReleaser.Task] ∧ S.NumReleased = 1) ∧
    (∃ S, FSortingSystem.Run ExampleTeardownReady (FSortingSystem.Initial [⟨0, 0⟩]) =
        some S ∧
      S.OwnerFound = some ESortingState.Ready ∧
      S.Releases = [EReleaser.Owner] ∧ S.NumReleased = 1) :=
  ⟨⟨_, rfl, rfl,
      ((teardown_releases_exactly_once [⟨0, 0⟩] ExampleTeardownInProgress _ rfl).2.2
        ESortingState.InProgress rfl rfl).2.1 rfl,
      ((teardown_releases_exactly_once [⟨0, 0⟩] ExampleTeardownInProgress _ rfl).2.2
        ESortingState.InProgress rfl rfl).2.2.2.2 rfl⟩,
    ⟨_, rfl, rfl,
      ((teardown_releases_exactly_once [⟨0, 0⟩] ExampleTeardownReady _ rfl).2.2
        ESortingState.Ready rfl rfl).2.2.1 rfl,
      ((teardown_releases_exactly_once [⟨0, 0⟩] ExampleTeardownReady _ rfl).2.2
        ESortingState.Ready rfl rfl).2.2.2.2 rfl⟩⟩

/-! ## `ReleaseResources` and `BeginCopy`: claims C17, C11 and C14 -/

/-- C17: a call of `ReleaseResources` that returns leaves the state `TearDown`; called
by the owner (on the rendering thread) from `Ready` with no copy in progress it releases
the two GPU buffers in the call itself and enqueues nothing; from `Ready` with a copy in
progress it releases nothing itself and enqueues one render command that owns the two
buffers and releases them; from `InProgress` it changes the state only. -/
theorem ReleaseResources_by_previous_state (B : FMultithreadedSortingBuffers) :
    (∀ bIsInRenderingThread R, B.ReleaseResources bIsInRenderingThread = some R →
      R.Buffers.CurrentState = ESortingState.TearDown) ∧
    (B.CurrentState = ESortingState.Ready → B.bCopyInProgress = false →
      B.ReleaseResources true = some
        { Buffers :=
            { B with
              CurrentState := ESortingState.TearDown
              IdxDistA := B.IdxDistA.ReleaseResource
              IdxDistB := B.IdxDistB.ReleaseResource }
          Enqueued := []
          bReleasedHere := true }) ∧
    (B.CurrentState = ESortingState.Ready → B.bCopyInProgress = true →
      B.ReleaseResources true = some
        { Buffers :=
            { B with
              CurrentState := ESortingState.TearDown
              IdxDistA := FSplatCPUToGPUBuffer.MovedFrom
              IdxDistB := FSplatCPUToGPUBuffer.MovedFrom }
          Enqueued := [ERenderCommand.DestroyCPUSortingResources B.IdxDistA B.IdxDistB]
          bReleasedHere := false }) ∧
    (B.CurrentState = ESortingState.InProgress →
      B.ReleaseResources true = some
        { Buffers := { B with CurrentState := ESortingState.TearDown }
          Enqueued := []
          bReleasedHere := false }) := by
  obtain ⟨IA, IB, CD, DS, DC, CS, Fl⟩ := B
  refine ⟨?_, ?_, ?_, ?_⟩
  · intro t R h
    cases CS <;> cases t <;> cases Fl <;>
      simp only [FMultithreadedSortingBuffers.ReleaseResources,
        FMultithreadedSortingBuffers.DeferredRelease, Bool.not_true, Bool.not_false,
        if_true, if_false, Bool.false_eq_true, Option.some.injEq] at h <;>
      first
        | (subst h; rfl)
        | cases h
  · intro hS hF
    dsimp only at hS hF
    subst hS
    subst hF
    rfl
  · intro hS hF
    dsimp only at hS hF
    subst hS
    subst hF
    rfl
  · intro hS
    dsimp only at hS
    subst hS
    rfl

/-- Witness of C17: the three cases on initialised buffers. -/
theorem ReleaseResources_by_previous_state_witness :
    (FSortingSystem.Initial [⟨0, 0⟩]).Buffers.ReleaseResources true = some
      { Buffers :=
          { (FSortingSystem.Initial [⟨0, 0⟩]).Buffers with
            CurrentState := ESortingState.TearDown
            IdxDistA := FSplatCPUToGPUBuffer.create
            IdxDistB := FSplatCPUToGPUBuffer.create }
        Enqueued := []
        bReleasedHere := true } :=
  (ReleaseResources_by_previous_state (FSortingSystem.Initial [⟨0, 0⟩]).Buffers).2.1 rfl rfl

/-- Counterexample to C11: on initialised buffers the first `ReleaseResources` (on the
rendering thread, state `Ready`) releases the buffers and leaves the state `TearDown`; a
second call on the rendering thread then fails the assertion, and a second call off the
rendering thread enqueues a further release command. -/
theorem ReleaseResources_twice_counterexample :
    ∃ R1, (FSortingSystem.Initial [⟨0, 0⟩]).Buffers.ReleaseResources true = some R1 ∧
      R1.bReleasedHere = true ∧
      R1.Buffers.CurrentState = ESortingState.TearDown ∧
      R1.Buffers.ReleaseResources true = none ∧
      ∃ R2, R1.Buffers.ReleaseResources false = some R2 ∧
        R2.NumReleases = 1 ∧
        R2.Enqueued = [ERenderCommand.DestroyCPUSortingResources
          R1.Buffers.IdxDistA R1.Buffers.IdxDistB] :=
  ⟨_, rfl, rfl, rfl, rfl, _, rfl, rfl, rfl⟩

/-- C11 (amended): a call of `ReleaseResources` in state `TearDown` is not a no-op: on
the rendering thread it fails the assertion; off the rendering thread it leaves the
state `TearDown`, moves the two GPU buffers into one further release command on the
render queue and leaves moved-from buffers behind. -/
theorem ReleaseResources_in_TearDown (B : FMultithreadedSortingBuffers)
    (h : B.CurrentState = ESortingState.TearDown) :
    B.ReleaseResources true = none ∧
    B.ReleaseResources false = some
      { Buffers :=
          { B with
            IdxDistA := FSplatCPUToGPUBuffer.MovedFrom
            IdxDistB := FSplatCPUToGPUBuffer.MovedFrom }
        Enqueued := [ERenderCommand.DestroyCPUSortingResources B.IdxDistA B.IdxDistB]
        bReleasedHere := false } ∧
    ∀ R, B.ReleaseResources false = some R →
      R.NumReleases = 1 ∧ R.Buffers.CurrentState = ESortingState.TearDown := by
  obtain ⟨IA, IB, CD, DS, DC, CS, Fl⟩ := B
  dsimp only at h
  subst h
  refine ⟨rfl, rfl, ?_⟩
  intro R hR
  have : R = _ := (Option.some.inj hR).symm
  subst this
  exact ⟨rfl, rfl⟩

/-- Witness of C11 (amended): the buffers left by a first release. -/
theorem ReleaseResources_in_TearDown_witness :
    FMultithreadedSortingBuffers.ReleaseResources true
        { (FSortingSystem.Initial [⟨0, 0⟩]).Buffers with
          CurrentState := ESortingState.TearDown } = none :=
  (ReleaseResources_in_TearDown
    { (FSortingSystem.Initial [⟨0, 0⟩]).Buffers with
      CurrentState := ESortingState.TearDown } rfl).1

/-- Counterexample to C14: on buffers whose RHI resources were never created
(`InitResources_RenderThread` not run), after `BeginSorting` and `WaitCopy` no copy is
in progress, the state is not `Ready` and a copy destination is selected, yet
`BeginCopy` fails. -/
theorem BeginCopy_fails_without_RHI_counterexample :
    ∃ B1 B2 Begin End1,
      (FMultithreadedSortingBuffers.create [⟨0, 0⟩]).BeginSorting = some B1 ∧
      B1.WaitCopy = some (B2, Begin, End1) ∧
      B2.bCopyInProgress = false ∧
      B2.CurrentState ≠ ESortingState.Ready ∧
      B2.CopyDst ≠ none ∧
      B2.BeginCopy = none :=
  ⟨_, _, _, _, rfl, rfl, rfl, by decide, by decide, rfl⟩

/-- C14 (amended): `BeginCopy` succeeds exactly when no copy is already in progress, the
state is not `Ready`, a copy destination is selected, the RHI vertex buffer of that
destination exists, and the scratch array is not empty; on success it sets
`bCopyInProgress` and reports the destination, the start of the scratch array and
`Size = count * 8` bytes as a 32-bit unsigned value; a second `BeginCopy` on the result,
without `EndCopy` in between, fails, and after `EndCopy` the flag is clear again. -/
theorem BeginCopy_succeeds_iff (B : FMultithreadedSortingBuffers) :
    ((∃ R, B.BeginCopy = some R) ↔
      (B.bCopyInProgress = false ∧ B.CurrentState ≠ ESortingState.Ready ∧
        ∃ D, B.CopyDst = some D ∧ (B.Buffer D).VertexBufferRHI = true ∧
          B.DataCPU.length ≠ 0)) ∧
    (∀ B1 Request, B.BeginCopy = some (B1, Request) →
      B1 = { B with bCopyInProgress := true } ∧
      B.CopyDst = some Request.DstBuffer ∧
      Request.Src = 0 ∧
      Request.Size = (B.DataCPU.length * 8) % 2 ^ 32 ∧
      (B.DataCPU.length < 2 ^ 29 → Request.Size = B.DataCPU.length * 8) ∧
      B1.BeginCopy = none ∧
      B1.EndCopy = some B) := by
  obtain ⟨IA, IB, CD, DS, DC, CS, Fl⟩ := B
  constructor
  · constructor
    · rintro ⟨R, hR⟩
      unfold FMultithreadedSortingBuffers.BeginCopy at hR
      dsimp only at hR
      split at hR
      · cases hR
      · rename_i hFl
        split at hR
        · cases hR
        · rename_i hCS
          split at hR
          · cases hR
          · rename_i D
            split at hR
            · cases hR
            · rename_i hV
              split at hR
              · cases hR
              · rename_i hLen
                refine ⟨by simpa using hFl, hCS, D, rfl, by simpa using hV, hLen⟩
    · rintro ⟨hFl, hCS, D, hD, hV, hLen⟩
      dsimp only at hFl hCS hD hLen
      subst hFl
      subst hD
      refine ⟨(⟨IA, IB, some D, DS, DC, CS, true⟩, ⟨D, 0, (DC.length * 8) % 2 ^ 32⟩), ?_⟩
      unfold FMultithreadedSortingBuffers.BeginCopy
      dsimp only
      rw [if_neg (by simp), if_neg hCS]
      have hV1 : (FMultithreadedSortingBuffers.Buffer
          { IdxDistA := IA, IdxDistB := IB, CopyDst := some D, DrawSrc := DS, DataCPU := DC,
            CurrentState := CS, bCopyInProgress := true } D).VertexBufferRHI = true := by
        cases D <;> exact hV
      rw [hV1]
      rw [if_neg (by simp), if_neg hLen]
  · intro B1 Request hR
    unfold FMultithreadedSortingBuffers.BeginCopy at hR
    dsimp only at hR
    split at hR
    · cases hR
    · rename_i hFl
      split at hR
      · cases hR
      · rename_i hCS
        split at hR
        · cases hR
        · rename_i D
          split at hR
          · cases hR
          · rename_i hV
            split at hR
            · cases hR
            · rename_i hLen
              simp only [Option.some.injEq, Prod.mk.injEq] at hR
              obtain ⟨h1, h2⟩ := hR
              subst h1
              subst h2
              have hFl1 : Fl = false := by simpa using hFl
              subst hFl1
              refine ⟨rfl, rfl, rfl, rfl, ?_, rfl, rfl⟩
              intro hlt
              dsimp only at hlt ⊢
              omega

/-- Witness of C14 (amended): in the first sort cycle on initialised buffers `BeginCopy`
succeeds after `BeginSorting` and `WaitCopy`, reporting buffer A and 8 bytes. -/
theorem BeginCopy_succeeds_iff_witness :
    ∃ B1 B2 Begin End1 B3,
      (FSortingSystem.Initial [⟨0, 0⟩]).Buffers.BeginSorting = some B1 ∧
      B1.WaitCopy = some (B2, Begin, End1) ∧
      B2.BeginCopy = some (B3, { DstBuffer := EBuffer.IdxDistA, Src := 0, Size := 8 }) ∧
      B3.BeginCopy = none :=
  ⟨_, _, _, _, _, rfl, rfl, rfl,
    ((BeginCopy_succeeds_iff
        { (FSortingSystem.Initial [⟨0, 0⟩]).Buffers with
          CurrentState := ESortingState.InProgress
          CopyDst := some EBuffer.IdxDistA }).2 _
      { DstBuffer := EBuffer.IdxDistA, Src := 0, Size := 8 } rfl).2.2.2.2.2.1⟩

/-! ## Serialization of an empty asset: claim C18 -/

/-- C18: for an asset with `NumSplats = 0`, whatever its other members, saving appends
exactly the count field to the archive and returns the asset unchanged, without calling
a buffer serializer (so the assertions that need a present buffer are not reached); and
loading from an archive whose next item is the count 0 consumes exactly that item, calls
no buffer serializer and leaves every other member alone, so a default-constructed asset
stays without position, covariance and colour buffers and with an empty convex hull;
saving and then loading returns the default asset.  For contrast, saving an asset with
a positive count and no covariance buffer fails the assertion of the buffer serializer. -/
theorem Serialize_empty_asset (A : USplatAsset) (Ar : FArchive) :
    (A.NumSplats = 0 → Ar.bIsSaving = true →
      A.Serialize Ar =
        some ({ Ar with Items := Ar.Items ++ [FArchiveItem.UInt32 0] }, A)) ∧
    (∀ Rest, Ar.bIsSaving = false → Ar.bIsLoading = true →
      Ar.Items = FArchiveItem.UInt32 0 :: Rest →
      A.Serialize Ar = some ({ Ar with Items := Rest }, { A with NumSplats := 0 }) ∧
      USplatAsset.create.Serialize Ar =
        some ({ Ar with Items := Rest }, USplatAsset.create)) ∧
    (∀ Ar1 A1, A.NumSplats = 0 → Ar.bIsSaving = true → A.Serialize Ar = some (Ar1, A1) →
      Ar1.NumBufferSerializers = Ar.NumBufferSerializers ∧
      USplatAsset.create.Serialize
          { Ar1 with
            bIsSaving := false
            bIsLoading := true
            Items := Ar1.Items.drop Ar.Items.length } =
        some ({ Ar1 with bIsSaving := false, bIsLoading := true, Items := [] },
          USplatAsset.create)) ∧
    (0 < A.NumSplats → Ar.bIsSaving = true → A.CovariancesCM = none →
      A.Serialize Ar = none) := by
  have hSave : A.NumSplats = 0 → Ar.bIsSaving = true →
      A.Serialize Ar =
        some ({ Ar with Items := Ar.Items ++ [FArchiveItem.UInt32 0] }, A) := by
    intro hN hS
    obtain ⟨N, PF, P, C, Col, HV, HI⟩ := A
    dsimp only at hN
    subst hN
    simp [USplatAsset.Serialize, FArchive.SerializeUInt32, FArchive.SerializeItem, hS]
  have hLoad : ∀ (A0 : USplatAsset) (Ar0 : FArchive) (Rest : List FArchiveItem),
      Ar0.bIsSaving = false → Ar0.bIsLoading = true →
      Ar0.Items = FArchiveItem.UInt32 0 :: Rest →
      A0.Serialize Ar0 = some ({ Ar0 with Items := Rest }, { A0 with NumSplats := 0 }) := by
    intro A0 Ar0 Rest hS hL hI
    simp [USplatAsset.Serialize, FArchive.SerializeUInt32, FArchive.SerializeItem, hS, hL, hI]
  refine ⟨hSave, ?_, ?_, ?_⟩
  · intro Rest hS hL hI
    exact ⟨hLoad A Ar Rest hS hL hI, hLoad USplatAsset.create Ar Rest hS hL hI⟩
  · intro Ar1 A1 hN hS hR
    rw [hSave hN hS] at hR
    simp only [Option.some.injEq, Prod.mk.injEq] at hR
    obtain ⟨hAr, -⟩ := hR
    subst hAr
    refine ⟨rfl, ?_⟩
    have := hLoad USplatAsset.create
      { Ar with bIsSaving := false, bIsLoading := true, Items := [FArchiveItem.UInt32 0] } []
      rfl rfl rfl
    simpa using this
  · intro hN hS hC
    obtain ⟨N, PF, P, C, Col, HV, HI⟩ := A
    dsimp only at hN hC
    subst hC
    simp [USplatAsset.Serialize, FArchive.SerializeUInt32, FArchive.SerializeVectorArray,
      FArchive.SerializeItem, TSplatStaticBuffer.Serialize, hS, hN]

/-- Witness of C18: the default asset saved to an empty archive gives the archive that
holds the count 0 only, and loading that archive gives the default asset back. -/
theorem Serialize_empty_asset_witness :
    USplatAsset.create.Serialize ⟨true, false, [], 0⟩ =
      some (⟨true, false, [FArchiveItem.UInt32 0], 0⟩, USplatAsset.create) ∧
    USplatAsset.create.Serialize ⟨false, true, [FArchiveItem.UInt32 0], 0⟩ =
      some (⟨false, true, [], 0⟩, USplatAsset.create) :=
  ⟨(Serialize_empty_asset USplatAsset.create ⟨true, false, [], 0⟩).1 rfl rfl,
    ((Serialize_empty_asset USplatAsset.create ⟨false, true, [FArchiveItem.UInt32 0], 0⟩).2.1
      [] rfl rfl rfl).1⟩

/-! ## Degenerate bounding boxes and negative arguments: claims C19 and C20 -/

/-- C20: `ToUNorm<11>` does not clip the negative argument `-1` to 0: the argument
passes both comparisons, is scaled and rounded to `-2047`, and the conversion to
`uint32` yields `4294965249`, which is neither 0 nor at most `2^11 - 1`. -/
theorem ToUNorm_does_not_clip_negative :
    ToUNorm 11 (-1) = 4294965249 ∧ ToUNorm 11 (-1) ≠ 0 ∧ ¬ ToUNorm 11 (-1) ≤ 2 ^ 11 - 1 := by
  have h : ToUNorm 11 (-1) = 4294965249 := by
    unfold ToUNorm
    simp only
    rw [ToUNorm_MaxValue 11 (by norm_num)]
    rw [if_neg (by norm_num), if_neg (by norm_num)]
    have h1 : stdRound (-1 * (((2 ^ 11 - 1 : Nat)) : ℚ)) = -2047 := by
      unfold stdRound
      rw [if_neg (by norm_num)]
      rw [Int.ceil_eq_iff]
      norm_num
    rw [h1]
    unfold toUInt32 truncToInt
    rw [if_neg (by norm_num)]
    have h2 : ⌈((-2047 : ℤ) : ℚ)⌉ = -2047 := Int.ceil_intCast _
    rw [h2]
    rfl
  rw [h]
  exact ⟨rfl, by norm_num, by norm_num⟩

/-! ## Zero and the field layouts: claims C22 to C24 -/

/-- C22: a zero encodes to zero: `ToFloat` returns 0 for the bit patterns of `+0` and
`-0` in every instantiation, `ToUNorm` returns 0 for the argument 0 for every number
of bits, `FPackedPos(0, 0, 0)` has `Packed == 0`, and `FPackedCovMat` of the all-zero
matrix has `Packed == 0`. -/
theorem zero_encodes_to_zero :
    (∀ Signed ExpBits SigBits : Nat,
      ToFloat Signed ExpBits SigBits 0 = 0 ∧ ToFloat Signed ExpBits SigBits 0x80000000 = 0) ∧
    (∀ Bits : Nat, ToUNorm Bits 0 = 0) ∧
    (FPackedPos.create 0 0 0).Packed = 0 ∧
    (FPackedPos.ofVector ⟨0, 0, 0⟩).Packed = 0 ∧
    (FPackedCovMat.create (fun _ _ => 0)).Packed = 0 := by
  have hU : ∀ Bits : Nat, ToUNorm Bits 0 = 0 := by
    intro Bits
    unfold ToUNorm
    simp
  have hF : ∀ Signed ExpBits SigBits : Nat, ToFloat Signed ExpBits SigBits 0 = 0 :=
    fun Signed ExpBits SigBits => ToFloat_zero Signed ExpBits SigBits 0 (by norm_num)
  have hP : (FPackedPos.create 0 0 0).Packed = 0 := by
    unfold FPackedPos.create
    simp only [hU]
    decide
  refine ⟨fun Signed ExpBits SigBits =>
      ⟨hF Signed ExpBits SigBits, ToFloat_zero Signed ExpBits SigBits _ (by norm_num)⟩,
    hU, hP, hP, ?_⟩
  unfold FPackedCovMat.create
  simp only [hF]
  decide

/-- C23: for normalized coordinates in `[0, 1]` the packed word is
`ToUNorm<11>(x) + 2^11 * ToUNorm<11>(y) + 2^22 * ToUNorm<10>(z)` with the three values
below `2^11`, `2^11` and `2^10`, so the fields occupy bits 0-10, 11-21 and 22-31, the
word fits in 32 bits, and `Packed & 0x7FF`, `(Packed >> 11) & 0x7FF` and `Packed >> 22`
return the three values. -/
theorem FPackedPos_layout (X Y Z : ℚ) (hX0 : 0 ≤ X) (hX1 : X ≤ 1) (hY0 : 0 ≤ Y)
    (hY1 : Y ≤ 1) (hZ0 : 0 ≤ Z) (hZ1 : Z ≤ 1) :
    (FPackedPos.create X Y Z).Packed =
      ToUNorm 11 X + 2 ^ 11 * ToUNorm 11 Y + 2 ^ 22 * ToUNorm 10 Z ∧
    ToUNorm 11 X < 2 ^ 11 ∧ ToUNorm 11 Y < 2 ^ 11 ∧ ToUNorm 10 Z < 2 ^ 10 ∧
    (FPackedPos.create X Y Z).Packed < 2 ^ 32 ∧
    (FPackedPos.create X Y Z).Packed &&& 0x7FF = ToUNorm 11 X ∧
    ((FPackedPos.create X Y Z).Packed >>> 11) &&& 0x7FF = ToUNorm 11 Y ∧
    (FPackedPos.create X Y Z).Packed >>> 22 = ToUNorm 10 Z ∧
    (FPackedPos.ofVector ⟨X, Y, Z⟩) = FPackedPos.create X Y Z := by
  have hx := ToUNorm_lt_of_unit 11 (by norm_num) X hX0 hX1
  have hy := ToUNorm_lt_of_unit 11 (by norm_num) Y hY0 hY1
  have hz := ToUNorm_lt_of_unit 10 (by norm_num) Z hZ0 hZ1
  have hP : (FPackedPos.create X Y Z).Packed =
      2 ^ 11 * (2 ^ 11 * ToUNorm 10 Z + ToUNorm 11 Y) + ToUNorm 11 X := by
    unfold FPackedPos.create
    simp only
    exact pack3_eq _ _ _ hx hy hz
  have hm : (0x7FF : Nat) = 2 ^ 11 - 1 := by norm_num
  refine ⟨by rw [hP]; omega, hx, hy, hz, by rw [hP]; omega, ?_, ?_, ?_, rfl⟩
  · rw [hP, hm, Nat.and_pow_two_sub_one_eq_mod]
    omega
  · rw [hP, hm, Nat.and_pow_two_sub_one_eq_mod, Nat.shiftRight_eq_div_pow]
    omega
  · rw [hP, Nat.shiftRight_eq_div_pow]
    omega

/-- Witness of C23: the corner `(1, 1/2, 0)`. -/
theorem FPackedPos_layout_witness :
    (FPackedPos.create 1 (1 / 2) 0).Packed &&& 0x7FF = ToUNorm 11 1 ∧
    ((FPackedPos.create 1 (1 / 2) 0).Packed >>> 11) &&& 0x7FF = ToUNorm 11 (1 / 2) ∧
    (FPackedPos.create 1 (1 / 2) 0).Packed >>> 22 = ToUNorm 10 0 :=
  ⟨(FPackedPos_layout 1 (1 / 2) 0 (by norm_num) (by norm_num) (by norm_num) (by norm_num)
      (by norm_num) (by norm_num)).2.2.2.2.2.1,
    (FPackedPos_layout 1 (1 / 2) 0 (by norm_num) (by norm_num) (by norm_num) (by norm_num)
      (by norm_num) (by norm_num)).2.2.2.2.2.2.1,
    (FPackedPos_layout 1 (1 / 2) 0 (by norm_num) (by norm_num) (by norm_num) (by norm_num)
      (by norm_num) (by norm_num)).2.2.2.2.2.2.2.1⟩

/-- C24: for every matrix of bit patterns the packed word is the sum of the six encoded
entries, each shifted to its position: XX (below `2^10`) at bit 54, XY (below `2^11`)
at bit 43, XZ (below `2^11`) at bit 32, YY (below `2^10`) at bit 22, YZ (below `2^11`)
at bit 11 and ZZ (below `2^11`) at bit 0; the widths add up to 64, the word fits in 64
bits, and shifting and masking returns each encoded entry. -/
theorem FPackedCovMat_layout (Sigma : Fin 4 → Fin 4 → Nat) :
    (FPackedCovMat.create Sigma).Packed =
      2 ^ 54 * ToFloat 0 5 5 (Sigma 0 0) + 2 ^ 43 * ToFloat 1 5 5 (Sigma 0 1) +
      2 ^ 32 * ToFloat 1 5 5 (Sigma 0 2) + 2 ^ 22 * ToFloat 0 5 5 (Sigma 1 1) +
      2 ^ 11 * ToFloat 1 5 5 (Sigma 1 2) + ToFloat 0 5 6 (Sigma 2 2) ∧
    (ToFloat 0 5 5 (Sigma 0 0) < 2 ^ 10 ∧ ToFloat 1 5 5 (Sigma 0 1) < 2 ^ 11 ∧
      ToFloat 1 5 5 (Sigma 0 2) < 2 ^ 11 ∧ ToFloat 0 5 5 (Sigma 1 1) < 2 ^ 10 ∧
      ToFloat 1 5 5 (Sigma 1 2) < 2 ^ 11 ∧ ToFloat 0 5 6 (Sigma 2 2) < 2 ^ 11) ∧
    (FPackedCovMat.create Sigma).Packed < 2 ^ 64 ∧
    (FPackedCovMat.create Sigma).FieldXX = ToFloat 0 5 5 (Sigma 0 0) ∧
    (FPackedCovMat.create Sigma).FieldXY = ToFloat 1 5 5 (Sigma 0 1) ∧
    (FPackedCovMat.create Sigma).FieldXZ = ToFloat 1 5 5 (Sigma 0 2) ∧
    (FPackedCovMat.create Sigma).FieldYY = ToFloat 0 5 5 (Sigma 1 1) ∧
    (FPackedCovMat.create Sigma).FieldYZ = ToFloat 1 5 5 (Sigma 1 2) ∧
    (FPackedCovMat.create Sigma).FieldZZ = ToFloat 0 5 6 (Sigma 2 2) := by
  have h1 := ToFloat_lt 0 5 (Sigma 0 0) (by norm_num) (by norm_num)
  have h2 := ToFloat_lt 1 5 (Sigma 0 1) (by norm_num) (by norm_num)
  have h3 := ToFloat_lt 1 5 (Sigma 0 2) (by norm_num) (by norm_num)
  have h4 := ToFloat_lt 0 5 (Sigma 1 1) (by norm_num) (by norm_num)
  have h5 := ToFloat_lt 1 5 (Sigma 1 2) (by norm_num) (by norm_num)
  have h6 := ToFloat_lt 0 6 (Sigma 2 2) (by norm_num) (by norm_num)
  have hP := FPackedCovMat_Packed_eq Sigma
  have hm : (0x7FF : Nat) = 2 ^ 11 - 1 := by norm_num
  refine ⟨by rw [hP]; omega, ⟨h1, h2, h3, h4, h5, h6⟩, by rw [hP]; omega,
    FieldXX_create Sigma, ?_, ?_, FieldYY_create Sigma, ?_, FieldZZ_create Sigma⟩
  · unfold FPackedCovMat.FieldXY
    rw [hP, hm, Nat.and_pow_two_sub_one_eq_mod, Nat.shiftRight_eq_div_pow]
    omega
  · unfold FPackedCovMat.FieldXZ
    rw [hP, hm, Nat.and_pow_two_sub_one_eq_mod, Nat.shiftRight_eq_div_pow]
    omega
  · unfold FPackedCovMat.FieldYZ
    rw [hP, hm, Nat.and_pow_two_sub_one_eq_mod, Nat.shiftRight_eq_div_pow]
    omega

/-! ## The fields written by `ToFloat`: lemmas, claims C21 and C29 -/

theorem and_shiftLeft_eq (a b k : Nat) : a &&& (b <<< k) = ((a >>> k) &&& b) <<< k := by
  apply Nat.eq_of_testBit_eq
  intro i
  simp only [Nat.testBit_and, Nat.testBit_shiftLeft, Nat.testBit_shiftRight]
  by_cases h : k ≤ i
  · simp [h, Nat.add_sub_cancel' h]
  · simp [h]

theorem ToFloat_exponent_value (s : Nat) (hs : s ≤ 23) (e : ℤ) :
    1 ≤ (max (-14) (min e 15) + 15).toNat ∧ (max (-14) (min e 15) + 15).toNat ≤ 30 ∧
      ((((max (-(((1 <<< (5 - 1) : Nat) : ℤ) - 1) + 1) (min e (((1 <<< (5 - 1) : Nat) : ℤ) - 1)) +
          ((((1 <<< (5 - 1) : Nat) : ℤ)) - 1)) * 2 ^ s) % 2 ^ 32).toNat &&&
        (((1 <<< 5) - 1) <<< s)) = 2 ^ s * (max (-14) (min e 15) + 15).toNat := by
  have hb : (((1 <<< (5 - 1) : Nat) : ℤ) - 1) = 15 := by
    have h16 : (1 <<< (5 - 1) : Nat) = 16 := by decide
    rw [h16]; norm_num
  rw [hb]
  have hneg : (-15 + 1 : ℤ) = -14 := by norm_num
  rw [hneg]
  have h1 : 1 ≤ max (-14) (min e 15) + 15 := by
    have := le_max_left (-14 : ℤ) (min e 15)
    omega
  have h2 : max (-14) (min e 15) + 15 ≤ 30 := by
    have : max (-14 : ℤ) (min e 15) ≤ 15 := max_le (by norm_num) (min_le_right _ _)
    omega
  obtain ⟨E, hE⟩ := Int.eq_ofNat_of_zero_le (by omega : 0 ≤ max (-14) (min e 15) + 15)
  rw [hE] at h1 h2 ⊢
  have hE1 : 1 ≤ E := by exact_mod_cast h1
  have hE2 : E ≤ 30 := by exact_mod_cast h2
  rw [Int.toNat_ofNat]
  refine ⟨hE1, hE2, ?_⟩
  have hpow : 2 ^ s ≤ 2 ^ 23 := Nat.pow_le_pow_right (by norm_num) hs
  have hlt : E * 2 ^ s < 2 ^ 32 := by
    calc E * 2 ^ s ≤ 30 * 2 ^ 23 := Nat.mul_le_mul hE2 hpow
      _ < 2 ^ 32 := by norm_num
  have hcast : ((E : ℤ) * 2 ^ s % 2 ^ 32).toNat = E * 2 ^ s := by
    have : ((E : ℤ) * 2 ^ s % 2 ^ 32) = ((E * 2 ^ s % 2 ^ 32 : Nat) : ℤ) := by
      push_cast; rfl
    rw [this, Int.toNat_ofNat, Nat.mod_eq_of_lt hlt]
  rw [hcast, ← Nat.shiftLeft_eq, shiftLeft_and_shiftLeft]
  have h31 : (1 <<< 5) - 1 = 2 ^ 5 - 1 := by decide
  rw [h31, Nat.and_pow_two_sub_one_eq_mod, Nat.mod_eq_of_lt (by omega), Nat.shiftLeft_eq,
    Nat.mul_comm]

theorem ToFloat_exponent_source (Raw : Nat) :
    (Raw &&& 0x7F800000) >>> 23 = Binary32ExponentField Raw := by
  have h : (0x7F800000 : Nat) = (2 ^ 8 - 1) <<< 23 := by decide
  rw [h, and_shiftLeft_eq, Nat.shiftLeft_eq, Nat.shiftRight_eq_div_pow (_ * 2 ^ 23),
    Nat.mul_div_cancel _ (Nat.two_pow_pos 23), Nat.and_pow_two_sub_one_eq_mod]
  rfl

theorem ToFloat_significand_value (s : Nat) (hs : s ≤ 23) (Raw : Nat) :
    ((Raw &&& 0x007FFFFF) >>> (23 - s)) &&& ((1 <<< s) - 1) =
        Binary32MantissaField Raw / 2 ^ (23 - s) ∧
      Binary32MantissaField Raw / 2 ^ (23 - s) < 2 ^ s := by
  have hlt : Binary32MantissaField Raw / 2 ^ (23 - s) < 2 ^ s := by
    rw [Nat.div_lt_iff_lt_mul (Nat.two_pow_pos _), ← Nat.pow_add,
      show s + (23 - s) = 23 by omega]
    exact Nat.mod_lt _ (Nat.two_pow_pos 23)
  refine ⟨?_, hlt⟩
  have h1 : (0x007FFFFF : Nat) = 2 ^ 23 - 1 := by norm_num
  have h2 : (1 <<< s) - 1 = 2 ^ s - 1 := by rw [Nat.shiftLeft_eq, Nat.one_mul]
  rw [h1, h2, Nat.and_pow_two_sub_one_eq_mod, Nat.and_pow_two_sub_one_eq_mod,
    Nat.shiftRight_eq_div_pow]
  exact Nat.mod_eq_of_lt hlt

theorem ToFloat_sign_value (s : Nat) (hs : s ≤ 23) (Raw : Nat) :
    ((Raw &&& 0x80000000) >>> (31 - 5 - s)) &&& (1 <<< (5 + s)) =
      2 ^ (5 + s) * Binary32SignBit Raw := by
  have hR : Raw &&& 0x80000000 = Binary32SignBit Raw * 2 ^ 31 := by
    have h : (0x80000000 : Nat) = (2 ^ 1 - 1) <<< 31 := by decide
    rw [h, and_shiftLeft_eq, Nat.and_pow_two_sub_one_eq_mod, Nat.shiftLeft_eq]
    rfl
  rw [hR, Nat.shiftRight_eq_div_pow, Nat.shiftLeft_eq, Nat.one_mul]
  have h31 : 2 ^ 31 = 2 ^ (5 + s) * 2 ^ (31 - 5 - s) := by
    rw [← Nat.pow_add]
    congr 1
    omega
  rw [h31, ← Nat.mul_assoc, Nat.mul_div_cancel _ (Nat.two_pow_pos _)]
  have hbit : Binary32SignBit Raw = 0 ∨ Binary32SignBit Raw = 1 := by
    unfold Binary32SignBit
    omega
  rcases hbit with h0 | h1
  · rw [h0]
    simp
  · rw [h1]
    simp

/-- The result of `ToFloat<Signed, 5, SigBits>` on a non-zero float, field by field:
the sign bit (when `Signed` is 1), the clamped and biased exponent, and the leading
`SigBits` bits of the mantissa. -/
theorem ToFloat_shape (Signed s : Nat) (hSigned : Signed ≤ 1) (hs : s ≤ 23) (Raw : Nat)
    (hRaw : Raw % 2 ^ 31 ≠ 0) :
    ToFloat Signed 5 s Raw =
      2 ^ s * (32 * (Signed * Binary32SignBit Raw) +
        (max (-14) (min ((Binary32ExponentField Raw : ℤ) - 127) 15) + 15).toNat) +
        Binary32MantissaField Raw / 2 ^ (23 - s) := by
  obtain ⟨hE1, hE2, hE⟩ := ToFloat_exponent_value s hs ((Binary32ExponentField Raw : ℤ) - 127)
  obtain ⟨hm, hmlt⟩ := ToFloat_significand_value s hs Raw
  have hsg := ToFloat_sign_value s hs Raw
  unfold ToFloat
  rw [if_neg hRaw]
  simp only
  rw [ToFloat_exponent_source, hE, hm]
  interval_cases Signed
  · simp only [Nat.zero_ne_one, if_false, Nat.zero_mul, Nat.mul_zero, Nat.zero_add]
    exact (Nat.mul_add_lt_is_or hmlt _).symm
  · simp only [if_true, Nat.one_mul]
    rw [hsg]
    have h5 : 2 ^ (5 + s) = 2 ^ s * 32 := by rw [Nat.pow_add, Nat.mul_comm]
    have hexp : 2 ^ s *
        (max (-14) (min ((Binary32ExponentField Raw : ℤ) - 127) 15) + 15).toNat <
        2 ^ (5 + s) := by
      rw [h5]
      exact (Nat.mul_lt_mul_left (Nat.two_pow_pos s)).mpr (by omega)
    rw [← Nat.mul_add_lt_is_or hexp, h5, Nat.mul_assoc, ← Nat.mul_add,
      ← Nat.mul_add_lt_is_or hmlt]

theorem ToFloat_fields (Signed s : Nat) (hSigned : Signed ≤ 1) (hs : s ≤ 23) (Raw : Nat)
    (hRaw : Raw % 2 ^ 31 ≠ 0) :
    (ToFloat Signed 5 s Raw >>> s) % 2 ^ 5 =
        (max (-14) (min ((Binary32ExponentField Raw : ℤ) - 127) 15) + 15).toNat ∧
      ToFloat Signed 5 s Raw % 2 ^ s = Binary32MantissaField Raw / 2 ^ (23 - s) ∧
      (ToFloat Signed 5 s Raw >>> (5 + s)) % 2 = Signed * Binary32SignBit Raw := by
  obtain ⟨hE1, hE2, -⟩ := ToFloat_exponent_value s hs ((Binary32ExponentField Raw : ℤ) - 127)
  obtain ⟨-, hmlt⟩ := ToFloat_significand_value s hs Raw
  have hshape := ToFloat_shape Signed s hSigned hs Raw hRaw
  have hpos := Nat.two_pow_pos s
  have hbit : Signed * Binary32SignBit Raw ≤ 1 := by
    have : Binary32SignBit Raw ≤ 1 := by
      unfold Binary32SignBit
      omega
    calc Signed * Binary32SignBit Raw ≤ 1 * 1 := Nat.mul_le_mul hSigned this
      _ = 1 := rfl
  generalize (max (-14) (min ((Binary32ExponentField Raw : ℤ) - 127) 15) + 15).toNat = E
    at hE1 hE2 hshape ⊢
  generalize Binary32MantissaField Raw / 2 ^ (23 - s) = m at hmlt hshape ⊢
  generalize Signed * Binary32SignBit Raw = b at hbit hshape ⊢
  rw [hshape]
  have hdiv : (2 ^ s * (32 * b + E) + m) / 2 ^ s = 32 * b + E := by
    rw [Nat.mul_add_div hpos, Nat.div_eq_of_lt hmlt, Nat.add_zero]
  refine ⟨?_, ?_, ?_⟩
  · rw [Nat.shiftRight_eq_div_pow, hdiv]
    omega
  · rw [Nat.mul_add_mod, Nat.mod_eq_of_lt hmlt]
  · rw [Nat.shiftRight_eq_div_pow, Nat.add_comm 5 s, Nat.pow_add, ← Nat.div_div_eq_div_mul,
      hdiv]
    omega

/-- C21: for every non-zero float, given by its bit pattern (denormals, infinities and
NaNs included), the 5-bit exponent field of `ToFloat<Signed, 5, SigBits>` is the
unbiased exponent clamped to `[-14, 15]` plus the bias 15, so it lies in `[1, 30]` and is
neither all zeros nor all ones; and the result is below `2 ^ (Signed + 5 + SigBits)`. -/
theorem ToFloat_exponent_clamped (Signed SigBits Raw : Nat) (hSigned : Signed ≤ 1)
    (hSigBits : SigBits ≤ 23) (hRaw : Raw % 2 ^ 31 ≠ 0) :
    ((ToFloat Signed 5 SigBits Raw >>> SigBits) % 2 ^ 5 : ℤ) =
        max (-14) (min ((Binary32ExponentField Raw : ℤ) - 127) 15) + 15 ∧
      1 ≤ (ToFloat Signed 5 SigBits Raw >>> SigBits) % 2 ^ 5 ∧
      (ToFloat Signed 5 SigBits Raw >>> SigBits) % 2 ^ 5 ≤ 30 ∧
      ToFloat Signed 5 SigBits Raw < 2 ^ (Signed + 5 + SigBits) := by
  obtain ⟨hE1, hE2, -⟩ :=
    ToFloat_exponent_value SigBits hSigBits ((Binary32ExponentField Raw : ℤ) - 127)
  obtain ⟨hF, -, -⟩ := ToFloat_fields Signed SigBits hSigned hSigBits Raw hRaw
  refine ⟨?_, by rw [hF]; exact hE1, by rw [hF]; exact hE2,
    ToFloat_lt Signed SigBits Raw hSigned hSigBits⟩
  have h0 : 0 ≤ max (-14) (min ((Binary32ExponentField Raw : ℤ) - 127) 15) + 15 := by
    have := le_max_left (-14 : ℤ) (min ((Binary32ExponentField Raw : ℤ) - 127) 15)
    omega
  have := Int.toNat_of_nonneg h0
  rw [← this, ← hF]
  norm_cast

/-- Witness of C21: the bit patterns of `+Inf`, of the smallest denormal and of 1.0
under `ToFloat<1, 5, 5>`. -/
theorem ToFloat_exponent_clamped_witness :
    (ToFloat 1 5 5 0x7F800000 >>> 5) % 2 ^ 5 = 30 ∧
    (ToFloat 1 5 5 0x00000001 >>> 5) % 2 ^ 5 = 1 ∧
    (1 ≤ (ToFloat 1 5 5 0x3F800000 >>> 5) % 2 ^ 5 ∧
      (ToFloat 1 5 5 0x3F800000 >>> 5) % 2 ^ 5 ≤ 30 ∧
      ToFloat 1 5 5 0x3F800000 < 2 ^ (1 + 5 + 5)) :=
  ⟨by decide, by decide,
    (ToFloat_exponent_clamped 1 5 0x3F800000 (by decide) (by decide) (by decide)).2⟩

/-- C29: for every float with unbiased exponent in `[-14, 15]` (biased exponent field
113 to 142 of its bit pattern) and value `F`, the value
`2 ^ (e - 15) * (1 + m / 2 ^ SigBits)` decoded from the exponent field `e` and the
significand field `m` of `ToFloat<Signed, 5, SigBits>(F)` is at most `|F|` and differs
from `|F|` by less than `|F| * 2 ^ (-SigBits)`; and when `Signed` is 1 the sign bit of
the result is set exactly when `F` is negative. -/
theorem ToFloat_truncates_toward_zero (Signed SigBits Raw : Nat) (hSigned : Signed ≤ 1)
    (hSigBits : SigBits ≤ 23) (hLo : 113 ≤ Binary32ExponentField Raw)
    (hHi : Binary32ExponentField Raw ≤ 142) :
    ∃ F : ℚ, Binary32Value Raw = some F ∧
      (2 : ℚ) ^ ((((ToFloat Signed 5 SigBits Raw >>> SigBits) % 2 ^ 5 : Nat) : ℤ) - 15) *
          (1 + ((ToFloat Signed 5 SigBits Raw % 2 ^ SigBits : Nat) : ℚ) / 2 ^ SigBits) ≤ |F| ∧
      |F| - (2 : ℚ) ^ ((((ToFloat Signed 5 SigBits Raw >>> SigBits) % 2 ^ 5 : Nat) : ℤ) - 15) *
          (1 + ((ToFloat Signed 5 SigBits Raw % 2 ^ SigBits : Nat) : ℚ) / 2 ^ SigBits) <
        |F| * (2 : ℚ) ^ (-(SigBits : ℤ)) ∧
      (Signed = 1 →
        ((ToFloat Signed 5 SigBits Raw >>> (5 + SigBits)) % 2 = 1 ↔ F < 0)) := by
  have hRaw : Raw % 2 ^ 31 ≠ 0 := by
    unfold Binary32ExponentField at hLo
    rw [Nat.shiftRight_eq_div_pow] at hLo
    omega
  obtain ⟨hE, hM, hS⟩ := ToFloat_fields Signed SigBits hSigned hSigBits Raw hRaw
  have hEval : (max (-14) (min ((Binary32ExponentField Raw : ℤ) - 127) 15) + 15).toNat =
      Binary32ExponentField Raw - 112 := by
    have h1 : min ((Binary32ExponentField Raw : ℤ) - 127) 15 =
        (Binary32ExponentField Raw : ℤ) - 127 := min_eq_left (by omega)
    have h2 : max (-14) ((Binary32ExponentField Raw : ℤ) - 127) =
        (Binary32ExponentField Raw : ℤ) - 127 := max_eq_right (by omega)
    rw [h1, h2]
    omega
  rw [hE, hM, hEval]
  have hexp : (((Binary32ExponentField Raw - 112 : Nat) : ℤ) - 15) =
      (Binary32ExponentField Raw : ℤ) - 127 := by omega
  rw [hexp]
  -- the magnitude of the input
  set P : ℚ := (2 : ℚ) ^ ((Binary32ExponentField Raw : ℤ) - 127) with hP
  have hPpos : 0 < P := zpow_pos (by norm_num) _
  set u : ℚ := (Binary32MantissaField Raw : ℚ) / 2 ^ 23 with hu
  set v : ℚ := ((Binary32MantissaField Raw / 2 ^ (23 - SigBits) : Nat) : ℚ) / 2 ^ SigBits with hv
  have hw : (2 : ℚ) ^ (-(SigBits : ℤ)) = 1 / 2 ^ SigBits := by
    rw [zpow_neg, zpow_natCast, one_div]
  have hwpos : (0 : ℚ) < 1 / 2 ^ SigBits := by positivity
  have hu0 : 0 ≤ u := by positivity
  have h23 : (2 : ℚ) ^ 23 = 2 ^ SigBits * 2 ^ (23 - SigBits) := by
    rw [← pow_add]
    congr 1
    omega
  have hvu : v ≤ u := by
    rw [hv, hu, h23, div_le_div_iff₀ (by positivity) (by positivity)]
    have h := Nat.div_mul_le_self (Binary32MantissaField Raw) (2 ^ (23 - SigBits))
    have hq : ((Binary32MantissaField Raw / 2 ^ (23 - SigBits) : Nat) : ℚ) *
        2 ^ (23 - SigBits) ≤ (Binary32MantissaField Raw : ℚ) := by exact_mod_cast h
    nlinarith [hq, show (0 : ℚ) < 2 ^ SigBits by positivity]
  have huv : u < v + 1 / 2 ^ SigBits := by
    rw [hv, hu, h23, ← add_div, div_lt_div_iff₀ (by positivity) (by positivity)]
    have h := Nat.lt_mul_div_succ (Binary32MantissaField Raw)
      (Nat.two_pow_pos (23 - SigBits))
    have hq : (Binary32MantissaField Raw : ℚ) <
        2 ^ (23 - SigBits) *
          (((Binary32MantissaField Raw / 2 ^ (23 - SigBits) : Nat) : ℚ) + 1) := by
      exact_mod_cast h
    nlinarith [hq, show (0 : ℚ) < 2 ^ SigBits by positivity]
  have hne255 : ¬ Binary32ExponentField Raw = 255 := by omega
  have hne0 : ¬ Binary32ExponentField Raw = 0 := by omega
  have hval : Binary32Value Raw =
      some ((if Binary32SignBit Raw = 1 then (-1 : ℚ) else 1) * P * (1 + u)) := by
    unfold Binary32Value
    simp only
    rw [if_neg hne255, if_neg hne0]
  have hmag : 0 < P * (1 + u) := mul_pos hPpos (by linarith)
  have habs : |(if Binary32SignBit Raw = 1 then (-1 : ℚ) else 1) * P * (1 + u)| =
      P * (1 + u) := by
    rw [mul_assoc, abs_mul, abs_of_pos hmag]
    split <;> simp
  refine ⟨_, hval, ?_, ?_, ?_⟩
  · rw [habs]
    exact mul_le_mul_of_nonneg_left (by linarith) (le_of_lt hPpos)
  · rw [habs, hw]
    have h1 : P * (1 + u) - P * (1 + v) = P * (u - v) := by ring
    rw [h1]
    have h2 : P * (u - v) < P * (1 / 2 ^ SigBits) :=
      mul_lt_mul_of_pos_left (by linarith) hPpos
    have h3 : P * (1 / 2 ^ SigBits) ≤ P * (1 + u) * (1 / 2 ^ SigBits) := by
      apply mul_le_mul_of_nonneg_right _ (le_of_lt hwpos)
      nlinarith
    linarith
  · intro hS1
    rw [hS, hS1, Nat.one_mul]
    have hbit : Binary32SignBit Raw = 0 ∨ Binary32SignBit Raw = 1 := by
      unfold Binary32SignBit
      omega
    rcases hbit with h0 | h1
    · rw [h0]
      simp only [Nat.zero_ne_one, if_false, one_mul, false_iff, not_lt]
      exact le_of_lt hmag
    · rw [h1]
      simp only [if_true, true_iff]
      linarith [hmag]

/-- Witness of C29: the float 1.5 (bit pattern `0x3FC00000`) under `ToFloat<1, 5, 5>`. -/
theorem ToFloat_truncates_toward_zero_witness :
    ∃ F : ℚ, Binary32Value 0x3FC00000 = some F ∧
      (2 : ℚ) ^ ((((ToFloat 1 5 5 0x3FC00000 >>> 5) % 2 ^ 5 : Nat) : ℤ) - 15) *
          (1 + ((ToFloat 1 5 5 0x3FC00000 % 2 ^ 5 : Nat) : ℚ) / 2 ^ 5) ≤ |F| ∧
      |F| - (2 : ℚ) ^ ((((ToFloat 1 5 5 0x3FC00000 >>> 5) % 2 ^ 5 : Nat) : ℤ) - 15) *
          (1 + ((ToFloat 1 5 5 0x3FC00000 % 2 ^ 5 : Nat) : ℚ) / 2 ^ 5) <
        |F| * (2 : ℚ) ^ (-((5 : Nat) : ℤ)) ∧
      ((1 : Nat) = 1 →
        ((ToFloat 1 5 5 0x3FC00000 >>> (5 + 5)) % 2 = 1 ↔ F < 0)) :=
  ToFloat_truncates_toward_zero 1 5 0x3FC00000 (by decide) (by decide) (by decide)
    (by decide)

/-! ## Thread groups: claim C30 -/

/-- C30: for every splat count `n` with `n + 31 < 2 ^ 32`, `NumThreadGroups n` is the
ceiling of `n / 32`: 32 times it is at least `n` and less than `n + 32`; and
`NumThreadGroups 0 = 0`. -/
theorem NumThreadGroups_covers (n : Nat) (h : n + 31 < 2 ^ 32) :
    n ≤ 32 * NumThreadGroups n ∧ 32 * NumThreadGroups n < n + 32 ∧
    (NumThreadGroups n : ℤ) = ⌈(n : ℚ) / 32⌉ ∧ NumThreadGroups 0 = 0 := by
  have hdef : NumThreadGroups n = (n + 31) / 32 := by
    unfold NumThreadGroups THREAD_GROUP_SIZE_X
    rw [Nat.mod_eq_of_lt h]
  have h1 : n ≤ 32 * NumThreadGroups n := by rw [hdef]; omega
  have h2 : 32 * NumThreadGroups n < n + 32 := by rw [hdef]; omega
  refine ⟨h1, h2, ?_, by decide⟩
  symm
  rw [Int.ceil_eq_iff]
  constructor
  · rw [lt_div_iff₀ (by norm_num : (0 : ℚ) < 32)]
    have : (32 * NumThreadGroups n : ℚ) < (n : ℚ) + 32 := by exact_mod_cast h2
    push_cast
    linarith
  · rw [div_le_iff₀ (by norm_num : (0 : ℚ) < 32)]
    have : (n : ℚ) ≤ (32 * NumThreadGroups n : ℚ) := by exact_mod_cast h1
    push_cast
    linarith

/-- Witness of C30: 33 splats need two groups of 32 threads. -/
theorem NumThreadGroups_covers_witness :
    33 ≤ 32 * NumThreadGroups 33 ∧ 32 * NumThreadGroups 33 < 33 + 32 ∧
    (NumThreadGroups 33 : ℤ) = ⌈((33 : Nat) : ℚ) / 32⌉ ∧ NumThreadGroups 0 = 0 :=
  NumThreadGroups_covers 33 (by norm_num)

/-! ## The scratch buffer after `DoWork`: claims C26 and C27 -/

theorem WriteKeys_result (Transform : FMatrix44f) (OriginCM Forward : FVector3f)
    (Ps : List FVector3f) (Data Written : List FIndexedDistance)
    (hlen : Data.length = Ps.length)
    (h : WriteKeys Transform OriginCM Forward Ps 0 Data = some Written) :
    Written = KeysFrom Transform OriginCM Forward Ps 0 := by
  by_cases hF : Forward.IsNormalized = true
  · rw [WriteKeys_full Transform OriginCM Forward hF Ps Data hlen] at h
    exact (Option.some.inj h).symm
  · cases Ps with
    | nil =>
      rw [WriteKeys_nil] at h
      have hD : Data = [] := List.length_eq_zero.mp hlen
      rw [hD] at h
      exact (Option.some.inj h).symm
    | cons P Rest =>
      exfalso
      have hpos : 0 < Data.length := by rw [hlen]; simp
      have hnone : WriteKeys Transform OriginCM Forward (P :: Rest) 0 Data = none := by
        show (if 0 < Data.length then
            match FIndexedDistance.create 0 OriginCM Forward (PositionWorldCM Transform P) with
            | some Key => WriteKeys Transform OriginCM Forward Rest (0 + 1) (Data.set 0 Key)
            | none => none
          else none) = none
        rw [if_pos hpos]
        have hc : FIndexedDistance.create 0 OriginCM Forward (PositionWorldCM Transform P) =
            none := by
          unfold FIndexedDistance.create
          rw [if_neg hF]
        rw [hc]
      rw [hnone] at h
      cases h

theorem DoWork_Sort_result (Transform : FMatrix44f) (OriginCM Forward : FVector3f)
    (Ps : List FVector3f) (Data Visible Hidden : List FIndexedDistance)
    (hlen : Data.length = Ps.length)
    (h : DoWork_Sort Transform OriginCM Forward Ps Data = some (Visible, Hidden)) :
    Visible = StdSort (StdPartition FIndexedDistance.IsMaybeVisible
        (KeysFrom Transform OriginCM Forward Ps 0)).1 ∧
      Hidden = (StdPartition FIndexedDistance.IsMaybeVisible
        (KeysFrom Transform OriginCM Forward Ps 0)).2 := by
  unfold DoWork_Sort DoWork_Partition at h
  cases hW : WriteKeys Transform OriginCM Forward Ps 0 Data with
  | none => rw [hW] at h; cases h
  | some Written =>
    rw [hW] at h
    have hWr := WriteKeys_result Transform OriginCM Forward Ps Data Written hlen hW
    subst hWr
    simp only [Option.some.injEq, Prod.mk.injEq] at h
    exact ⟨h.1.symm, h.2.symm⟩

theorem KeysFrom_map_Index (Transform : FMatrix44f) (OriginCM Forward : FVector3f) :
    ∀ (Ps : List FVector3f) (Index : Nat),
      (KeysFrom Transform OriginCM Forward Ps Index).map (fun K => K.Index) =
        List.range' Index Ps.length
  | [], _ => rfl
  | _ :: Rest, Index => by
    simp only [KeysFrom, List.map_cons, List.length_cons, List.range'_succ, KeyAt]
    rw [KeysFrom_map_Index Transform OriginCM Forward Rest (Index + 1)]

theorem DoWork_Sort_perm (Transform : FMatrix44f) (OriginCM Forward : FVector3f)
    (Ps : List FVector3f) :
    (StdSort (StdPartition FIndexedDistance.IsMaybeVisible
        (KeysFrom Transform OriginCM Forward Ps 0)).1 ++
      (StdPartition FIndexedDistance.IsMaybeVisible
        (KeysFrom Transform OriginCM Forward Ps 0)).2).Perm
      (KeysFrom Transform OriginCM Forward Ps 0) :=
  ((StdSort_perm _).append_right _).trans (StdPartition_perm _ _)

/-- C26: when the scratch array has as many entries as the position array, the buffer
left by the compute, partition and sort steps of `DoWork` (the sorted visible range
followed by the rest) has that many entries, and the list of their indices is a
permutation of `0, ..., count - 1`: every index below the count occurs in exactly one
entry and no other index occurs.  With a normalized forward vector the steps do return
a buffer. -/
theorem DoWork_indices_are_permutation (Transform : FMatrix44f)
    (OriginCM Forward : FVector3f) (PositionsM : List FVector3f)
    (DataCPU : List FIndexedDistance) (hlen : DataCPU.length = PositionsM.length) :
    (Forward.IsNormalized = true →
      ∃ Visible Hidden,
        DoWork_Sort Transform OriginCM Forward PositionsM DataCPU = some (Visible, Hidden)) ∧
    ∀ Visible Hidden,
      DoWork_Sort Transform OriginCM Forward PositionsM DataCPU = some (Visible, Hidden) →
      (Visible ++ Hidden).length = PositionsM.length ∧
      ((Visible ++ Hidden).map (fun K => K.Index)).Perm (List.range PositionsM.length) ∧
      (∀ i, i < PositionsM.length →
        ((Visible ++ Hidden).map (fun K => K.Index)).count i = 1) ∧
      (∀ K ∈ Visible ++ Hidden, K.Index < PositionsM.length) := by
  constructor
  · intro hF
    exact ⟨_, _, DoWork_Sort_eq Transform OriginCM Forward hF PositionsM DataCPU hlen⟩
  · intro Visible Hidden h
    obtain ⟨hV, hH⟩ :=
      DoWork_Sort_result Transform OriginCM Forward PositionsM DataCPU Visible Hidden hlen h
    subst hV
    subst hH
    have hperm := DoWork_Sort_perm Transform OriginCM Forward PositionsM
    have hidx : ((StdSort (StdPartition FIndexedDistance.IsMaybeVisible
          (KeysFrom Transform OriginCM Forward PositionsM 0)).1 ++
        (StdPartition FIndexedDistance.IsMaybeVisible
          (KeysFrom Transform OriginCM Forward PositionsM 0)).2).map (fun K => K.Index)).Perm
        (List.range PositionsM.length) := by
      have := hperm.map (fun K => K.Index)
      rw [KeysFrom_map_Index, ← List.range_eq_range'] at this
      exact this
    refine ⟨?_, hidx, ?_, ?_⟩
    · rw [hperm.length_eq, KeysFrom_length]
    · intro i hi
      rw [hidx.count_eq]
      exact List.count_eq_one_of_mem (List.nodup_range _) (List.mem_range.mpr hi)
    · intro K hK
      have : K.Index ∈ List.range PositionsM.length :=
        hidx.mem_iff.mp (List.mem_map_of_mem (fun K => K.Index) hK)
      exact List.mem_range.mp this

/-- Witness of C26: the three splats of the end-to-end scenario. -/
theorem DoWork_indices_are_permutation_witness :
    ∃ Visible Hidden,
      DoWork_Sort 1 ScenarioOriginCM ScenarioForward ScenarioPositionsM ScenarioDataCPU =
        some (Visible, Hidden) ∧
      ((Visible ++ Hidden).map (fun K => K.Index)).Perm
        (List.range ScenarioPositionsM.length) :=
  match (DoWork_indices_are_permutation 1 ScenarioOriginCM ScenarioForward
      ScenarioPositionsM ScenarioDataCPU rfl).1 scenario_forward_normalized with
  | ⟨Visible, Hidden, h⟩ =>
    ⟨Visible, Hidden, h,
      ((DoWork_indices_are_permutation 1 ScenarioOriginCM ScenarioForward ScenarioPositionsM
        ScenarioDataCPU rfl).2 Visible Hidden h).2.1⟩

theorem KeysFrom_Distance_le (Transform : FMatrix44f) (OriginCM Forward : FVector3f)
    (Ps : List FVector3f) (Index : Nat) (K : FIndexedDistance)
    (hK : K ∈ KeysFrom Transform OriginCM Forward Ps Index) :
    K.Distance ≤ FIndexedDistance.NOT_VISIBLE := by
  obtain ⟨k, hk, hKeq⟩ := mem_KeysFrom Transform OriginCM Forward Ps Index K hK
  rw [hKeq]
  show FIndexedDistance.DistanceOf _ ≤ FIndexedDistance.NOT_VISIBLE
  by_cases hz : 10 ≤ FIndexedDistance.ViewZ OriginCM Forward (PositionWorldCM Transform Ps[k])
  · have := FIndexedDistance.DistanceOf_visible_le hz
    unfold FIndexedDistance.NOT_VISIBLE
    omega
  · rw [FIndexedDistance.DistanceOf_hidden (not_le.mp hz)]

/-- Partitioning by `IsMaybeVisible` and sorting the first range gives the same
sequence of distances as sorting the whole range, for keys whose distance is a 16-bit
value. -/
theorem partition_sort_Distance_eq (Data : List FIndexedDistance)
    (hle : ∀ K ∈ Data, K.Distance ≤ FIndexedDistance.NOT_VISIBLE) :
    (StdSort (StdPartition FIndexedDistance.IsMaybeVisible Data).1 ++
        (StdPartition FIndexedDistance.IsMaybeVisible Data).2).map (fun K => K.Distance) =
      (StdSort Data).map (fun K => K.Distance) := by
  have hperm : (StdSort (StdPartition FIndexedDistance.IsMaybeVisible Data).1 ++
      (StdPartition FIndexedDistance.IsMaybeVisible Data).2).Perm (StdSort Data) :=
    (((StdSort_perm _).append_right _).trans (StdPartition_perm _ _)).trans
      (StdSort_perm Data).symm
  have hsnd := StdPartition_snd FIndexedDistance.IsMaybeVisible Data
  have hsortedL : (StdSort (StdPartition FIndexedDistance.IsMaybeVisible Data).1 ++
      (StdPartition FIndexedDistance.IsMaybeVisible Data).2).Pairwise
      (fun a b => a.Distance ≤ b.Distance) := by
    rw [List.pairwise_append]
    refine ⟨StdSort_sorted _, ?_, ?_⟩
    · apply List.pairwise_of_forall_mem_list
      intro a ha b hb
      rw [(IsMaybeVisible_false_iff a).mp (hsnd a ha),
        (IsMaybeVisible_false_iff b).mp (hsnd b hb)]
    · intro a ha b hb
      rw [(IsMaybeVisible_false_iff b).mp (hsnd b hb)]
      apply hle
      have h1 : a ∈ (StdPartition FIndexedDistance.IsMaybeVisible Data).1 :=
        (StdSort_perm _).mem_iff.mp ha
      exact (StdPartition_perm _ Data).mem_iff.mp (List.mem_append_left _ h1)
  have h1 : ((StdSort (StdPartition FIndexedDistance.IsMaybeVisible Data).1 ++
      (StdPartition FIndexedDistance.IsMaybeVisible Data).2).map
      (fun K => K.Distance)).Sorted (fun a b : Nat => a ≤ b) :=
    (List.pairwise_map).mpr hsortedL
  have h2 : ((StdSort Data).map (fun K => K.Distance)).Sorted (fun a b : Nat => a ≤ b) :=
    (List.pairwise_map).mpr (StdSort_sorted Data)
  exact List.eq_of_perm_of_sorted (hperm.map _) h1 h2

/-- C27: when the scratch array has as many entries as the position array, the
sequence of `Distance` values of the whole buffer after the partition and the sort of
the visible range equals the sequence after sorting the whole buffer, and it is
ascending; every key in the sorted range is below the sentinel, every key after it is
the sentinel.  With a normalized forward vector both computations return a buffer. -/
theorem partition_then_sort_equals_full_sort (Transform : FMatrix44f)
    (OriginCM Forward : FVector3f) (PositionsM : List FVector3f)
    (DataCPU : List FIndexedDistance) (hlen : DataCPU.length = PositionsM.length) :
    (Forward.IsNormalized = true →
      ∃ Visible Hidden All,
        DoWork_Sort Transform OriginCM Forward PositionsM DataCPU = some (Visible, Hidden) ∧
        DoWork_SortAll Transform OriginCM Forward PositionsM DataCPU = some All) ∧
    ∀ Visible Hidden All,
      DoWork_Sort Transform OriginCM Forward PositionsM DataCPU = some (Visible, Hidden) →
      DoWork_SortAll Transform OriginCM Forward PositionsM DataCPU = some All →
      (Visible ++ Hidden).map (fun K => K.Distance) = All.map (fun K => K.Distance) ∧
      ((Visible ++ Hidden).map (fun K => K.Distance)).Pairwise (fun a b => a ≤ b) ∧
      (∀ K ∈ Visible, K.Distance ≤ 0xFFFE) ∧
      (∀ K ∈ Hidden, K.Distance = 0xFFFF) := by
  constructor
  · intro hF
    refine ⟨_, _, StdSort (KeysFrom Transform OriginCM Forward PositionsM 0),
      DoWork_Sort_eq Transform OriginCM Forward hF PositionsM DataCPU hlen, ?_⟩
    unfold DoWork_SortAll
    rw [WriteKeys_full Transform OriginCM Forward hF PositionsM DataCPU hlen]
  · intro Visible Hidden All h hAll
    obtain ⟨hV, hH⟩ :=
      DoWork_Sort_result Transform OriginCM Forward PositionsM DataCPU Visible Hidden hlen h
    subst hV
    subst hH
    have hA : All = StdSort (KeysFrom Transform OriginCM Forward PositionsM 0) := by
      unfold DoWork_SortAll at hAll
      cases hW : WriteKeys Transform OriginCM Forward PositionsM 0 DataCPU with
      | none => rw [hW] at hAll; cases hAll
      | some Written =>
        rw [hW] at hAll
        have hWr := WriteKeys_result Transform OriginCM Forward PositionsM DataCPU Written
          hlen hW
        subst hWr
        exact (Option.some.inj hAll).symm
    subst hA
    have hle := KeysFrom_Distance_le Transform OriginCM Forward PositionsM 0
    have heq := partition_sort_Distance_eq _ hle
    refine ⟨heq, ?_, ?_, ?_⟩
    · rw [heq]
      exact (List.pairwise_map).mpr (StdSort_sorted _)
    · intro K hK
      have h1 : K ∈ (StdPartition FIndexedDistance.IsMaybeVisible
          (KeysFrom Transform OriginCM Forward PositionsM 0)).1 :=
        (StdSort_perm _).mem_iff.mp hK
      have h2 := (IsMaybeVisible_true_iff K).mp (StdPartition_fst _ _ K h1)
      have h3 := hle K ((StdPartition_perm _ _).mem_iff.mp (List.mem_append_left _ h1))
      unfold FIndexedDistance.NOT_VISIBLE at h2 h3
      omega
    · intro K hK
      exact (IsMaybeVisible_false_iff K).mp (StdPartition_snd _ _ K hK)

/-- Witness of C27: the three splats of the end-to-end scenario. -/
theorem partition_then_sort_equals_full_sort_witness :
    ∃ Visible Hidden All,
      DoWork_Sort 1 ScenarioOriginCM ScenarioForward ScenarioPositionsM ScenarioDataCPU =
        some (Visible, Hidden) ∧
      DoWork_SortAll 1 ScenarioOriginCM ScenarioForward ScenarioPositionsM ScenarioDataCPU =
        some All ∧
      (Visible ++ Hidden).map (fun K => K.Distance) = All.map (fun K => K.Distance) :=
  match (partition_then_sort_equals_full_sort 1 ScenarioOriginCM ScenarioForward
      ScenarioPositionsM ScenarioDataCPU rfl).1 scenario_forward_normalized with
  | ⟨Visible, Hidden, All, h, hAll⟩ =>
    ⟨Visible, Hidden, All, h, hAll,
      ((partition_then_sort_equals_full_sort 1 ScenarioOriginCM ScenarioForward
        ScenarioPositionsM ScenarioDataCPU rfl).2 Visible Hidden All h hAll).1⟩

/-! ## The first draw of a CPU-sorted instance: claim C25 -/

/-- In every state the protocol reaches, `IsGPUBufferReady` is true exactly when
`WaitCopy` has been called at least twice. -/
theorem IsGPUBufferReady_iff_second_WaitCopy (Data : List FIndexedDistance)
    (L : List EEvent) (S : FSortingSystem)
    (h : FSortingSystem.Run L (FSortingSystem.Initial Data) = some S) :
    S.Buffers.IsGPUBufferReady = true ↔ 2 ≤ L.count EEvent.TaskWaitCopy := by
  have hP := FSortingSystem.Run_pointers L (FSortingSystem.Initial Data) S 0 h rfl
  rw [Nat.zero_add] at hP
  have hDS : S.Buffers.DrawSrc = (RolePointersAfter (L.count EEvent.TaskWaitCopy)).2 :=
    congrArg Prod.snd hP
  unfold FMultithreadedSortingBuffers.IsGPUBufferReady
  rw [hDS]
  match hn : L.count EEvent.TaskWaitCopy with
  | 0 => simp [RolePointersAfter]
  | 1 => simp [RolePointersAfter]
  | k + 2 =>
    by_cases hk : k % 2 = 0 <;> simp [RolePointersAfter, hk]

/-- C25: after the first sort cycle of a CPU-sorted instance has completed (`WaitCopy`,
`BeginCopy`, `EndSorting`, and the copy into buffer A followed by `EndCopy` on the
render thread) no copy is in progress, the state is `Ready`, and `IsGPUBufferReady` is
still false, so `NeedsSort` is true and the instance is not drawn; it becomes true with
the `WaitCopy` of the second sort task. -/
theorem IsGPUBufferReady_false_after_first_copy :
    (∃ S, FSortingSystem.Run (ExampleCycle [⟨1, 7⟩]) (FSortingSystem.Initial [⟨0, 0⟩]) =
        some S ∧
      S.CopiedInto = [EBuffer.IdxDistA] ∧ S.Queue = [] ∧ S.Task = ETaskPhase.NoTask ∧
      S.Buffers.bCopyInProgress = false ∧ S.Buffers.CurrentState = ESortingState.Ready ∧
      S.Buffers.IsGPUBufferReady = false ∧
      NeedsSort false (some S.Buffers) = some true) ∧
    (∃ S, FSortingSystem.Run
        (ExampleCycle [⟨1, 7⟩] ++ [EEvent.TryEnqueueSort, EEvent.TaskWaitCopy])
        (FSortingSystem.Initial [⟨0, 0⟩]) = some S ∧
      S.Buffers.IsGPUBufferReady = true ∧
      NeedsSort false (some S.Buffers) = some false) :=
  ⟨⟨_, rfl, rfl, rfl, rfl, rfl, rfl, rfl, rfl⟩, ⟨_, rfl, rfl, rfl⟩⟩

/-! ## Lemmas on binary32 rounding -/

theorem RoundHalfEven_cases (x : ℚ) :
    RoundHalfEven x = ⌊x⌋ ∨ RoundHalfEven x = ⌊x⌋ + 1 := by
  unfold RoundHalfEven
  split
  · exact Or.inl rfl
  · split
    · exact Or.inr rfl
    · split
      · exact Or.inl rfl
      · exact Or.inr rfl

theorem RoundHalfEven_abs_sub_le (x : ℚ) : |(RoundHalfEven x : ℚ) - x| ≤ 1 / 2 := by
  have h0 := Int.floor_le x
  have h1 := Int.lt_floor_add_one x
  unfold RoundHalfEven
  rw [abs_le]
  split
  · rename_i h
    constructor <;> linarith
  · rename_i h
    split
    · rename_i h2
      push_cast
      constructor <;> linarith
    · rename_i h2
      have h3 : x - ⌊x⌋ = 1 / 2 := le_antisymm (not_lt.mp h2) (not_lt.mp h)
      split
      · constructor <;> linarith
      · push_cast
        constructor <;> linarith

theorem RoundHalfEven_eq_of_close (x : ℚ) (n : ℤ) (h : |x - n| < 1 / 2) :
    RoundHalfEven x = n := by
  rw [abs_lt] at h
  obtain ⟨h1, h2⟩ := h
  by_cases hx : (n : ℚ) ≤ x
  · have hf : ⌊x⌋ = n := by
      rw [Int.floor_eq_iff]
      constructor
      · exact hx
      · linarith
    unfold RoundHalfEven
    rw [hf, if_pos (by linarith)]
  · have hx2 : x < n := not_le.mp hx
    have hf : ⌊x⌋ = n - 1 := by
      rw [Int.floor_eq_iff]
      push_cast
      constructor <;> linarith
    unfold RoundHalfEven
    rw [hf]
    push_cast
    rw [if_neg (by linarith), if_pos (by linarith)]
    ring

theorem RoundHalfEven_intCast (n : ℤ) : RoundHalfEven (n : ℚ) = n :=
  RoundHalfEven_eq_of_close _ n (by simp)

theorem RoundHalfEven_mono {x y : ℚ} (h : x ≤ y) : RoundHalfEven x ≤ RoundHalfEven y := by
  have hfl : ⌊x⌋ ≤ ⌊y⌋ := Int.floor_mono h
  rcases lt_or_eq_of_le hfl with hlt | heq
  · have hx : RoundHalfEven x ≤ ⌊x⌋ + 1 := by
      rcases RoundHalfEven_cases x with h1 | h1 <;> omega
    have hy : ⌊y⌋ ≤ RoundHalfEven y := by
      rcases RoundHalfEven_cases y with h1 | h1 <;> omega
    omega
  · -- same floor: compare the fractional parts
    have hfr : x - ⌊x⌋ ≤ y - ⌊y⌋ := by
      rw [heq]
      linarith
    unfold RoundHalfEven
    rw [← heq] at hfr ⊢
    by_cases hy1 : y - (⌊x⌋ : ℚ) < 1 / 2
    · rw [if_pos hy1, if_pos (lt_of_le_of_lt (by linarith) hy1)]
    · rw [if_neg hy1]
      by_cases hy2 : 1 / 2 < y - (⌊x⌋ : ℚ)
      · rw [if_pos hy2]
        split
        · omega
        · split
          · omega
          · split <;> omega
      · rw [if_neg hy2]
        have hyeq : y - (⌊x⌋ : ℚ) = 1 / 2 := le_antisymm (not_lt.mp hy2) (not_lt.mp hy1)
        by_cases hx1 : x - (⌊x⌋ : ℚ) < 1 / 2
        · rw [if_pos hx1]
          split <;> omega
        · rw [if_neg hx1, if_neg (by linarith)]

theorem Binary32UlpExponent_of_normal (x : ℚ) (k : ℤ) (hk : -149 ≤ k)
    (h1 : (2 : ℚ) ^ (k + 23) ≤ |x|) (h2 : |x| < (2 : ℚ) ^ (k + 24)) :
    Binary32UlpExponent x = k := by
  have hpos : 0 < |x| := lt_of_lt_of_le (zpow_pos (by norm_num) _) h1
  have hlog : Int.log 2 |x| = k + 23 := by
    apply le_antisymm
    · have : Int.log 2 |x| < k + 24 :=
        (Int.lt_zpow_iff_log_lt (by norm_num) hpos).mp (by exact_mod_cast h2)
      omega
    · exact (Int.zpow_le_iff_le_log (by norm_num) hpos).mp (by exact_mod_cast h1)
  unfold Binary32UlpExponent
  rw [hlog]
  omega

theorem Binary32UlpExponent_of_subnormal (x : ℚ) (h0 : x ≠ 0)
    (h : |x| < (2 : ℚ) ^ (-126 : ℤ)) : Binary32UlpExponent x = -149 := by
  have hpos : 0 < |x| := abs_pos.mpr h0
  have hlog : Int.log 2 |x| < -126 :=
    (Int.lt_zpow_iff_log_lt (by norm_num) hpos).mp (by exact_mod_cast h)
  unfold Binary32UlpExponent
  omega

theorem Binary32UlpExponent_ge (x : ℚ) : -149 ≤ Binary32UlpExponent x := by
  unfold Binary32UlpExponent
  have := le_max_right (Int.log 2 |x|) (-126)
  omega

theorem RoundBinary32_eq (x : ℚ) (k m : ℤ) (he : Binary32UlpExponent x = k)
    (hclose : |x / 2 ^ k - m| < 1 / 2) : RoundBinary32 x = (m : ℚ) * 2 ^ k := by
  unfold RoundBinary32
  rw [he, RoundHalfEven_eq_of_close _ m hclose]

theorem RoundBinary32_zero : RoundBinary32 0 = 0 := by
  unfold RoundBinary32
  rw [zero_div]
  have : RoundHalfEven 0 = 0 := by exact_mod_cast RoundHalfEven_intCast 0
  rw [this]
  simp

theorem RoundBinary32_abs_sub_le (x : ℚ) :
    |RoundBinary32 x - x| ≤ (2 : ℚ) ^ Binary32UlpExponent x / 2 := by
  unfold RoundBinary32
  have hp : (0 : ℚ) < 2 ^ Binary32UlpExponent x := zpow_pos (by norm_num) _
  have h := RoundHalfEven_abs_sub_le (x / 2 ^ Binary32UlpExponent x)
  have heq : (RoundHalfEven (x / 2 ^ Binary32UlpExponent x) : ℚ) * 2 ^ Binary32UlpExponent x - x =
      ((RoundHalfEven (x / 2 ^ Binary32UlpExponent x) : ℚ) - x / 2 ^ Binary32UlpExponent x) *
        2 ^ Binary32UlpExponent x := by
    field_simp
  rw [heq, abs_mul, abs_of_pos hp]
  calc |(RoundHalfEven (x / 2 ^ Binary32UlpExponent x) : ℚ) - x / 2 ^ Binary32UlpExponent x| *
        2 ^ Binary32UlpExponent x ≤ 1 / 2 * 2 ^ Binary32UlpExponent x :=
        mul_le_mul_of_nonneg_right h (le_of_lt hp)
    _ = 2 ^ Binary32UlpExponent x / 2 := by ring

/-- The spacing around a number in the normal range is at most `2 ^ (-23)` times its
magnitude. -/
theorem Binary32_ulp_le_of_normal (x : ℚ) (h : (2 : ℚ) ^ (-126 : ℤ) ≤ |x|) :
    (2 : ℚ) ^ Binary32UlpExponent x ≤ |x| * 2 ^ (-23 : ℤ) := by
  have hpos : 0 < |x| := lt_of_lt_of_le (zpow_pos (by norm_num) _) h
  have hlog : (-126 : ℤ) ≤ Int.log 2 |x| :=
    (Int.zpow_le_iff_le_log (by norm_num) hpos).mp (by exact_mod_cast h)
  have hle : ((2 : ℕ) : ℚ) ^ Int.log 2 |x| ≤ |x| := Int.zpow_log_le_self (by norm_num) hpos
  unfold Binary32UlpExponent
  rw [max_eq_left hlog, sub_eq_add_neg, zpow_add₀ (by norm_num)]
  exact mul_le_mul_of_nonneg_right (by exact_mod_cast hle) (le_of_lt (zpow_pos (by norm_num) _))

/-- The rounding error in the normal range: at most `2 ^ (-24)` times the magnitude. -/
theorem RoundBinary32_error_of_normal (x : ℚ) (h : (2 : ℚ) ^ (-126 : ℤ) ≤ |x|) :
    |RoundBinary32 x - x| ≤ |x| * 2 ^ (-24 : ℤ) := by
  have h1 := RoundBinary32_abs_sub_le x
  have h2 := Binary32_ulp_le_of_normal x h
  have h3 : (2 : ℚ) ^ (-24 : ℤ) = 2 ^ (-23 : ℤ) / 2 := by norm_num
  rw [h3]
  calc |RoundBinary32 x - x| ≤ (2 : ℚ) ^ Binary32UlpExponent x / 2 := h1
    _ ≤ |x| * 2 ^ (-23 : ℤ) / 2 := div_le_div_of_nonneg_right h2 (by norm_num)
    _ = |x| * (2 ^ (-23 : ℤ) / 2) := by ring

/-- The rounding error in every range: at most `2 ^ (-24)` times the magnitude plus
half the spacing of the subnormal numbers. -/
theorem RoundBinary32_error (x : ℚ) :
    |RoundBinary32 x - x| ≤ |x| * 2 ^ (-24 : ℤ) + 2 ^ (-150 : ℤ) := by
  by_cases h : (2 : ℚ) ^ (-126 : ℤ) ≤ |x|
  · have := RoundBinary32_error_of_normal x h
    have hp : (0 : ℚ) < 2 ^ (-150 : ℤ) := zpow_pos (by norm_num) _
    exact le_trans this (le_add_of_nonneg_right (le_of_lt hp))
  · have hlt : |x| < (2 : ℚ) ^ (-126 : ℤ) := not_le.mp h
    by_cases h0 : x = 0
    · rw [h0, RoundBinary32_zero]
      simp
      positivity
    · have he := Binary32UlpExponent_of_subnormal x h0 hlt
      have h1 := RoundBinary32_abs_sub_le x
      rw [he] at h1
      have h3 : (2 : ℚ) ^ (-150 : ℤ) = 2 ^ (-149 : ℤ) / 2 := by norm_num
      have hnn : 0 ≤ |x| * (2 : ℚ) ^ (-24 : ℤ) := by positivity
      rw [h3]
      exact le_trans h1 (le_add_of_nonneg_left hnn)

theorem RoundBinary32_nonneg {x : ℚ} (h : 0 ≤ x) : 0 ≤ RoundBinary32 x := by
  unfold RoundBinary32
  have hp : (0 : ℚ) < 2 ^ Binary32UlpExponent x := zpow_pos (by norm_num) _
  have h0 : (0 : ℚ) ≤ x / 2 ^ Binary32UlpExponent x := div_nonneg h (le_of_lt hp)
  have h1 : RoundHalfEven 0 ≤ RoundHalfEven (x / 2 ^ Binary32UlpExponent x) :=
    RoundHalfEven_mono h0
  have h2 : RoundHalfEven 0 = 0 := by exact_mod_cast RoundHalfEven_intCast 0
  rw [h2] at h1
  exact mul_nonneg (by exact_mod_cast h1) (le_of_lt hp)

theorem RoundBinary32_mono {x y : ℚ} (hx : 0 ≤ x) (h : x ≤ y) :
    RoundBinary32 x ≤ RoundBinary32 y := by
  rcases eq_or_lt_of_le hx with h0 | hpos
  · rw [← h0, RoundBinary32_zero]
    exact RoundBinary32_nonneg (le_trans hx h)
  · have hypos : 0 < y := lt_of_lt_of_le hpos h
    have habsx : |x| = x := abs_of_pos hpos
    have habsy : |y| = y := abs_of_pos hypos
    have hlog : Int.log 2 |x| ≤ Int.log 2 |y| := by
      rw [habsx, habsy]
      exact Int.log_mono_right hpos h
    have he : Binary32UlpExponent x ≤ Binary32UlpExponent y := by
      unfold Binary32UlpExponent
      have := max_le_max hlog (le_refl (-126 : ℤ))
      omega
    rcases eq_or_lt_of_le he with heq | hlt
    · unfold RoundBinary32
      rw [← heq]
      have hp : (0 : ℚ) < 2 ^ Binary32UlpExponent x := zpow_pos (by norm_num) _
      have hdiv : x / 2 ^ Binary32UlpExponent x ≤ y / 2 ^ Binary32UlpExponent x :=
        div_le_div_of_nonneg_right h (le_of_lt hp)
      have := RoundHalfEven_mono hdiv
      exact mul_le_mul_of_nonneg_right (by exact_mod_cast this) (le_of_lt hp)
    · -- `y` lies in a higher binade than `x`
      have hylog : Binary32UlpExponent y = Int.log 2 |y| - 23 := by
        unfold Binary32UlpExponent at hlt ⊢
        have h1 := le_max_right (Int.log 2 |x|) (-126)
        rcases max_cases (Int.log 2 |y|) (-126) with ⟨h2, _⟩ | ⟨h2, _⟩
        · rw [h2]
        · rw [h2] at hlt
          omega
      have hxlog : Int.log 2 |x| ≤ Binary32UlpExponent x + 23 := by
        unfold Binary32UlpExponent
        have := le_max_left (Int.log 2 |x|) (-126)
        omega
      -- lower bound for the rounding of `y`
      have hpy : (0 : ℚ) < 2 ^ Binary32UlpExponent y := zpow_pos (by norm_num) _
      have hy1 : (2 : ℚ) ^ (Binary32UlpExponent y + 23) ≤ y := by
        have : ((2 : ℕ) : ℚ) ^ Int.log 2 |y| ≤ |y| :=
          Int.zpow_log_le_self (by norm_num) (by rw [habsy]; exact hypos)
        rw [habsy] at this
        rw [hylog]
        have e : Int.log 2 y - 23 + 23 = Int.log 2 y := by omega
        rw [habsy, e]
        exact_mod_cast this
      have hy2 : ((2 ^ 23 : ℤ) : ℚ) ≤ y / 2 ^ Binary32UlpExponent y := by
        rw [le_div_iff₀ hpy]
        have : (2 : ℚ) ^ (Binary32UlpExponent y + 23) =
            2 ^ (23 : ℤ) * 2 ^ Binary32UlpExponent y := by
          rw [← zpow_add₀ (by norm_num)]
          congr 1
          omega
        rw [this] at hy1
        push_cast
        have e23 : (2 : ℚ) ^ (23 : ℤ) = 2 ^ 23 := by norm_num
        rw [e23] at hy1
        exact hy1
      have hy3 : (2 ^ 23 : ℤ) ≤ RoundHalfEven (y / 2 ^ Binary32UlpExponent y) := by
        have := RoundHalfEven_mono hy2
        rwa [RoundHalfEven_intCast] at this
      have hyfl : (2 : ℚ) ^ (Binary32UlpExponent y + 23) ≤ RoundBinary32 y := by
        unfold RoundBinary32
        have : (2 : ℚ) ^ (Binary32UlpExponent y + 23) =
            ((2 ^ 23 : ℤ) : ℚ) * 2 ^ Binary32UlpExponent y := by
          rw [add_comm, zpow_add₀ (by norm_num)]
          norm_num
        rw [this]
        exact mul_le_mul_of_nonneg_right (by exact_mod_cast hy3) (le_of_lt hpy)
      -- upper bound for the rounding of `x`
      have hpx : (0 : ℚ) < 2 ^ Binary32UlpExponent x := zpow_pos (by norm_num) _
      have hx1 : x < (2 : ℚ) ^ (Binary32UlpExponent x + 24) := by
        have h1 : |x| < ((2 : ℕ) : ℚ) ^ (Int.log 2 |x| + 1) :=
          Int.lt_zpow_succ_log_self (by norm_num) |x|
        rw [habsx] at h1 hxlog
        have h2 : ((2 : ℕ) : ℚ) ^ (Int.log 2 x + 1) ≤ (2 : ℚ) ^ (Binary32UlpExponent x + 24) := by
          push_cast
          exact zpow_le_zpow_right₀ (by norm_num) (by omega)
        exact lt_of_lt_of_le h1 h2
      have hx2 : x / 2 ^ Binary32UlpExponent x ≤ ((2 ^ 24 : ℤ) : ℚ) := by
        rw [div_le_iff₀ hpx]
        have : (2 : ℚ) ^ (Binary32UlpExponent x + 24) =
            ((2 ^ 24 : ℤ) : ℚ) * 2 ^ Binary32UlpExponent x := by
          rw [add_comm, zpow_add₀ (by norm_num)]
          norm_num
        rw [this] at hx1
        exact le_of_lt hx1
      have hx3 : RoundHalfEven (x / 2 ^ Binary32UlpExponent x) ≤ (2 ^ 24 : ℤ) := by
        have := RoundHalfEven_mono hx2
        rwa [RoundHalfEven_intCast] at this
      have hxfl : RoundBinary32 x ≤ (2 : ℚ) ^ (Binary32UlpExponent x + 24) := by
        unfold RoundBinary32
        have : (2 : ℚ) ^ (Binary32UlpExponent x + 24) =
            ((2 ^ 24 : ℤ) : ℚ) * 2 ^ Binary32UlpExponent x := by
          rw [add_comm, zpow_add₀ (by norm_num)]
          norm_num
        rw [this]
        exact mul_le_mul_of_nonneg_right (by exact_mod_cast hx3) (le_of_lt hpx)
      have hmid : (2 : ℚ) ^ (Binary32UlpExponent x + 24) ≤
          2 ^ (Binary32UlpExponent y + 23) :=
        zpow_le_zpow_right₀ (by norm_num) (by omega)
      linarith

theorem RoundBinary32_of_normal (x : ℚ) (k m : ℤ) (hk : -149 ≤ k)
    (h1 : (2 : ℚ) ^ (k + 23) ≤ |x|) (h2 : |x| < (2 : ℚ) ^ (k + 24))
    (hclose : |x / 2 ^ k - m| < 1 / 2) : RoundBinary32 x = (m : ℚ) * 2 ^ k :=
  RoundBinary32_eq x k m (Binary32UlpExponent_of_normal x k hk h1 h2) hclose

/-- Evaluation of the rounding of a positive number in the normal range. -/
theorem RoundBinary32_eval (x : ℚ) (k m : ℤ) (hk : -149 ≤ k)
    (h1 : (2 : ℚ) ^ (k + 23) ≤ x) (h2 : x < (2 : ℚ) ^ (k + 24))
    (h3 : (m : ℚ) - 1 / 2 < x / 2 ^ k) (h4 : x / 2 ^ k < (m : ℚ) + 1 / 2) :
    RoundBinary32 x = (m : ℚ) * 2 ^ k := by
  have hpos : 0 < x := lt_of_lt_of_le (zpow_pos (by norm_num) _) h1
  apply RoundBinary32_of_normal x k m hk
  · rw [abs_of_pos hpos]; exact h1
  · rw [abs_of_pos hpos]; exact h2
  · rw [abs_lt]
    constructor <;> linarith

theorem RoundBinary32_one : RoundBinary32 1 = 1 := by
  rw [RoundBinary32_of_normal 1 (-23) (2 ^ 23) (by norm_num) (by norm_num) (by norm_num)
    (by norm_num)]
  norm_num

theorem RoundBinary32_1023 : RoundBinary32 1023 = 1023 := by
  rw [RoundBinary32_of_normal 1023 (-14) (1023 * 2 ^ 14) (by norm_num) (by norm_num)
    (by norm_num) (by norm_num)]
  norm_num

theorem RoundBinary32_2047 : RoundBinary32 2047 = 2047 := by
  rw [RoundBinary32_of_normal 2047 (-13) (2047 * 2 ^ 13) (by norm_num) (by norm_num)
    (by norm_num) (by norm_num)]
  norm_num

theorem RoundBinary32_65534 : RoundBinary32 65534 = 65534 := by
  rw [RoundBinary32_of_normal 65534 (-8) (65534 * 2 ^ 8) (by norm_num) (by norm_num)
    (by norm_num) (by norm_num)]
  norm_num

theorem RoundBinary32_100 : RoundBinary32 100 = 100 := by
  rw [RoundBinary32_of_normal 100 (-17) (100 * 2 ^ 17) (by norm_num) (by norm_num)
    (by norm_num) (by norm_num)]
  norm_num

theorem RoundBinary32_FLT_MAX : RoundBinary32 FLT_MAX = FLT_MAX := by
  unfold FLT_MAX
  rw [RoundBinary32_of_normal _ 104 (2 ^ 24 - 1) (by norm_num) (by norm_num) (by norm_num)
    (by norm_num)]
  norm_num

theorem RoundBinary32_min_subnormal :
    RoundBinary32 ((2 : ℚ) ^ (-149 : ℤ)) = (2 : ℚ) ^ (-149 : ℤ) := by
  rw [RoundBinary32_eq _ (-149) 1
    (Binary32UlpExponent_of_subnormal _ (by norm_num)
      (by rw [abs_of_pos (by norm_num)]; norm_num)) (by norm_num)]
  norm_num

/-- A result that does not overflow is the rounded exact result. -/
theorem FFloat.OfReal_of_lt (x : ℚ) (h : |RoundBinary32 x| < 2 ^ 128) :
    FFloat.OfReal x = FFloat.Finite (RoundBinary32 x) := by
  unfold FFloat.OfReal
  rw [if_neg (not_le.mpr h)]

/-- A non-negative exact result of at most `FLT_MAX` does not overflow. -/
theorem FFloat.OfReal_of_nonneg_le (x : ℚ) (h0 : 0 ≤ x) (h1 : x ≤ FLT_MAX) :
    FFloat.OfReal x = FFloat.Finite (RoundBinary32 x) := by
  apply FFloat.OfReal_of_lt
  have h2 : RoundBinary32 x ≤ FLT_MAX := by
    have := RoundBinary32_mono h0 h1
    rwa [RoundBinary32_FLT_MAX] at this
  rw [abs_of_nonneg (RoundBinary32_nonneg h0)]
  have : FLT_MAX < 2 ^ 128 := by unfold FLT_MAX; norm_num
  linarith

theorem toUInt32_stdRound_spec (t : ℚ) (M : Nat) (hM : M < 2 ^ 32) (h0 : 0 ≤ t)
    (h1 : t ≤ (M : ℚ)) :
    toUInt32 ((stdRound t : ℤ) : ℚ) ≤ M ∧ |((toUInt32 ((stdRound t : ℤ) : ℚ) : Nat) : ℚ) - t| ≤ 1 / 2 := by
  rw [stdRound_of_nonneg h0]
  have hfl0 : 0 ≤ ⌊t + 1 / 2⌋ := Int.floor_nonneg.mpr (by linarith)
  have hflM : ⌊t + 1 / 2⌋ ≤ (M : ℤ) := by
    have : ⌊t + 1 / 2⌋ ≤ ⌊(M : ℚ) + 1 / 2⌋ := Int.floor_mono (by linarith)
    have h2 : ⌊(M : ℚ) + 1 / 2⌋ = (M : ℤ) := by
      rw [Int.floor_eq_iff]
      push_cast
      constructor <;> linarith
    rwa [h2] at this
  have hlt : ⌊t + 1 / 2⌋ < 2 ^ 32 := by
    have : (M : ℤ) < 2 ^ 32 := by exact_mod_cast hM
    omega
  rw [toUInt32_intCast hfl0 hlt]
  constructor
  · omega
  · have hc : ((⌊t + 1 / 2⌋.toNat : Nat) : ℚ) = (⌊t + 1 / 2⌋ : ℚ) := by
      have := Int.toNat_of_nonneg hfl0
      exact_mod_cast this
    rw [hc, abs_le]
    have h3 := Int.floor_le (t + 1 / 2)
    have h4 := Int.lt_floor_add_one (t + 1 / 2)
    constructor <;> linarith

namespace FIndexedDistance

theorem DistanceOfBinary32_bounds {Z : ℚ} (h : 10 ≤ Z) :
    0 ≤ RoundBinary32 (10 / Z) ∧ RoundBinary32 (10 / Z) ≤ 1 ∧
    0 ≤ RoundBinary32 (RoundBinary32 (10 / Z) * 65534) ∧
    RoundBinary32 (RoundBinary32 (10 / Z) * 65534) ≤ 65534 := by
  have hz : 0 < Z := by linarith
  have hq0 : (0 : ℚ) ≤ 10 / Z := by positivity
  have hq1 : (10 : ℚ) / Z ≤ 1 := by rw [div_le_one hz]; exact h
  have hy0 := RoundBinary32_nonneg hq0
  have hy1 : RoundBinary32 (10 / Z) ≤ 1 := by
    have := RoundBinary32_mono hq0 hq1
    rwa [RoundBinary32_one] at this
  have hp0 : 0 ≤ RoundBinary32 (10 / Z) * 65534 := by positivity
  have hp1 : RoundBinary32 (10 / Z) * 65534 ≤ 65534 := by linarith
  refine ⟨hy0, hy1, RoundBinary32_nonneg hp0, ?_⟩
  have := RoundBinary32_mono hp0 hp1
  rwa [RoundBinary32_65534] at this

theorem DistanceOfBinary32_visible {Z : ℚ} (h : 10 ≤ Z) :
    DistanceOfBinary32 Z = ⌊RoundBinary32 (RoundBinary32 (10 / Z) * 65534)⌋.toNat := by
  obtain ⟨-, -, h0, h1⟩ := DistanceOfBinary32_bounds h
  unfold DistanceOfBinary32
  rw [if_pos (by unfold NEAR_CLIP_CM; exact h)]
  have hM : ((MAX_DISTANCE : Nat) : ℚ) = 65534 := by unfold MAX_DISTANCE; norm_num
  rw [hM, RoundBinary32_65534]
  unfold NEAR_CLIP_CM
  exact toUInt16_of_range h0 (by linarith)

end FIndexedDistance

/-! ## The stored depth in binary32: claim C5 -/

theorem FIndexedDistance.DistanceOfBinary32_50 :
    FIndexedDistance.DistanceOfBinary32 50 = 13106 ∧
      RoundBinary32 (RoundBinary32 (10 / 50) * 65534) = 13421363 / 1024 := by
  have h1 : RoundBinary32 (10 / 50) = 13421773 / 67108864 := by
    rw [RoundBinary32_eval (10 / 50) (-26) 13421773 (by norm_num) (by norm_num)
      (by norm_num) (by norm_num) (by norm_num)]
    norm_num
  have h2 : RoundBinary32 (13421773 / 67108864 * 65534) = 13421363 / 1024 := by
    rw [RoundBinary32_eval _ (-10) 13421363 (by norm_num) (by norm_num)
      (by norm_num) (by norm_num) (by norm_num)]
    norm_num
  rw [FIndexedDistance.DistanceOfBinary32_visible (by norm_num), h1, h2]
  refine ⟨?_, rfl⟩
  have : ⌊(13421363 / 1024 : ℚ)⌋ = 13106 := by
    rw [Int.floor_eq_iff]
    norm_num
  rw [this]
  rfl

/-- Counterexample to C5: at the depth `z = 50` the code stores `13106`: the binary32
quotient `10 / 50` times 65534 is the binary32 value `13106.7998046875`, and the cast
truncates it; the nearest integer to `10 / 50 * 65534 = 13106.8`, and also to the
binary32 product, clamped to `0xFFFE`, is `13107`. -/
theorem key_truncated_not_rounded_at_50 :
    (10 : ℚ) ≤ 50 ∧
      FIndexedDistance.DistanceOfBinary32 50 = 13106 ∧
      min (stdRound (FIndexedDistance.NEAR_CLIP_CM / 50 *
        (FIndexedDistance.MAX_DISTANCE : ℚ))) 0xFFFE = 13107 ∧
      min (stdRound (RoundBinary32 (RoundBinary32 (10 / 50) * 65534))) 0xFFFE = 13107 := by
  refine ⟨by norm_num, FIndexedDistance.DistanceOfBinary32_50.1, ?_, ?_⟩
  · have : stdRound (FIndexedDistance.NEAR_CLIP_CM / 50 *
        (FIndexedDistance.MAX_DISTANCE : ℚ)) = 13107 := by
      unfold stdRound
      rw [if_pos (by norm_num [FIndexedDistance.NEAR_CLIP_CM, FIndexedDistance.MAX_DISTANCE]),
        Int.floor_eq_iff]
      norm_num [FIndexedDistance.NEAR_CLIP_CM, FIndexedDistance.MAX_DISTANCE]
    rw [this]
    rfl
  · rw [FIndexedDistance.DistanceOfBinary32_50.2]
    have : stdRound (13421363 / 1024 : ℚ) = 13107 := by
      unfold stdRound
      rw [if_pos (by norm_num), Int.floor_eq_iff]
      norm_num
    rw [this]
    rfl

/-- C5, amended: for every depth `z ≥ 10` (the float the constructor computed) the
stored depth is the binary32 product of the binary32 quotient `10 / z` and 65534,
truncated toward zero; it is at most `0xFFFE`; and for a finite float `z` it is above
`10 / z * 65534 - 1.01` and at most `10 / z * 65534 + 0.01`. -/
theorem key_is_truncated_binary32_product (Z : ℚ) (hZ : 10 ≤ Z) :
    (FIndexedDistance.DistanceOfBinary32 Z : ℤ) =
        ⌊RoundBinary32 (RoundBinary32 (10 / Z) * 65534)⌋ ∧
      FIndexedDistance.DistanceOfBinary32 Z ≤ 0xFFFE ∧
      (Z ≤ FLT_MAX →
        10 / Z * 65534 - 101 / 100 < (FIndexedDistance.DistanceOfBinary32 Z : ℚ) ∧
        (FIndexedDistance.DistanceOfBinary32 Z : ℚ) ≤ 10 / Z * 65534 + 1 / 100) := by
  obtain ⟨hy0, hy1, hw0, hw1⟩ := FIndexedDistance.DistanceOfBinary32_bounds hZ
  have hfl0 : 0 ≤ ⌊RoundBinary32 (RoundBinary32 (10 / Z) * 65534)⌋ :=
    Int.floor_nonneg.mpr hw0
  have hkey : (FIndexedDistance.DistanceOfBinary32 Z : ℤ) =
      ⌊RoundBinary32 (RoundBinary32 (10 / Z) * 65534)⌋ := by
    rw [FIndexedDistance.DistanceOfBinary32_visible hZ]
    exact Int.toNat_of_nonneg hfl0
  have hflle : ⌊RoundBinary32 (RoundBinary32 (10 / Z) * 65534)⌋ ≤ 65534 := by
    have := Int.floor_mono hw1
    have h2 : ⌊(65534 : ℚ)⌋ = 65534 := by
      rw [Int.floor_eq_iff]
      norm_num
    rwa [h2] at this
  refine ⟨hkey, ?_, ?_⟩
  · have : (FIndexedDistance.DistanceOfBinary32 Z : ℤ) ≤ 65534 := by rw [hkey]; exact hflle
    omega
  · intro hfin
    have hz : 0 < Z := by linarith
    have hq0 : (0 : ℚ) < 10 / Z := by positivity
    have hq1 : (10 : ℚ) / Z ≤ 1 := by rw [div_le_one hz]; exact hZ
    -- the quotient is in the normal range
    have hqn : (2 : ℚ) ^ (-126 : ℤ) ≤ |10 / Z| := by
      rw [abs_of_pos hq0, le_div_iff₀ hz]
      have h1 : Z < 2 ^ 128 := lt_of_le_of_lt hfin (by unfold FLT_MAX; norm_num)
      have h2 : (2 : ℚ) ^ (-126 : ℤ) * 2 ^ 128 = 4 := by norm_num
      nlinarith [zpow_pos (by norm_num : (0 : ℚ) < 2) (-126 : ℤ)]
    have he1 := RoundBinary32_error_of_normal (10 / Z) hqn
    rw [abs_of_pos hq0] at he1
    rw [abs_le] at he1
    have hu : (2 : ℚ) ^ (-24 : ℤ) = 1 / 16777216 := by norm_num
    rw [hu] at he1
    -- the product is in the normal range
    have hylow : 10 / Z * (1 - 1 / 16777216) ≤ RoundBinary32 (10 / Z) := by linarith
    have hpn : (2 : ℚ) ^ (-126 : ℤ) ≤ |RoundBinary32 (10 / Z) * 65534| := by
      have hpos : 0 ≤ RoundBinary32 (10 / Z) * 65534 := by positivity
      rw [abs_of_nonneg hpos]
      have h3 : (2 : ℚ) ^ (-126 : ℤ) ≤ 10 / Z := by
        rw [abs_of_pos hq0] at hqn
        exact hqn
      nlinarith
    have he2 := RoundBinary32_error_of_normal _ hpn
    rw [abs_of_nonneg (by positivity : (0 : ℚ) ≤ RoundBinary32 (10 / Z) * 65534), hu,
      abs_le] at he2
    have hf1 := Int.floor_le (RoundBinary32 (RoundBinary32 (10 / Z) * 65534))
    have hf2 := Int.lt_floor_add_one (RoundBinary32 (RoundBinary32 (10 / Z) * 65534))
    have hcast : ((FIndexedDistance.DistanceOfBinary32 Z : Nat) : ℚ) =
        ((⌊RoundBinary32 (RoundBinary32 (10 / Z) * 65534)⌋ : ℤ) : ℚ) := by
      exact_mod_cast hkey
    rw [hcast]
    constructor
    · nlinarith
    · nlinarith

/-- Witness of C5: at the float nearest to 15.1 the stored depth is 43400,
one more than the floor 43399 of the exact `10 / z * 65534`. -/
theorem key_is_truncated_binary32_product_witness :
    (10 : ℚ) ≤ 7916749 / 524288 ∧
      FIndexedDistance.DistanceOfBinary32 (7916749 / 524288) = 43400 ∧
      ⌊(10 : ℚ) / (7916749 / 524288) * 65534⌋ = 43399 ∧
      FIndexedDistance.DistanceOfBinary32 (7916749 / 524288) ≤ 0xFFFE := by
  have h1 : RoundBinary32 (10 / (7916749 / 524288)) = 11110739 / 16777216 := by
    rw [RoundBinary32_eval _ (-24) 11110739 (by norm_num) (by norm_num)
      (by norm_num) (by norm_num) (by norm_num)]
    norm_num
  have h2 : RoundBinary32 (11110739 / 16777216 * 65534) = 43400 := by
    rw [RoundBinary32_eval _ (-8) 11110400 (by norm_num) (by norm_num)
      (by norm_num) (by norm_num) (by norm_num)]
    norm_num
  have hkey := (key_is_truncated_binary32_product (7916749 / 524288) (by norm_num)).1
  rw [h1, h2] at hkey
  have hfl : ⌊(43400 : ℚ)⌋ = 43400 := by
    rw [Int.floor_eq_iff]
    norm_num
  rw [hfl] at hkey
  refine ⟨by norm_num, by exact_mod_cast hkey, ?_,
    (key_is_truncated_binary32_product (7916749 / 524288) (by norm_num)).2.1⟩
  rw [Int.floor_eq_iff]
  norm_num

/-! ## Normalized coordinates in binary32: claim C28 -/

theorem IsBinary32.multiple (x : ℚ) (h : IsBinary32 x) :
    ∃ n : ℤ, x = (n : ℚ) * 2 ^ (-149 : ℤ) := by
  obtain ⟨m, k, -, hk, -, hx⟩ := h
  refine ⟨m * 2 ^ (k + 149).toNat, ?_⟩
  have hnn : 0 ≤ k + 149 := by omega
  have h1 : (2 : ℚ) ^ k = 2 ^ ((k + 149).toNat : ℤ) * 2 ^ (-149 : ℤ) := by
    rw [← zpow_add₀ (by norm_num), Int.toNat_of_nonneg hnn]
    congr 1
    omega
  rw [hx, h1, zpow_natCast]
  push_cast
  ring

theorem IsBinary32.magnitude_le (x : ℚ) (h : IsBinary32 x) : |x| ≤ FLT_MAX := by
  obtain ⟨m, k, hm, -, hk, hx⟩ := h
  have hm2 : |(m : ℚ)| ≤ 2 ^ 24 - 1 := by
    have : |m| ≤ 2 ^ 24 - 1 := by omega
    exact_mod_cast this
  have hk2 : (2 : ℚ) ^ k ≤ 2 ^ (104 : ℤ) := zpow_le_zpow_right₀ (by norm_num) hk
  have hp : (0 : ℚ) < 2 ^ k := zpow_pos (by norm_num) _
  rw [hx, abs_mul, abs_of_pos hp]
  unfold FLT_MAX
  have h104 : (2 : ℚ) ^ (104 : ℤ) = 2 ^ 104 := by norm_num
  rw [h104] at hk2
  exact mul_le_mul hm2 hk2 (le_of_lt hp) (by norm_num)

theorem IsBinary32.isFiniteFloat (x : ℚ) (h : IsBinary32 x) : IsFiniteFloat x := by
  have := IsBinary32.magnitude_le x h
  rw [abs_le] at this
  exact ⟨by unfold FLT_LOWEST; exact this.1, this.2⟩

/-- Two different binary32 values differ by at least the smallest positive one. -/
theorem IsBinary32.sub_ge (a b : ℚ) (ha : IsBinary32 a) (hb : IsBinary32 b) (h : b < a) :
    (2 : ℚ) ^ (-149 : ℤ) ≤ a - b := by
  obtain ⟨na, hna⟩ := IsBinary32.multiple a ha
  obtain ⟨nb, hnb⟩ := IsBinary32.multiple b hb
  have hp : (0 : ℚ) < 2 ^ (-149 : ℤ) := zpow_pos (by norm_num) _
  rw [hna, hnb] at h ⊢
  have hlt : (nb : ℚ) < na := lt_of_mul_lt_mul_right h (le_of_lt hp)
  have hle : nb + 1 ≤ na := by
    have : nb < na := by exact_mod_cast hlt
    omega
  have hq : (nb : ℚ) + 1 ≤ na := by exact_mod_cast hle
  have : (na : ℚ) * 2 ^ (-149 : ℤ) - nb * 2 ^ (-149 : ℤ) = (na - nb) * 2 ^ (-149 : ℤ) := by
    ring
  rw [this]
  calc (2 : ℚ) ^ (-149 : ℤ) = 1 * 2 ^ (-149 : ℤ) := by ring
    _ ≤ ((na : ℚ) - nb) * 2 ^ (-149 : ℤ) :=
      mul_le_mul_of_nonneg_right (by linarith) (le_of_lt hp)

/-- One axis of the normalized vector: when the extent `hi - lo` is positive and does
not overflow, the binary32 quotient is a finite number in `[0, 1]`, equal to 0 at the
minimum and to 1 at the maximum. -/
theorem normalized_axis_binary32_value (p lo hi : ℚ) (h0 : lo ≤ p) (h1 : p ≤ hi)
    (hpos : (2 : ℚ) ^ (-149 : ℤ) ≤ hi - lo) (hext : hi - lo ≤ FLT_MAX) :
    (FFloat.Finite hi).Sub (FFloat.Finite lo) = FFloat.Finite (RoundBinary32 (hi - lo)) ∧
    0 < RoundBinary32 (hi - lo) ∧
    ((FFloat.Finite p).Sub (FFloat.Finite lo)).Div
        ((FFloat.Finite hi).Sub (FFloat.Finite lo)) =
      FFloat.Finite
        (RoundBinary32 (RoundBinary32 (p - lo) / RoundBinary32 (hi - lo))) ∧
    0 ≤ RoundBinary32 (RoundBinary32 (p - lo) / RoundBinary32 (hi - lo)) ∧
    RoundBinary32 (RoundBinary32 (p - lo) / RoundBinary32 (hi - lo)) ≤ 1 ∧
    (p = lo → RoundBinary32 (RoundBinary32 (p - lo) / RoundBinary32 (hi - lo)) = 0) ∧
    (p = hi → RoundBinary32 (RoundBinary32 (p - lo) / RoundBinary32 (hi - lo)) = 1) := by
  have hp149 : (0 : ℚ) < 2 ^ (-149 : ℤ) := zpow_pos (by norm_num) _
  have hE0 : 0 ≤ hi - lo := by linarith
  have ha0 : 0 ≤ p - lo := by linarith
  have haE : p - lo ≤ hi - lo := by linarith
  -- the denominator
  have hd : (FFloat.Finite hi).Sub (FFloat.Finite lo) =
      FFloat.Finite (RoundBinary32 (hi - lo)) := FFloat.OfReal_of_nonneg_le _ hE0 hext
  have hdpos : 0 < RoundBinary32 (hi - lo) := by
    have := RoundBinary32_mono (le_of_lt hp149) hpos
    rw [RoundBinary32_min_subnormal] at this
    linarith
  -- the numerator
  have ha : (FFloat.Finite p).Sub (FFloat.Finite lo) =
      FFloat.Finite (RoundBinary32 (p - lo)) :=
    FFloat.OfReal_of_nonneg_le _ ha0 (le_trans haE hext)
  have hann := RoundBinary32_nonneg ha0
  have had : RoundBinary32 (p - lo) ≤ RoundBinary32 (hi - lo) := RoundBinary32_mono ha0 haE
  -- the quotient
  have hq0 : 0 ≤ RoundBinary32 (p - lo) / RoundBinary32 (hi - lo) :=
    div_nonneg hann (le_of_lt hdpos)
  have hq1 : RoundBinary32 (p - lo) / RoundBinary32 (hi - lo) ≤ 1 := by
    rw [div_le_one hdpos]
    exact had
  have hn1 : RoundBinary32 (RoundBinary32 (p - lo) / RoundBinary32 (hi - lo)) ≤ 1 := by
    have := RoundBinary32_mono hq0 hq1
    rwa [RoundBinary32_one] at this
  have hn0 := RoundBinary32_nonneg hq0
  have hdiv : (FFloat.Finite (RoundBinary32 (p - lo))).Div
      (FFloat.Finite (RoundBinary32 (hi - lo))) =
      FFloat.Finite (RoundBinary32 (RoundBinary32 (p - lo) / RoundBinary32 (hi - lo))) := by
    show (if RoundBinary32 (hi - lo) = 0 then _ else _) = _
    rw [if_neg (ne_of_gt hdpos)]
    exact FFloat.OfReal_of_nonneg_le _ hq0
      (le_trans hq1 (by unfold FLT_MAX; norm_num))
  refine ⟨hd, hdpos, by rw [ha, hd, hdiv], hn0, hn1, ?_, ?_⟩
  · intro he
    rw [he, sub_self, RoundBinary32_zero, zero_div, RoundBinary32_zero]
  · intro he
    rw [he, div_self (ne_of_gt hdpos), RoundBinary32_one]

/-- The normalized coordinate of one axis is a finite value in `[0, 1]`, 0 at the axis
minimum and 1 at the axis maximum. -/
theorem normalized_axis_binary32 (p lo hi : ℚ) (h0 : lo ≤ p) (h1 : p ≤ hi)
    (hpos : (2 : ℚ) ^ (-149 : ℤ) ≤ hi - lo) (hext : hi - lo ≤ FLT_MAX) :
    ∃ n : ℚ,
      ((FFloat.Finite p).Sub (FFloat.Finite lo)).Div
          ((FFloat.Finite hi).Sub (FFloat.Finite lo)) = FFloat.Finite n ∧
        0 ≤ n ∧ n ≤ 1 ∧ (p = lo → n = 0) ∧ (p = hi → n = 1) :=
  ⟨_, (normalized_axis_binary32_value p lo hi h0 h1 hpos hext).2.2.1,
    (normalized_axis_binary32_value p lo hi h0 h1 hpos hext).2.2.2⟩

/-- The binary32 `ToUNorm` on a finite argument in `[0, 1]`, for a number of bits whose
maximum value is a binary32 value: the result is defined and at most the maximum value,
it is 0 for the argument 0 and the maximum value for the argument 1. -/
theorem ToUNormBinary32_of_unit (Bits : Nat) (hB : Bits ≤ 32)
    (hfix : RoundBinary32 ((2 ^ Bits - 1 : Nat) : ℚ) = ((2 ^ Bits - 1 : Nat) : ℚ))
    (n : ℚ) (h0 : 0 ≤ n) (h1 : n ≤ 1) :
    ∃ q : Nat, ToUNormBinary32 Bits (FFloat.Finite n) = some q ∧ q ≤ 2 ^ Bits - 1 ∧
      |(q : ℚ) - RoundBinary32 (n * ((2 ^ Bits - 1 : Nat) : ℚ))| ≤ 1 / 2 ∧
      (n = 0 → q = 0) ∧ (n = 1 → q = 2 ^ Bits - 1) := by
  have hMlt : 2 ^ Bits - 1 < 2 ^ 32 := by
    have h1 : 2 ^ Bits ≤ 2 ^ 32 := Nat.pow_le_pow_right (by norm_num) hB
    have h2 : 0 < 2 ^ Bits := Nat.two_pow_pos Bits
    omega
  have hM0 : (0 : ℚ) ≤ ((2 ^ Bits - 1 : Nat) : ℚ) := Nat.cast_nonneg _
  have hMle : ((2 ^ Bits - 1 : Nat) : ℚ) ≤ FLT_MAX := by
    have : ((2 ^ Bits - 1 : Nat) : ℚ) < ((2 ^ 32 : Nat) : ℚ) := by exact_mod_cast hMlt
    unfold FLT_MAX
    have h2 : (((2 ^ 32 : Nat)) : ℚ) ≤ (2 ^ 24 - 1) * 2 ^ 104 := by norm_num
    linarith
  have hMfin : FFloat.OfReal (((2 ^ Bits - 1 : Nat)) : ℚ) =
      FFloat.Finite ((2 ^ Bits - 1 : Nat) : ℚ) := by
    rw [FFloat.OfReal_of_nonneg_le _ hM0 hMle, hfix]
  have hp0 : 0 ≤ n * ((2 ^ Bits - 1 : Nat) : ℚ) := mul_nonneg h0 hM0
  have hp1 : n * ((2 ^ Bits - 1 : Nat) : ℚ) ≤ ((2 ^ Bits - 1 : Nat) : ℚ) := by
    calc n * ((2 ^ Bits - 1 : Nat) : ℚ) ≤ 1 * ((2 ^ Bits - 1 : Nat) : ℚ) :=
          mul_le_mul_of_nonneg_right h1 hM0
      _ = _ := one_mul _
  have ht0 := RoundBinary32_nonneg hp0
  have ht1 : RoundBinary32 (n * ((2 ^ Bits - 1 : Nat) : ℚ)) ≤ ((2 ^ Bits - 1 : Nat) : ℚ) := by
    have := RoundBinary32_mono hp0 hp1
    rwa [hfix] at this
  have hmul : (FFloat.Finite n).Mul (FFloat.Finite ((2 ^ Bits - 1 : Nat) : ℚ)) =
      FFloat.Finite (RoundBinary32 (n * ((2 ^ Bits - 1 : Nat) : ℚ))) :=
    FFloat.OfReal_of_nonneg_le _ hp0 (le_trans hp1 hMle)
  obtain ⟨hq1, hq2⟩ := toUInt32_stdRound_spec _ (2 ^ Bits - 1) hMlt ht0 ht1
  by_cases hn : n = 0
  · refine ⟨0, ?_, Nat.zero_le _, ?_, fun _ => rfl, ?_⟩
    · unfold ToUNormBinary32
      simp only
      rw [if_pos hn]
    · rw [hn, zero_mul, RoundBinary32_zero]
      norm_num
    · intro h
      rw [hn] at h
      norm_num at h
  · refine ⟨toUInt32 ((stdRound (RoundBinary32 (n * ((2 ^ Bits - 1 : Nat) : ℚ))) : ℤ) : ℚ),
      ?_, hq1, hq2, fun h => absurd h hn, ?_⟩
    · unfold ToUNormBinary32
      simp only
      rw [if_neg hn, if_neg (not_lt.mpr h1), ToUNorm_MaxValue Bits hB, hMfin, hmul]
    · intro he
      rw [he, one_mul, hfix] at hq2 ⊢
      rw [abs_le] at hq2
      have h3 : ((toUInt32 ((stdRound (((2 ^ Bits - 1 : Nat)) : ℚ) : ℤ) : ℚ) : Nat) : ℚ) <
          ((2 ^ Bits - 1 + 1 : Nat) : ℚ) := by
        push_cast
        linarith [hq2.2]
      have h4 : (((2 ^ Bits - 1 - 1 : Nat)) : ℚ) <
          ((toUInt32 ((stdRound (((2 ^ Bits - 1 : Nat)) : ℚ) : ℤ) : ℚ) : Nat) : ℚ) ∨
          2 ^ Bits - 1 = 0 := by
        by_cases hz : 2 ^ Bits - 1 = 0
        · exact Or.inr hz
        · left
          have : ((2 ^ Bits - 1 - 1 : Nat) : ℚ) = ((2 ^ Bits - 1 : Nat) : ℚ) - 1 := by
            rw [Nat.cast_sub (by omega)]
            norm_num
          rw [this]
          linarith [hq2.1]
      have h5 := Nat.cast_lt.mp h3
      rcases h4 with h4 | h4
      · have h6 := Nat.cast_lt.mp h4
        omega
      · omega

theorem SetPositionsMetersInternalBinary32_eq (NumSplats : Nat) (Ps : List FVector3f)
    (hlen : Ps.length = NumSplats)
    (hmax : (BoundsMax Ps).GetMin > FLT_LOWEST) (hmin : (BoundsMin Ps).GetMax < FLT_MAX) :
    SetPositionsMetersInternalBinary32 NumSplats Ps =
      some
        { PosScaleCM :=
            (FVector3fBinary32.smul (FFloat.Finite MetersToCentimeters)
              ((FVector3fBinary32.ofVector (BoundsMax Ps)).sub
                (FVector3fBinary32.ofVector (BoundsMin Ps)))).div
              (FVector3fBinary32.ofVector FPackedPos.MAX)
          PosMaxCM :=
            FVector3fBinary32.smul (FFloat.Finite MetersToCentimeters)
              (FVector3fBinary32.ofVector (BoundsMax Ps))
          PosMinCM :=
            FVector3fBinary32.smul (FFloat.Finite MetersToCentimeters)
              (FVector3fBinary32.ofVector (BoundsMin Ps))
          Positions :=
            Ps.map (fun PosM =>
              FPackedPos.ofVectorBinary32
                (NormalizedBinary32 PosM (BoundsMin Ps) (BoundsMax Ps))) } := by
  unfold SetPositionsMetersInternalBinary32
  rw [if_neg (not_not.mpr hlen)]
  simp only
  rw [if_neg (not_not.mpr hmax), if_neg (not_not.mpr hmin)]

/-- The two assertions on the bounds hold when the box `[Lo, Hi]` of finite positions
has `Lo < Hi` on every axis. -/
theorem bounds_checks_of_box (Ps : List FVector3f) (Lo Hi : FVector3f)
    (hfin : ∀ p ∈ Ps, p.IsFinite) (hbox : IsBoundingBox Ps Lo Hi)
    (hX : Lo.X < Hi.X) (hY : Lo.Y < Hi.Y) (hZ : Lo.Z < Hi.Z) :
    Hi.GetMin > FLT_LOWEST ∧ Lo.GetMax < FLT_MAX := by
  obtain ⟨hin, ⟨ax, hax, eax⟩, ⟨ay, hay, eay⟩, ⟨az, haz, eaz⟩,
    ⟨bx, hbx, ebx⟩, ⟨wy, hby, eby⟩, ⟨bz, hbz, ebz⟩⟩ := hbox
  constructor
  · have h1 : FLT_LOWEST < Hi.X := lt_of_le_of_lt (eax ▸ (hfin ax hax).1.1) hX
    have h2 : FLT_LOWEST < Hi.Y := lt_of_le_of_lt (eay ▸ (hfin ay hay).2.1.1) hY
    have h3 : FLT_LOWEST < Hi.Z := lt_of_le_of_lt (eaz ▸ (hfin az haz).2.2.1) hZ
    unfold FVector3f.GetMin
    exact lt_min (lt_min h1 h2) h3
  · have h1 : Lo.X < FLT_MAX := lt_of_lt_of_le hX (ebx ▸ (hfin bx hbx).1.2)
    have h2 : Lo.Y < FLT_MAX := lt_of_lt_of_le hY (eby ▸ (hfin wy hby).2.1.2)
    have h3 : Lo.Z < FLT_MAX := lt_of_lt_of_le hZ (ebz ▸ (hfin bz hbz).2.2.2)
    unfold FVector3f.GetMax
    exact max_lt (max_lt h1 h2) h3

/-- The three fields of a word packed from values that fit their fields. -/
theorem FPackedPos_fields_of_pack (x y z : Nat) (hx : x < 2 ^ 11) (hy : y < 2 ^ 11)
    (hz : z < 2 ^ 10) :
    FPackedPos.FieldX ⟨((z <<< 22) % 2 ^ 32) ||| ((y <<< 11) % 2 ^ 32) ||| x⟩ = x ∧
    FPackedPos.FieldY ⟨((z <<< 22) % 2 ^ 32) ||| ((y <<< 11) % 2 ^ 32) ||| x⟩ = y ∧
    FPackedPos.FieldZ ⟨((z <<< 22) % 2 ^ 32) ||| ((y <<< 11) % 2 ^ 32) ||| x⟩ = z := by
  unfold FPackedPos.FieldX FPackedPos.FieldY FPackedPos.FieldZ
  simp only
  rw [pack3_eq _ _ _ hx hy hz]
  have h11 : (0x7FF : Nat) = 2 ^ 11 - 1 := by norm_num
  have h10 : (0x3FF : Nat) = 2 ^ 10 - 1 := by norm_num
  rw [h11, h10, Nat.and_pow_two_sub_one_eq_mod, Nat.and_pow_two_sub_one_eq_mod,
    Nat.and_pow_two_sub_one_eq_mod, Nat.shiftRight_eq_div_pow, Nat.shiftRight_eq_div_pow]
  refine ⟨?_, ?_, ?_⟩ <;> omega

/-- The bounds of the two splats at `X = -FLT_MAX` and `X = FLT_MAX`. -/
theorem BoundsMax_extreme_pair :
    BoundsMax [⟨-FLT_MAX, 0, 0⟩, ⟨FLT_MAX, 1, 1⟩] = ⟨FLT_MAX, 1, 1⟩ := by
  simp only [BoundsMax, List.foldl, FVector3f.ComponentMax, FLT_LOWEST, FLT_MAX]
  norm_num

theorem BoundsMin_extreme_pair :
    BoundsMin [⟨-FLT_MAX, 0, 0⟩, ⟨FLT_MAX, 1, 1⟩] = ⟨-FLT_MAX, 0, 0⟩ := by
  simp only [BoundsMin, List.foldl, FVector3f.ComponentMin, FLT_MAX]
  norm_num

/-- The binary32 difference `FLT_MAX - (-FLT_MAX)` overflows to `+inf`. -/
theorem FFloat.Sub_FLT_MAX_overflow :
    (FFloat.Finite FLT_MAX).Sub (FFloat.Finite (-FLT_MAX)) = FFloat.Infinity false := by
  have hr : RoundBinary32 (FLT_MAX - -FLT_MAX) = FLT_MAX - -FLT_MAX := by
    unfold FLT_MAX
    rw [RoundBinary32_eval _ 105 (2 ^ 24 - 1) (by norm_num) (by norm_num) (by norm_num)
      (by norm_num) (by norm_num)]
    norm_num
  have hpos : (0 : ℚ) < FLT_MAX - -FLT_MAX := by unfold FLT_MAX; norm_num
  have hneg : ¬ (FLT_MAX - -FLT_MAX < 0) := not_lt.mpr (le_of_lt hpos)
  unfold FFloat.Sub FFloat.OfReal
  simp only
  rw [hr, abs_of_pos hpos, if_pos (by unfold FLT_MAX; norm_num), decide_eq_false hneg]

theorem IsBoundingBox_extreme_pair :
    IsBoundingBox [⟨-FLT_MAX, 0, 0⟩, ⟨FLT_MAX, 1, 1⟩] ⟨-FLT_MAX, 0, 0⟩ ⟨FLT_MAX, 1, 1⟩ := by
  have hpos : (0 : ℚ) ≤ FLT_MAX := by unfold FLT_MAX; norm_num
  refine ⟨?_, ⟨⟨-FLT_MAX, 0, 0⟩, List.mem_cons_self _ _, rfl⟩,
    ⟨⟨-FLT_MAX, 0, 0⟩, List.mem_cons_self _ _, rfl⟩,
    ⟨⟨-FLT_MAX, 0, 0⟩, List.mem_cons_self _ _, rfl⟩,
    ⟨⟨FLT_MAX, 1, 1⟩, List.mem_cons_of_mem _ (List.mem_cons_self _ _), rfl⟩,
    ⟨⟨FLT_MAX, 1, 1⟩, List.mem_cons_of_mem _ (List.mem_cons_self _ _), rfl⟩,
    ⟨⟨FLT_MAX, 1, 1⟩, List.mem_cons_of_mem _ (List.mem_cons_self _ _), rfl⟩⟩
  intro p hp
  simp only [List.mem_cons, List.mem_singleton, List.not_mem_nil, or_false] at hp
  rcases hp with rfl | rfl
  · refine ⟨⟨le_refl _, ?_⟩, ⟨le_refl _, ?_⟩, ⟨le_refl _, ?_⟩⟩
    · show -FLT_MAX ≤ FLT_MAX
      linarith
    · norm_num
    · norm_num
  · refine ⟨⟨?_, le_refl _⟩, ⟨?_, le_refl _⟩, ⟨?_, le_refl _⟩⟩
    · show -FLT_MAX ≤ FLT_MAX
      linarith
    · norm_num
    · norm_num

/-- The conversion `ToUNorm` is undefined on a NaN. -/
theorem ToUNormBinary32_NaN (Bits : Nat) : ToUNormBinary32 Bits FFloat.NaN = none := rfl

/-- A packed position whose X argument is a NaN is undefined. -/
theorem FPackedPos.createBinary32_NaN (Y Z : FFloat) :
    FPackedPos.createBinary32 FFloat.NaN Y Z = none := by
  unfold FPackedPos.createBinary32
  rw [ToUNormBinary32_NaN]

/-- The normalized X coordinate of the splat at `X = FLT_MAX` in the extreme pair. -/
theorem NormalizedBinary32_extreme_pair :
    (NormalizedBinary32 ⟨FLT_MAX, 1, 1⟩ ⟨-FLT_MAX, 0, 0⟩ ⟨FLT_MAX, 1, 1⟩).X = FFloat.NaN := by
  unfold NormalizedBinary32 FVector3fBinary32.div FVector3fBinary32.sub
    FVector3fBinary32.ofVector
  simp only
  rw [FFloat.Sub_FLT_MAX_overflow]
  unfold FFloat.Div
  simp only

theorem SetPositionsMetersInternalBinary32_extreme_pair :
    ∃ A, SetPositionsMetersInternalBinary32 2 [⟨-FLT_MAX, 0, 0⟩, ⟨FLT_MAX, 1, 1⟩] = some A ∧
      A.Positions[1]? = some none := by
  have h := SetPositionsMetersInternalBinary32_eq 2 [⟨-FLT_MAX, 0, 0⟩, ⟨FLT_MAX, 1, 1⟩]
    (List.length_cons _ _)
    (by rw [BoundsMax_extreme_pair]; norm_num [FVector3f.GetMin, FLT_LOWEST, FLT_MAX])
    (by rw [BoundsMin_extreme_pair]; norm_num [FVector3f.GetMax, FLT_MAX])
  refine ⟨_, h, ?_⟩
  rw [BoundsMax_extreme_pair, BoundsMin_extreme_pair]
  simp only [List.map_cons, List.map_nil, List.getElem?_cons_succ, List.getElem?_cons_zero]
  unfold FPackedPos.ofVectorBinary32
  rw [NormalizedBinary32_extreme_pair, FPackedPos.createBinary32_NaN]

/-- Counterexample to C28: two splats at `X = -FLT_MAX` and `X = FLT_MAX` (and at 0 and 1
on the other two axes) have non-zero extent on every axis and pass the assertions, but
the difference `PosMaxM - PosMinM` overflows on X, so the normalized X coordinate of the
splat at the maximum is `inf / inf`, a NaN, not a value in `[0, 1]`, and its conversion
by `ToUNorm` is undefined instead of giving 2047. -/
theorem normalized_coordinate_overflow_counterexample :
    IsBoundingBox [⟨-FLT_MAX, 0, 0⟩, ⟨FLT_MAX, 1, 1⟩] ⟨-FLT_MAX, 0, 0⟩ ⟨FLT_MAX, 1, 1⟩ ∧
    (-FLT_MAX < FLT_MAX ∧ (0 : ℚ) < 1) ∧
    (NormalizedBinary32 ⟨FLT_MAX, 1, 1⟩ ⟨-FLT_MAX, 0, 0⟩ ⟨FLT_MAX, 1, 1⟩).X = FFloat.NaN ∧
    ToUNormBinary32 11 FFloat.NaN = none ∧
    ∃ A, SetPositionsMetersInternalBinary32 2 [⟨-FLT_MAX, 0, 0⟩, ⟨FLT_MAX, 1, 1⟩] = some A ∧
      A.Positions[1]? = some none := by
  exact ⟨IsBoundingBox_extreme_pair, ⟨by unfold FLT_MAX; norm_num, by norm_num⟩,
    NormalizedBinary32_extreme_pair, ToUNormBinary32_NaN 11,
    SetPositionsMetersInternalBinary32_extreme_pair⟩

/-- The packed position of three finite normalized values in `[0, 1]`: the conversion is
defined, and each field holds the `ToUNorm` value of its argument. -/
theorem FPackedPos.createBinary32_of_unit (nx ny nz : ℚ) (hx0 : 0 ≤ nx) (hx1 : nx ≤ 1)
    (hy0 : 0 ≤ ny) (hy1 : ny ≤ 1) (hz0 : 0 ≤ nz) (hz1 : nz ≤ 1) :
    ∃ Q : FPackedPos,
      FPackedPos.createBinary32 (FFloat.Finite nx) (FFloat.Finite ny) (FFloat.Finite nz) =
        some Q ∧
      ToUNormBinary32 11 (FFloat.Finite nx) = some Q.FieldX ∧
      ToUNormBinary32 11 (FFloat.Finite ny) = some Q.FieldY ∧
      ToUNormBinary32 10 (FFloat.Finite nz) = some Q.FieldZ ∧
      (nx = 0 → Q.FieldX = 0) ∧ (nx = 1 → Q.FieldX = 2047) ∧
      (ny = 0 → Q.FieldY = 0) ∧ (ny = 1 → Q.FieldY = 2047) ∧
      (nz = 0 → Q.FieldZ = 0) ∧ (nz = 1 → Q.FieldZ = 1023) := by
  have e11 : ((2 ^ 11 - 1 : Nat) : ℚ) = 2047 := by norm_num
  have e10 : ((2 ^ 10 - 1 : Nat) : ℚ) = 1023 := by norm_num
  obtain ⟨qx, hqx, hqxle, -, hqx0, hqx1⟩ := ToUNormBinary32_of_unit 11 (by norm_num)
    (by rw [e11]; exact RoundBinary32_2047) nx hx0 hx1
  obtain ⟨qy, hqy, hqyle, -, hqy0, hqy1⟩ := ToUNormBinary32_of_unit 11 (by norm_num)
    (by rw [e11]; exact RoundBinary32_2047) ny hy0 hy1
  obtain ⟨qz, hqz, hqzle, -, hqz0, hqz1⟩ := ToUNormBinary32_of_unit 10 (by norm_num)
    (by rw [e10]; exact RoundBinary32_1023) nz hz0 hz1
  obtain ⟨fx, fy, fz⟩ := FPackedPos_fields_of_pack qx qy qz (by omega) (by omega) (by omega)
  refine ⟨⟨((qz <<< 22) % 2 ^ 32) ||| ((qy <<< 11) % 2 ^ 32) ||| qx⟩, ?_, ?_, ?_, ?_, ?_, ?_,
    ?_, ?_, ?_, ?_⟩
  · unfold FPackedPos.createBinary32
    rw [hqx, hqy, hqz]
  · rw [fx]; exact hqx
  · rw [fy]; exact hqy
  · rw [fz]; exact hqz
  · intro h; rw [fx]; exact hqx0 h
  · intro h; rw [fx]; exact hqx1 h
  · intro h; rw [fy]; exact hqy0 h
  · intro h; rw [fy]; exact hqy1 h
  · intro h; rw [fz]; exact hqz0 h
  · intro h; rw [fz]; exact hqz1 h

/-- C28, amended: for binary32 positions whose bounding box `[Lo, Hi]` has `Lo < Hi` on
every axis and an extent `Hi - Lo` of at most `FLT_MAX` on every axis,
`SetPositionsMetersInternal` returns, and for every splat the three normalized
coordinates `(P - Lo) / (Hi - Lo)`, computed in binary32, are finite values in `[0, 1]`;
the packed position is defined, a coordinate equal to the axis minimum gives field
value 0, and one equal to the axis maximum gives 2047 on X and Y and 1023 on Z. -/
theorem normalized_binary32_coordinates_in_unit_range (NumSplats : Nat)
    (PositionsMeters : List FVector3f) (Lo Hi : FVector3f)
    (hlen : PositionsMeters.length = NumSplats)
    (hbin : ∀ p ∈ PositionsMeters, IsBinary32 p.X ∧ IsBinary32 p.Y ∧ IsBinary32 p.Z)
    (hbox : IsBoundingBox PositionsMeters Lo Hi)
    (hX : Lo.X < Hi.X) (hY : Lo.Y < Hi.Y) (hZ : Lo.Z < Hi.Z)
    (eX : Hi.X - Lo.X ≤ FLT_MAX) (eY : Hi.Y - Lo.Y ≤ FLT_MAX) (eZ : Hi.Z - Lo.Z ≤ FLT_MAX) :
    ∃ A, SetPositionsMetersInternalBinary32 NumSplats PositionsMeters = some A ∧
      ∀ (i : Nat) (P : FVector3f), PositionsMeters[i]? = some P →
        ∃ (nx ny nz : ℚ) (Q : FPackedPos),
          NormalizedBinary32 P Lo Hi =
            ⟨FFloat.Finite nx, FFloat.Finite ny, FFloat.Finite nz⟩ ∧
          A.Positions[i]? = some (some Q) ∧
          FPackedPos.createBinary32 (FFloat.Finite nx) (FFloat.Finite ny) (FFloat.Finite nz) =
            some Q ∧
          (0 ≤ nx ∧ nx ≤ 1) ∧ (0 ≤ ny ∧ ny ≤ 1) ∧ (0 ≤ nz ∧ nz ≤ 1) ∧
          (P.X = Lo.X → Q.FieldX = 0) ∧ (P.X = Hi.X → Q.FieldX = 2047) ∧
          (P.Y = Lo.Y → Q.FieldY = 0) ∧ (P.Y = Hi.Y → Q.FieldY = 2047) ∧
          (P.Z = Lo.Z → Q.FieldZ = 0) ∧ (P.Z = Hi.Z → Q.FieldZ = 1023) := by
  have hfin : ∀ p ∈ PositionsMeters, p.IsFinite := fun p hp =>
    ⟨IsBinary32.isFiniteFloat _ (hbin p hp).1, IsBinary32.isFiniteFloat _ (hbin p hp).2.1,
      IsBinary32.isFiniteFloat _ (hbin p hp).2.2⟩
  obtain ⟨hmin, hmax⟩ := Bounds_eq_of_IsBoundingBox PositionsMeters Lo Hi hfin hbox
  obtain ⟨hHi, hLo⟩ := bounds_checks_of_box PositionsMeters Lo Hi hfin hbox hX hY hZ
  obtain ⟨hin, ⟨ax, hax, eax⟩, ⟨ay, hay, eay⟩, ⟨az, haz, eaz⟩,
    ⟨bx, hbx, ebx⟩, ⟨wy, hby, eby⟩, ⟨bz, hbz, ebz⟩⟩ := hbox
  have dX : (2 : ℚ) ^ (-149 : ℤ) ≤ Hi.X - Lo.X :=
    IsBinary32.sub_ge _ _ (ebx ▸ (hbin bx hbx).1) (eax ▸ (hbin ax hax).1) hX
  have dY : (2 : ℚ) ^ (-149 : ℤ) ≤ Hi.Y - Lo.Y :=
    IsBinary32.sub_ge _ _ (eby ▸ (hbin wy hby).2.1) (eay ▸ (hbin ay hay).2.1) hY
  have dZ : (2 : ℚ) ^ (-149 : ℤ) ≤ Hi.Z - Lo.Z :=
    IsBinary32.sub_ge _ _ (ebz ▸ (hbin bz hbz).2.2) (eaz ▸ (hbin az haz).2.2) hZ
  have h := SetPositionsMetersInternalBinary32_eq NumSplats PositionsMeters hlen
    (by rw [hmax]; exact hHi) (by rw [hmin]; exact hLo)
  rw [hmax, hmin] at h
  refine ⟨_, h, ?_⟩
  intro i P hP
  have hPm : P ∈ PositionsMeters := List.getElem?_mem hP
  obtain ⟨⟨x0, x1⟩, ⟨y0, y1⟩, ⟨z0, z1⟩⟩ := hin P hPm
  obtain ⟨nx, enx, nx0, nx1, nxlo, nxhi⟩ := normalized_axis_binary32 P.X Lo.X Hi.X x0 x1 dX eX
  obtain ⟨ny, eny, ny0, ny1, nylo, nyhi⟩ := normalized_axis_binary32 P.Y Lo.Y Hi.Y y0 y1 dY eY
  obtain ⟨nz, enz, nz0, nz1, nzlo, nzhi⟩ := normalized_axis_binary32 P.Z Lo.Z Hi.Z z0 z1 dZ eZ
  obtain ⟨Q, hQ, -, -, -, qx0, qx1, qy0, qy1, qz0, qz1⟩ :=
    FPackedPos.createBinary32_of_unit nx ny nz nx0 nx1 ny0 ny1 nz0 nz1
  have hN : NormalizedBinary32 P Lo Hi =
      ⟨FFloat.Finite nx, FFloat.Finite ny, FFloat.Finite nz⟩ := by
    unfold NormalizedBinary32 FVector3fBinary32.div FVector3fBinary32.sub
      FVector3fBinary32.ofVector
    simp only
    rw [enx, eny, enz]
  refine ⟨nx, ny, nz, Q, hN, ?_, hQ, ⟨nx0, nx1⟩, ⟨ny0, ny1⟩, ⟨nz0, nz1⟩,
    fun e => qx0 (nxlo e), fun e => qx1 (nxhi e), fun e => qy0 (nylo e),
    fun e => qy1 (nyhi e), fun e => qz0 (nzlo e), fun e => qz1 (nzhi e)⟩
  simp only [List.getElem?_map, hP, Option.map_some', Option.some.injEq]
  unfold FPackedPos.ofVectorBinary32
  rw [hN]
  exact hQ

/-- Witness of C28: two splats at `(0, 0, 0)` and `(1, 2, 3)` metres; the second one
attains the maximum on every axis. -/
theorem normalized_binary32_coordinates_in_unit_range_witness :
    ∃ A, SetPositionsMetersInternalBinary32 2 [⟨0, 0, 0⟩, ⟨1, 2, 3⟩] = some A ∧
      ∃ Q : FPackedPos, A.Positions[1]? = some (some Q) ∧
        Q.FieldX = 2047 ∧ Q.FieldY = 2047 ∧ Q.FieldZ = 1023 := by
  have b0 : IsBinary32 0 := ⟨0, 0, by norm_num, by norm_num, by norm_num, by norm_num⟩
  have b1 : IsBinary32 1 := ⟨1, 0, by norm_num, by norm_num, by norm_num, by norm_num⟩
  have b2 : IsBinary32 2 := ⟨2, 0, by norm_num, by norm_num, by norm_num, by norm_num⟩
  have b3 : IsBinary32 3 := ⟨3, 0, by norm_num, by norm_num, by norm_num, by norm_num⟩
  obtain ⟨A, hA, hAll⟩ := normalized_binary32_coordinates_in_unit_range 2
    [⟨0, 0, 0⟩, ⟨1, 2, 3⟩] ⟨0, 0, 0⟩ ⟨1, 2, 3⟩ rfl
    (by
      intro p hp
      simp only [List.mem_cons, List.mem_singleton, List.not_mem_nil, or_false] at hp
      rcases hp with rfl | rfl
      · exact ⟨b0, b0, b0⟩
      · exact ⟨b1, b2, b3⟩)
    (by
      refine ⟨?_, ⟨⟨0, 0, 0⟩, by simp, rfl⟩, ⟨⟨0, 0, 0⟩, by simp, rfl⟩,
        ⟨⟨0, 0, 0⟩, by simp, rfl⟩, ⟨⟨1, 2, 3⟩, by simp, rfl⟩, ⟨⟨1, 2, 3⟩, by simp, rfl⟩,
        ⟨⟨1, 2, 3⟩, by simp, rfl⟩⟩
      intro p hp
      simp only [List.mem_cons, List.mem_singleton, List.not_mem_nil, or_false] at hp
      rcases hp with rfl | rfl <;> norm_num)
    (by norm_num) (by norm_num) (by norm_num)
    (by norm_num [FLT_MAX]) (by norm_num [FLT_MAX]) (by norm_num [FLT_MAX])
  refine ⟨A, hA, ?_⟩
  obtain ⟨nx, ny, nz, Q, -, hQ, -, -, -, -, -, hx, -, hy, -, hz⟩ := hAll 1 ⟨1, 2, 3⟩ rfl
  exact ⟨Q, hQ, hx rfl, hy rfl, hz rfl⟩

/-! ## The round trip of packed positions in binary32: claim C7 -/

/-- The error analysis of one axis.  `E` is the extent and `x = p - lo`; `d`, `c`, `s`,
`a`, `n` and `t` are the rounded extent, the rounded `100 * d`, the rounded scale
`c / M`, the rounded `x`, the rounded quotient `a / d` and the rounded product `n * M`,
each within its rounding error, and `q` is the integer nearest to `t`.  Then `s * q` is
within three quarters of a quantum of `100 * x`. -/
theorem quantization_error_bound (E M x d c s a n t q : ℚ)
    (hE : 0 < E) (hM1 : 1 ≤ M) (hM2 : M ≤ 2047) (hxE : x ≤ E)
    (hd : |d - E| ≤ E * (1 / 2 ^ 24))
    (hc : |c - 100 * d| ≤ 100 * d * (1 / 2 ^ 24))
    (hs : |s - c / M| ≤ c / M * (1 / 2 ^ 24))
    (ha : |a - x| ≤ x * (1 / 2 ^ 24) + E * (1 / 2 ^ 40))
    (hn : |n - a / d| ≤ a / d * (1 / 2 ^ 24) + 1 / 2 ^ 40)
    (hn0 : 0 ≤ n) (hn1 : n ≤ 1)
    (ht : |t - n * M| ≤ n * M * (1 / 2 ^ 24) + 1 / 2 ^ 40)
    (hq : |q - t| ≤ 1 / 2) :
    |s * q - 100 * x| ≤ 100 * E / M * (3 / 4) := by
  have hM0 : 0 < M := by linarith
  obtain ⟨hd1, hd2⟩ := abs_le.mp hd
  have hdpos : 0 < d := by
    have : E * (1 / 2 ^ 24) ≤ E * (1 / 2) := by
      apply mul_le_mul_of_nonneg_left _ (le_of_lt hE)
      norm_num
    linarith
  obtain ⟨hc1, hc2⟩ := abs_le.mp hc
  -- the scale, multiplied by `M`
  have hW : |s * M - c| ≤ c * (1 / 2 ^ 24) := by
    have e : s * M - c = (s - c / M) * M := by field_simp
    rw [e, abs_mul, abs_of_pos hM0]
    calc |s - c / M| * M ≤ c / M * (1 / 2 ^ 24) * M :=
          mul_le_mul_of_nonneg_right hs (le_of_lt hM0)
      _ = c * (1 / 2 ^ 24) := by field_simp; ring
  obtain ⟨hW1, hW2⟩ := abs_le.mp hW
  have hW0 : 0 ≤ s * M := by linarith
  have hWd : |s * M - 100 * d| ≤ 100 * d * (3 / 2 ^ 24) := by
    rw [abs_le]
    constructor <;> linarith
  have hWE : s * M ≤ 100 * E * (1 + 4 / 2 ^ 24) := by linarith
  -- the quotient, multiplied by `d`
  have hnd : |n * d - a| ≤ a * (1 / 2 ^ 24) + d * (1 / 2 ^ 40) := by
    have e : n * d - a = (n - a / d) * d := by field_simp
    rw [e, abs_mul, abs_of_pos hdpos]
    calc |n - a / d| * d ≤ (a / d * (1 / 2 ^ 24) + 1 / 2 ^ 40) * d :=
          mul_le_mul_of_nonneg_right hn (le_of_lt hdpos)
      _ = a * (1 / 2 ^ 24) + d * (1 / 2 ^ 40) := by field_simp; ring
  obtain ⟨ha1, ha2⟩ := abs_le.mp ha
  have hnM0 : 0 ≤ n * M := mul_nonneg hn0 (le_of_lt hM0)
  have hnM : n * M ≤ 2047 := by
    calc n * M ≤ 1 * 2047 := mul_le_mul hn1 hM2 (le_of_lt hM0) (by norm_num)
      _ = 2047 := by norm_num
  -- the five terms
  have T1 : |s * M * (q - t)| ≤ s * M * (1 / 2) := by
    rw [abs_mul, abs_of_nonneg hW0]
    exact mul_le_mul_of_nonneg_left hq hW0
  have T2 : |s * M * (t - n * M)| ≤ s * M * (2047 * (1 / 2 ^ 24) + 1 / 2 ^ 40) := by
    rw [abs_mul, abs_of_nonneg hW0]
    apply mul_le_mul_of_nonneg_left _ hW0
    have : n * M * (1 / 2 ^ 24) ≤ 2047 * (1 / 2 ^ 24) :=
      mul_le_mul_of_nonneg_right hnM (by norm_num)
    linarith
  have T3 : |n * M * (s * M - 100 * d)| ≤ 2047 * (100 * d * (3 / 2 ^ 24)) := by
    rw [abs_mul, abs_of_nonneg hnM0]
    exact mul_le_mul hnM hWd (abs_nonneg _) (by norm_num)
  have T4 : |100 * M * (n * d - a)| ≤
      100 * 2047 * (a * (1 / 2 ^ 24) + d * (1 / 2 ^ 40)) := by
    rw [abs_mul, abs_of_nonneg (by positivity : (0 : ℚ) ≤ 100 * M)]
    exact mul_le_mul (by linarith) hnd (abs_nonneg _) (by norm_num)
  have T5 : |100 * M * (a - x)| ≤ 100 * 2047 * (x * (1 / 2 ^ 24) + E * (1 / 2 ^ 40)) := by
    rw [abs_mul, abs_of_nonneg (by positivity : (0 : ℚ) ≤ 100 * M)]
    exact mul_le_mul (by linarith) ha (abs_nonneg _) (by norm_num)
  have hsum : s * M * q - 100 * M * x =
      s * M * (q - t) + s * M * (t - n * M) + n * M * (s * M - 100 * d) +
        100 * M * (n * d - a) + 100 * M * (a - x) := by ring
  have htot : |s * M * q - 100 * M * x| ≤ 100 * E * (3 / 4) := by
    rw [hsum]
    have h1 := abs_add (s * M * (q - t) + s * M * (t - n * M) + n * M * (s * M - 100 * d) +
        100 * M * (n * d - a)) (100 * M * (a - x))
    have h2 := abs_add (s * M * (q - t) + s * M * (t - n * M) + n * M * (s * M - 100 * d))
        (100 * M * (n * d - a))
    have h3 := abs_add (s * M * (q - t) + s * M * (t - n * M)) (n * M * (s * M - 100 * d))
    have h4 := abs_add (s * M * (q - t)) (s * M * (t - n * M))
    linarith
  have e : s * q - 100 * x = (s * M * q - 100 * M * x) / M := by field_simp; ring
  rw [e, abs_div, abs_of_pos hM0, div_le_iff₀ hM0]
  calc |s * M * q - 100 * M * x| ≤ 100 * E * (3 / 4) := htot
    _ = 100 * E / M * (3 / 4) * M := by field_simp; ring

/-- The round trip of one axis in binary32.  For `lo ≤ p ≤ hi` of magnitude at most
`2 ^ 100`, an extent of at least `2 ^ (-100)` and a field maximum `M`, the stored minimum
`100 * lo` and the stored scale `100 * (hi - lo) / M` are finite, and for the integer `q`
nearest to the scaled normalized coordinate the decoded value is within a quantum plus
the rounding error of the stored minimum of `100 * p`. -/
theorem axis_round_trip_binary32 (p lo hi M : ℚ) (q : Nat) (h0 : lo ≤ p) (h1 : p ≤ hi)
    (hlo : |lo| ≤ 2 ^ 100) (hhi : |hi| ≤ 2 ^ 100) (hE : (2 : ℚ) ^ (-100 : ℤ) ≤ hi - lo)
    (hM1 : 1 ≤ M) (hM2 : M ≤ 2047)
    (hq : |(q : ℚ) - RoundBinary32
      (RoundBinary32 (RoundBinary32 (p - lo) / RoundBinary32 (hi - lo)) * M)| ≤ 1 / 2) :
    (FFloat.Finite MetersToCentimeters).Mul (FFloat.Finite lo) =
      FFloat.Finite (RoundBinary32 (100 * lo)) ∧
    ((FFloat.Finite MetersToCentimeters).Mul
      ((FFloat.Finite hi).Sub (FFloat.Finite lo))).Div (FFloat.Finite M) =
        FFloat.Finite (RoundBinary32 (RoundBinary32 (100 * RoundBinary32 (hi - lo)) / M)) ∧
    |RoundBinary32 (100 * lo) +
        RoundBinary32 (RoundBinary32 (100 * RoundBinary32 (hi - lo)) / M) * (q : ℚ) -
        100 * p| ≤ 100 * (hi - lo) / M + |100 * lo| / 2 ^ 24 := by
  unfold MetersToCentimeters
  have hu : (2 : ℚ) ^ (-24 : ℤ) = 1 / 2 ^ 24 := by norm_num
  have hη : (2 : ℚ) ^ (-150 : ℤ) = 1 / 2 ^ 150 := by norm_num
  have h126 : (2 : ℚ) ^ (-126 : ℤ) = 1 / 2 ^ 126 := by norm_num
  have h100 : (2 : ℚ) ^ (-100 : ℤ) = 1 / 2 ^ 100 := by norm_num
  have hFM : (2 : ℚ) ^ 110 ≤ FLT_MAX := by unfold FLT_MAX; norm_num
  have hM0 : 0 < M := by linarith
  rw [h100] at hE
  obtain ⟨hlo1, hlo2⟩ := abs_le.mp hlo
  obtain ⟨hhi1, hhi2⟩ := abs_le.mp hhi
  have hEle : hi - lo ≤ 2 ^ 101 := by linarith
  have hEpos : 0 < hi - lo := lt_of_lt_of_le (by norm_num) hE
  -- the rounded extent
  have hd := RoundBinary32_error_of_normal (hi - lo)
    (by rw [abs_of_pos hEpos, h126]; exact le_trans (by norm_num) hE)
  rw [abs_of_pos hEpos, hu] at hd
  obtain ⟨hsub, hdpos, hdiv, hn0, hn1, -, -⟩ := normalized_axis_binary32_value p lo hi h0 h1
    (le_trans (by norm_num) hE) (le_trans hEle (le_trans (by norm_num) hFM))
  obtain ⟨hd1, hd2⟩ := abs_le.mp hd
  have hdlo : 1 / 2 ^ 101 ≤ RoundBinary32 (hi - lo) := by linarith
  have hdhi : RoundBinary32 (hi - lo) ≤ 2 ^ 102 := by linarith
  -- the rounded `100 * d`
  have hcpos : 0 < 100 * RoundBinary32 (hi - lo) := by linarith
  have hc := RoundBinary32_error_of_normal (100 * RoundBinary32 (hi - lo))
    (by rw [abs_of_pos hcpos, h126]; linarith)
  rw [abs_of_pos hcpos, hu] at hc
  have hcfin : (FFloat.Finite 100).Mul (FFloat.Finite (RoundBinary32 (hi - lo))) =
      FFloat.Finite (RoundBinary32 (100 * RoundBinary32 (hi - lo))) :=
    FFloat.OfReal_of_nonneg_le _ (le_of_lt hcpos) (le_trans (by linarith) hFM)
  obtain ⟨hc1, hc2⟩ := abs_le.mp hc
  have hclo : 1 / 2 ^ 100 ≤ RoundBinary32 (100 * RoundBinary32 (hi - lo)) := by linarith
  have hchi : RoundBinary32 (100 * RoundBinary32 (hi - lo)) ≤ 2 ^ 110 := by linarith
  -- the rounded scale
  have hcM0 : 0 < RoundBinary32 (100 * RoundBinary32 (hi - lo)) / M :=
    div_pos (lt_of_lt_of_le (by norm_num) hclo) hM0
  have hcMle : RoundBinary32 (100 * RoundBinary32 (hi - lo)) / M ≤
      RoundBinary32 (100 * RoundBinary32 (hi - lo)) :=
    div_le_self (le_trans (by norm_num) hclo) hM1
  have hcMlo : 1 / 2 ^ 126 ≤ RoundBinary32 (100 * RoundBinary32 (hi - lo)) / M := by
    rw [le_div_iff₀ hM0]
    have : (1 : ℚ) / 2 ^ 126 * M ≤ 1 / 2 ^ 126 * 2047 :=
      mul_le_mul_of_nonneg_left hM2 (by norm_num)
    linarith
  have hs := RoundBinary32_error_of_normal
    (RoundBinary32 (100 * RoundBinary32 (hi - lo)) / M)
    (by rw [abs_of_pos hcM0, h126]; exact hcMlo)
  rw [abs_of_pos hcM0, hu] at hs
  have hsfin : (FFloat.Finite (RoundBinary32 (100 * RoundBinary32 (hi - lo)))).Div
      (FFloat.Finite M) =
      FFloat.Finite (RoundBinary32 (RoundBinary32 (100 * RoundBinary32 (hi - lo)) / M)) := by
    show (if M = 0 then _ else _) = _
    rw [if_neg (ne_of_gt hM0)]
    exact FFloat.OfReal_of_nonneg_le _ (le_of_lt hcM0)
      (le_trans hcMle (le_trans hchi hFM))
  -- the rounded minimum
  have hmn := RoundBinary32_error (100 * lo)
  rw [hu, hη] at hmn
  have hlo100 : |100 * lo| ≤ 100 * 2 ^ 100 := by
    rw [abs_mul, abs_of_pos (by norm_num : (0 : ℚ) < 100)]
    linarith
  have hmnfin : (FFloat.Finite 100).Mul (FFloat.Finite lo) =
      FFloat.Finite (RoundBinary32 (100 * lo)) := by
    apply FFloat.OfReal_of_lt
    have h3 : |RoundBinary32 (100 * lo)| ≤
        |RoundBinary32 (100 * lo) - 100 * lo| + |100 * lo| := by
      have := abs_add (RoundBinary32 (100 * lo) - 100 * lo) (100 * lo)
      rwa [sub_add_cancel] at this
    have h4 : |100 * lo| * (1 / 2 ^ 24) ≤ 100 * 2 ^ 100 * (1 / 2 ^ 24) :=
      mul_le_mul_of_nonneg_right hlo100 (by norm_num)
    have h5 : (100 * 2 ^ 100 * (1 / 2 ^ 24) + 1 / 2 ^ 150 + 100 * 2 ^ 100 : ℚ) < 2 ^ 128 := by
      norm_num
    linarith
  -- the rounded numerator
  have hx0 : 0 ≤ p - lo := by linarith
  have ha := RoundBinary32_error (p - lo)
  rw [abs_of_nonneg hx0, hu, hη] at ha
  have ha0 := RoundBinary32_nonneg hx0
  have ha2 : |RoundBinary32 (p - lo) - (p - lo)| ≤
      (p - lo) * (1 / 2 ^ 24) + (hi - lo) * (1 / 2 ^ 40) := by
    refine le_trans ha ?_
    have : (1 : ℚ) / 2 ^ 150 ≤ (hi - lo) * (1 / 2 ^ 40) := by linarith
    linarith
  -- the rounded quotient
  have hq0 : 0 ≤ RoundBinary32 (p - lo) / RoundBinary32 (hi - lo) :=
    div_nonneg ha0 (le_of_lt hdpos)
  have hn := RoundBinary32_error (RoundBinary32 (p - lo) / RoundBinary32 (hi - lo))
  rw [abs_of_nonneg hq0, hu, hη] at hn
  have hn2 : |RoundBinary32 (RoundBinary32 (p - lo) / RoundBinary32 (hi - lo)) -
      RoundBinary32 (p - lo) / RoundBinary32 (hi - lo)| ≤
      RoundBinary32 (p - lo) / RoundBinary32 (hi - lo) * (1 / 2 ^ 24) + 1 / 2 ^ 40 :=
    le_trans hn (by norm_num)
  -- the rounded product
  have hnM0 : 0 ≤ RoundBinary32 (RoundBinary32 (p - lo) / RoundBinary32 (hi - lo)) * M :=
    mul_nonneg hn0 (le_of_lt hM0)
  have ht := RoundBinary32_error
    (RoundBinary32 (RoundBinary32 (p - lo) / RoundBinary32 (hi - lo)) * M)
  rw [abs_of_nonneg hnM0, hu, hη] at ht
  have ht2 : |RoundBinary32
        (RoundBinary32 (RoundBinary32 (p - lo) / RoundBinary32 (hi - lo)) * M) -
      RoundBinary32 (RoundBinary32 (p - lo) / RoundBinary32 (hi - lo)) * M| ≤
      RoundBinary32 (RoundBinary32 (p - lo) / RoundBinary32 (hi - lo)) * M * (1 / 2 ^ 24) +
        1 / 2 ^ 40 :=
    le_trans ht (by norm_num)
  have key := quantization_error_bound (hi - lo) M (p - lo) _ _ _ _ _ _ (q : ℚ) hEpos hM1 hM2
    (by linarith) hd hc hs ha2 hn2 hn0 hn1 ht2 hq
  refine ⟨hmnfin, by rw [hsub, hcfin, hsfin], ?_⟩
  have e : RoundBinary32 (100 * lo) +
        RoundBinary32 (RoundBinary32 (100 * RoundBinary32 (hi - lo)) / M) * (q : ℚ) -
        100 * p =
      (RoundBinary32 (100 * lo) - 100 * lo) +
        (RoundBinary32 (RoundBinary32 (100 * RoundBinary32 (hi - lo)) / M) * (q : ℚ) -
          100 * (p - lo)) := by ring
  rw [e]
  have hquant : 100 * (hi - lo) / 2047 ≤ 100 * (hi - lo) / M :=
    div_le_div_of_nonneg_left (by linarith) hM0 hM2
  have habs := abs_add (RoundBinary32 (100 * lo) - 100 * lo)
    (RoundBinary32 (RoundBinary32 (100 * RoundBinary32 (hi - lo)) / M) * (q : ℚ) -
      100 * (p - lo))
  have hsmall : (1 : ℚ) / 2 ^ 150 ≤ 100 * (hi - lo) / 2047 * (1 / 4) := by linarith
  have hdiv24 : |100 * lo| / 2 ^ 24 = |100 * lo| * (1 / 2 ^ 24) := by ring
  rw [hdiv24]
  linarith

/-- The binary32 `ToUNorm` of zero. -/
theorem ToUNormBinary32_zero (Bits : Nat) : ToUNormBinary32 Bits (FFloat.Finite 0) = some 0 := by
  unfold ToUNormBinary32
  simp

/-- The value of the binary32 `ToUNorm` on an argument in `[0, 1]` is within one half of
the rounded product of the argument and the maximum value. -/
theorem ToUNormBinary32_close (Bits : Nat) (hB : Bits ≤ 32)
    (hfix : RoundBinary32 ((2 ^ Bits - 1 : Nat) : ℚ) = ((2 ^ Bits - 1 : Nat) : ℚ))
    (n : ℚ) (h0 : 0 ≤ n) (h1 : n ≤ 1) (q : Nat)
    (h : ToUNormBinary32 Bits (FFloat.Finite n) = some q) :
    |(q : ℚ) - RoundBinary32 (n * ((2 ^ Bits - 1 : Nat) : ℚ))| ≤ 1 / 2 := by
  obtain ⟨r, hr, -, hclose, -, -⟩ := ToUNormBinary32_of_unit Bits hB hfix n h0 h1
  rw [hr] at h
  rw [← Option.some.inj h]
  exact hclose

/-- The round trip of the packed positions in binary32, for positions of magnitude at
most `2 ^ 100` metres whose bounding box `[Lo, Hi]` has an extent of at least
`2 ^ (-100)` metres on every axis: the method returns, every packed position is
defined, the stored minimum and scale are finite, a coordinate at the axis minimum has
field value 0, and the position decoded from the stored values is within a quantum plus
the rounding error of the stored minimum of `100 * P`. -/
theorem SetPositionsMetersInternalBinary32_round_trip (NumSplats : Nat)
    (PositionsMeters : List FVector3f) (Lo Hi : FVector3f)
    (hlen : PositionsMeters.length = NumSplats)
    (hrange : ∀ p ∈ PositionsMeters, |p.X| ≤ 2 ^ 100 ∧ |p.Y| ≤ 2 ^ 100 ∧ |p.Z| ≤ 2 ^ 100)
    (hbox : IsBoundingBox PositionsMeters Lo Hi)
    (eX : (2 : ℚ) ^ (-100 : ℤ) ≤ Hi.X - Lo.X) (eY : (2 : ℚ) ^ (-100 : ℤ) ≤ Hi.Y - Lo.Y)
    (eZ : (2 : ℚ) ^ (-100 : ℤ) ≤ Hi.Z - Lo.Z) :
    ∃ A, SetPositionsMetersInternalBinary32 NumSplats PositionsMeters = some A ∧
      A.Positions.length = PositionsMeters.length ∧
      ∀ (i : Nat) (P : FVector3f), PositionsMeters[i]? = some P →
        ∃ (Q : FPackedPos) (D : FVector3f),
          A.Positions[i]? = some (some Q) ∧ DecodePositionBinary32 A Q = some D ∧
          (Q.FieldX = 0 → D.X = RoundBinary32 (100 * Lo.X)) ∧
          (P.X = Lo.X → Q.FieldX = 0) ∧
          |D.X - 100 * P.X| ≤ 100 * (Hi.X - Lo.X) / 2047 + |100 * Lo.X| / 2 ^ 24 ∧
          |D.Y - 100 * P.Y| ≤ 100 * (Hi.Y - Lo.Y) / 2047 + |100 * Lo.Y| / 2 ^ 24 ∧
          |D.Z - 100 * P.Z| ≤ 100 * (Hi.Z - Lo.Z) / 1023 + |100 * Lo.Z| / 2 ^ 24 := by
  have hFM : (2 : ℚ) ^ 100 ≤ FLT_MAX := by unfold FLT_MAX; norm_num
  have h100 : (0 : ℚ) < 2 ^ (-100 : ℤ) := zpow_pos (by norm_num) _
  have h149 : (2 : ℚ) ^ (-149 : ℤ) ≤ 2 ^ (-100 : ℤ) :=
    zpow_le_zpow_right₀ (by norm_num) (by norm_num)
  have hfinc : ∀ x : ℚ, |x| ≤ 2 ^ 100 → IsFiniteFloat x := by
    intro x hx
    obtain ⟨h1, h2⟩ := abs_le.mp hx
    exact ⟨by unfold FLT_LOWEST; linarith, by linarith⟩
  have hfin : ∀ p ∈ PositionsMeters, p.IsFinite := fun p hp =>
    ⟨hfinc _ (hrange p hp).1, hfinc _ (hrange p hp).2.1, hfinc _ (hrange p hp).2.2⟩
  obtain ⟨hmin, hmax⟩ := Bounds_eq_of_IsBoundingBox PositionsMeters Lo Hi hfin hbox
  obtain ⟨hHi, hLo⟩ := bounds_checks_of_box PositionsMeters Lo Hi hfin hbox
    (by linarith) (by linarith) (by linarith)
  obtain ⟨hin, ⟨ax, hax, eax⟩, ⟨ay, hay, eay⟩, ⟨az, haz, eaz⟩,
    ⟨bx, hbx, ebx⟩, ⟨wy, hby, eby⟩, ⟨bz, hbz, ebz⟩⟩ := hbox
  have rLoX : |Lo.X| ≤ 2 ^ 100 := eax ▸ (hrange ax hax).1
  have rLoY : |Lo.Y| ≤ 2 ^ 100 := eay ▸ (hrange ay hay).2.1
  have rLoZ : |Lo.Z| ≤ 2 ^ 100 := eaz ▸ (hrange az haz).2.2
  have rHiX : |Hi.X| ≤ 2 ^ 100 := ebx ▸ (hrange bx hbx).1
  have rHiY : |Hi.Y| ≤ 2 ^ 100 := eby ▸ (hrange wy hby).2.1
  have rHiZ : |Hi.Z| ≤ 2 ^ 100 := ebz ▸ (hrange bz hbz).2.2
  have extle : ∀ lo hi : ℚ, |lo| ≤ 2 ^ 100 → |hi| ≤ 2 ^ 100 → hi - lo ≤ FLT_MAX := by
    intro lo hi hl hh
    obtain ⟨h1, h2⟩ := abs_le.mp hl
    obtain ⟨h3, h4⟩ := abs_le.mp hh
    have : (2 : ℚ) ^ 100 + 2 ^ 100 ≤ FLT_MAX := by unfold FLT_MAX; norm_num
    linarith
  have h := SetPositionsMetersInternalBinary32_eq NumSplats PositionsMeters hlen
    (by rw [hmax]; exact hHi) (by rw [hmin]; exact hLo)
  rw [hmax, hmin] at h
  refine ⟨_, h, by simp, ?_⟩
  intro i P hP
  have hPm : P ∈ PositionsMeters := List.getElem?_mem hP
  obtain ⟨⟨x0, x1⟩, ⟨y0, y1⟩, ⟨z0, z1⟩⟩ := hin P hPm
  obtain ⟨-, -, enx, nx0, nx1, nxlo, -⟩ := normalized_axis_binary32_value P.X Lo.X Hi.X x0 x1
    (le_trans h149 eX) (extle _ _ rLoX rHiX)
  obtain ⟨-, -, eny, ny0, ny1, -, -⟩ := normalized_axis_binary32_value P.Y Lo.Y Hi.Y y0 y1
    (le_trans h149 eY) (extle _ _ rLoY rHiY)
  obtain ⟨-, -, enz, nz0, nz1, -, -⟩ := normalized_axis_binary32_value P.Z Lo.Z Hi.Z z0 z1
    (le_trans h149 eZ) (extle _ _ rLoZ rHiZ)
  obtain ⟨Q, hQ, tx, ty, tz, qx0, -, -, -, -, -⟩ :=
    FPackedPos.createBinary32_of_unit _ _ _ nx0 nx1 ny0 ny1 nz0 nz1
  have e11 : ((2 ^ 11 - 1 : Nat) : ℚ) = 2047 := by norm_num
  have e10 : ((2 ^ 10 - 1 : Nat) : ℚ) = 1023 := by norm_num
  have cx := ToUNormBinary32_close 11 (by norm_num) (by rw [e11]; exact RoundBinary32_2047)
    _ nx0 nx1 _ tx
  have cy := ToUNormBinary32_close 11 (by norm_num) (by rw [e11]; exact RoundBinary32_2047)
    _ ny0 ny1 _ ty
  have cz := ToUNormBinary32_close 10 (by norm_num) (by rw [e10]; exact RoundBinary32_1023)
    _ nz0 nz1 _ tz
  rw [e11] at cx cy
  rw [e10] at cz
  obtain ⟨mX, sX, bX⟩ := axis_round_trip_binary32 P.X Lo.X Hi.X 2047 Q.FieldX x0 x1 rLoX rHiX eX
    (by norm_num) (by norm_num) cx
  obtain ⟨mY, sY, bY⟩ := axis_round_trip_binary32 P.Y Lo.Y Hi.Y 2047 Q.FieldY y0 y1 rLoY rHiY eY
    (by norm_num) (by norm_num) cy
  obtain ⟨mZ, sZ, bZ⟩ := axis_round_trip_binary32 P.Z Lo.Z Hi.Z 1023 Q.FieldZ z0 z1 rLoZ rHiZ eZ
    (by norm_num) (by norm_num) cz
  have hN : NormalizedBinary32 P Lo Hi =
      ⟨FFloat.Finite (RoundBinary32 (RoundBinary32 (P.X - Lo.X) / RoundBinary32 (Hi.X - Lo.X))),
        FFloat.Finite (RoundBinary32 (RoundBinary32 (P.Y - Lo.Y) / RoundBinary32 (Hi.Y - Lo.Y))),
        FFloat.Finite
          (RoundBinary32 (RoundBinary32 (P.Z - Lo.Z) / RoundBinary32 (Hi.Z - Lo.Z)))⟩ := by
    unfold NormalizedBinary32 FVector3fBinary32.div FVector3fBinary32.sub
      FVector3fBinary32.ofVector
    simp only
    rw [enx, eny, enz]
  have hMX : FPackedPos.MAX.X = 2047 := by
    norm_num [FPackedPos.MAX, FPackedPos.MAX_UNORM_11]
  have hMY : FPackedPos.MAX.Y = 2047 := by
    norm_num [FPackedPos.MAX, FPackedPos.MAX_UNORM_11]
  have hMZ : FPackedPos.MAX.Z = 1023 := by
    norm_num [FPackedPos.MAX, FPackedPos.MAX_UNORM_10]
  refine ⟨Q, ⟨RoundBinary32 (100 * Lo.X) +
      RoundBinary32 (RoundBinary32 (100 * RoundBinary32 (Hi.X - Lo.X)) / 2047) * (Q.FieldX : ℚ),
    RoundBinary32 (100 * Lo.Y) +
      RoundBinary32 (RoundBinary32 (100 * RoundBinary32 (Hi.Y - Lo.Y)) / 2047) * (Q.FieldY : ℚ),
    RoundBinary32 (100 * Lo.Z) +
      RoundBinary32 (RoundBinary32 (100 * RoundBinary32 (Hi.Z - Lo.Z)) / 1023) *
        (Q.FieldZ : ℚ)⟩, ?_, ?_, ?_, fun e => qx0 (nxlo e), bX, bY, bZ⟩
  · simp only [List.getElem?_map, hP, Option.map_some', Option.some.injEq]
    unfold FPackedPos.ofVectorBinary32
    rw [hN]
    exact hQ
  · unfold DecodePositionBinary32 FVector3fBinary32.div FVector3fBinary32.smul
      FVector3fBinary32.sub FVector3fBinary32.ofVector
    simp only
    rw [hMX, hMY, hMZ, mX, mY, mZ, sX, sY, sZ]
  · intro hq
    show RoundBinary32 (100 * Lo.X) + _ * (Q.FieldX : ℚ) = _
    rw [hq]
    simp

/-- Counterexample to C7: two splats at `X = 1000 + 1 / 2 ^ 14` and
`X = 1000 + 164 / 2 ^ 14` metres (binary32 values near 1000.00006 and 1000.01), at 0 and
1 on the other two axes.  The first splat has field value 0 on X, so it decodes to the
stored minimum `PosMinCM.X`, the binary32 product `100 * 1000.00006...`, which is
`12800001 / 128`; this differs from `100 * p` by `7 / 4096` centimetres, more than three
times the claimed bound `100 * extent / 2047`. -/
theorem packed_position_far_from_origin_counterexample :
    IsBoundingBox [⟨16384001 / 16384, 0, 0⟩, ⟨16384164 / 16384, 1, 1⟩]
      ⟨16384001 / 16384, 0, 0⟩ ⟨16384164 / 16384, 1, 1⟩ ∧
    ((16384001 : ℚ) / 16384 < 16384164 / 16384 ∧ (0 : ℚ) < 1) ∧
    ∃ A Q D,
      SetPositionsMetersInternalBinary32 2
        [⟨16384001 / 16384, 0, 0⟩, ⟨16384164 / 16384, 1, 1⟩] = some A ∧
      A.Positions[0]? = some (some Q) ∧ DecodePositionBinary32 A Q = some D ∧
      D.X = 12800001 / 128 ∧
      |D.X - 100 * (16384001 / 16384)| = 7 / 4096 ∧
      100 * ((16384164 : ℚ) / 16384 - 16384001 / 16384) / 2047 <
        |D.X - 100 * (16384001 / 16384)| := by
  have hbox : IsBoundingBox [⟨16384001 / 16384, 0, 0⟩, ⟨16384164 / 16384, 1, 1⟩]
      ⟨16384001 / 16384, 0, 0⟩ ⟨16384164 / 16384, 1, 1⟩ := by
    refine ⟨?_, ⟨⟨16384001 / 16384, 0, 0⟩, List.mem_cons_self _ _, rfl⟩,
      ⟨⟨16384001 / 16384, 0, 0⟩, List.mem_cons_self _ _, rfl⟩,
      ⟨⟨16384001 / 16384, 0, 0⟩, List.mem_cons_self _ _, rfl⟩,
      ⟨⟨16384164 / 16384, 1, 1⟩, List.mem_cons_of_mem _ (List.mem_cons_self _ _), rfl⟩,
      ⟨⟨16384164 / 16384, 1, 1⟩, List.mem_cons_of_mem _ (List.mem_cons_self _ _), rfl⟩,
      ⟨⟨16384164 / 16384, 1, 1⟩, List.mem_cons_of_mem _ (List.mem_cons_self _ _), rfl⟩⟩
    intro p hp
    simp only [List.mem_cons, List.mem_singleton, List.not_mem_nil, or_false] at hp
    rcases hp with rfl | rfl <;> norm_num
  obtain ⟨A, hA, -, hAll⟩ := SetPositionsMetersInternalBinary32_round_trip 2
    [⟨16384001 / 16384, 0, 0⟩, ⟨16384164 / 16384, 1, 1⟩]
    ⟨16384001 / 16384, 0, 0⟩ ⟨16384164 / 16384, 1, 1⟩ (List.length_cons _ _)
    (by
      intro p hp
      simp only [List.mem_cons, List.mem_singleton, List.not_mem_nil, or_false] at hp
      rcases hp with rfl | rfl <;> refine ⟨?_, ?_, ?_⟩ <;> rw [abs_le] <;> constructor <;>
        norm_num)
    hbox (by norm_num) (by norm_num) (by norm_num)
  obtain ⟨Q, D, hQ, hD, hD0, hq0, -, -, -⟩ := hAll 0 ⟨16384001 / 16384, 0, 0⟩
    (List.getElem?_cons_zero)
  have hmin : RoundBinary32 (100 * (16384001 / 16384)) = 12800001 / 128 := by
    rw [RoundBinary32_eval _ (-7) 12800001 (by norm_num) (by norm_num) (by norm_num)
      (by norm_num) (by norm_num)]
    norm_num
  have hDX : D.X = 12800001 / 128 := by
    rw [hD0 (hq0 rfl)]
    exact hmin
  have herr : |D.X - 100 * (16384001 / 16384)| = 7 / 4096 := by
    rw [hDX, abs_of_pos (by norm_num)]
    norm_num
  refine ⟨hbox, ⟨by norm_num, by norm_num⟩, A, Q, D, hA, hQ, hD, hDX, herr, ?_⟩
  rw [herr]
  norm_num

/-- C7, amended: for positions of magnitude at most `2 ^ 100` metres whose bounding box
`[Lo, Hi]` has an extent of at least `2 ^ (-100)` metres on every axis,
`SetPositionsMetersInternal`, computing in binary32, returns and packs every position,
and decoding a packed position as `PosMinCM + PosScaleCM * (qx, qy, qz)` from the stored
binary32 values recovers `100 * p` with error at most
`100 * extent / 2047 + |100 * min| / 2 ^ 24` on X and Y and
`100 * extent / 1023 + |100 * min| / 2 ^ 24` on Z, where `extent = Hi - Lo` and
`min = Lo` on that axis. -/
theorem packed_position_decodes_within_binary32_quantum (NumSplats : Nat)
    (PositionsMeters : List FVector3f) (Lo Hi : FVector3f)
    (hlen : PositionsMeters.length = NumSplats)
    (hrange : ∀ p ∈ PositionsMeters, |p.X| ≤ 2 ^ 100 ∧ |p.Y| ≤ 2 ^ 100 ∧ |p.Z| ≤ 2 ^ 100)
    (hbox : IsBoundingBox PositionsMeters Lo Hi)
    (eX : (2 : ℚ) ^ (-100 : ℤ) ≤ Hi.X - Lo.X) (eY : (2 : ℚ) ^ (-100 : ℤ) ≤ Hi.Y - Lo.Y)
    (eZ : (2 : ℚ) ^ (-100 : ℤ) ≤ Hi.Z - Lo.Z) :
    ∃ A, SetPositionsMetersInternalBinary32 NumSplats PositionsMeters = some A ∧
      A.Positions.length = PositionsMeters.length ∧
      ∀ (i : Nat) (P : FVector3f), PositionsMeters[i]? = some P →
        ∃ (Q : FPackedPos) (D : FVector3f),
          A.Positions[i]? = some (some Q) ∧ DecodePositionBinary32 A Q = some D ∧
          |D.X - 100 * P.X| ≤ 100 * (Hi.X - Lo.X) / 2047 + |100 * Lo.X| / 2 ^ 24 ∧
          |D.Y - 100 * P.Y| ≤ 100 * (Hi.Y - Lo.Y) / 2047 + |100 * Lo.Y| / 2 ^ 24 ∧
          |D.Z - 100 * P.Z| ≤ 100 * (Hi.Z - Lo.Z) / 1023 + |100 * Lo.Z| / 2 ^ 24 := by
  obtain ⟨A, hA, hlenA, hAll⟩ := SetPositionsMetersInternalBinary32_round_trip NumSplats
    PositionsMeters Lo Hi hlen hrange hbox eX eY eZ
  refine ⟨A, hA, hlenA, ?_⟩
  intro i P hP
  obtain ⟨Q, D, hQ, hD, -, -, bX, bY, bZ⟩ := hAll i P hP
  exact ⟨Q, D, hQ, hD, bX, bY, bZ⟩

/-- Witness of C7: two splats at `(0, 0, 0)` and `(1, 2, 3)` metres. -/
theorem packed_position_decodes_within_binary32_quantum_witness :
    ∃ A, SetPositionsMetersInternalBinary32 2 [⟨0, 0, 0⟩, ⟨1, 2, 3⟩] = some A ∧
      A.Positions.length = ([⟨0, 0, 0⟩, ⟨1, 2, 3⟩] : List FVector3f).length ∧
      ∀ (i : Nat) (P : FVector3f),
        ([⟨0, 0, 0⟩, ⟨1, 2, 3⟩] : List FVector3f)[i]? = some P →
        ∃ (Q : FPackedPos) (D : FVector3f),
          A.Positions[i]? = some (some Q) ∧ DecodePositionBinary32 A Q = some D ∧
          |D.X - 100 * P.X| ≤
            100 * ((⟨1, 2, 3⟩ : FVector3f).X - (⟨0, 0, 0⟩ : FVector3f).X) / 2047 +
              |100 * (⟨0, 0, 0⟩ : FVector3f).X| / 2 ^ 24 ∧
          |D.Y - 100 * P.Y| ≤
            100 * ((⟨1, 2, 3⟩ : FVector3f).Y - (⟨0, 0, 0⟩ : FVector3f).Y) / 2047 +
              |100 * (⟨0, 0, 0⟩ : FVector3f).Y| / 2 ^ 24 ∧
          |D.Z - 100 * P.Z| ≤
            100 * ((⟨1, 2, 3⟩ : FVector3f).Z - (⟨0, 0, 0⟩ : FVector3f).Z) / 1023 +
              |100 * (⟨0, 0, 0⟩ : FVector3f).Z| / 2 ^ 24 :=
  packed_position_decodes_within_binary32_quantum 2 [⟨0, 0, 0⟩, ⟨1, 2, 3⟩] ⟨0, 0, 0⟩ ⟨1, 2, 3⟩
    rfl
    (by
      intro p hp
      simp only [List.mem_cons, List.mem_singleton, List.not_mem_nil, or_false] at hp
      rcases hp with rfl | rfl <;> refine ⟨?_, ?_, ?_⟩ <;> rw [abs_le] <;> constructor <;>
        norm_num)
    (by
      refine ⟨?_, ⟨⟨0, 0, 0⟩, by simp, rfl⟩, ⟨⟨0, 0, 0⟩, by simp, rfl⟩,
        ⟨⟨0, 0, 0⟩, by simp, rfl⟩, ⟨⟨1, 2, 3⟩, by simp, rfl⟩, ⟨⟨1, 2, 3⟩, by simp, rfl⟩,
        ⟨⟨1, 2, 3⟩, by simp, rfl⟩⟩
      intro p hp
      simp only [List.mem_cons, List.mem_singleton, List.not_mem_nil, or_false] at hp
      rcases hp with rfl | rfl <;> norm_num)
    (by norm_num) (by norm_num) (by norm_num)

/-! ## Overflow and underflow of the stored offset and scale

The two examples below show what the bounds on the magnitudes and on the extent in the
amended C7 exclude: an offset `100 * min` that overflows, and a scale
`100 * extent / 2047` that underflows to zero. -/

theorem FFloat.OfReal_zero : FFloat.OfReal 0 = FFloat.Finite 0 := by
  unfold FFloat.OfReal
  rw [RoundBinary32_zero, abs_zero, if_neg (by norm_num)]

theorem FFloat.Sub_Finite (a b : ℚ) :
    (FFloat.Finite a).Sub (FFloat.Finite b) = FFloat.OfReal (a - b) := rfl

theorem FFloat.Mul_Finite (a b : ℚ) :
    (FFloat.Finite a).Mul (FFloat.Finite b) = FFloat.OfReal (a * b) := rfl

theorem FFloat.Div_Finite (a b : ℚ) (hb : b ≠ 0) :
    (FFloat.Finite a).Div (FFloat.Finite b) = FFloat.OfReal (a / b) := by
  show (if b = 0 then _ else _) = _
  rw [if_neg hb]

/-- The decoding has no finite value when the stored `PosMinCM.X` is infinite. -/
theorem DecodePositionBinary32_of_infinite (A : FPackedPositionsBinary32) (Q : FPackedPos)
    (b : Bool) (h : A.PosMinCM.X = FFloat.Infinity b) : DecodePositionBinary32 A Q = none := by
  obtain ⟨S, Mx, ⟨mx, my, mz⟩, Ps⟩ := A
  simp only at h
  subst h
  rfl

/-- For two splats at `X = 2 ^ 126` and `X = 2 ^ 127` metres both checks pass, but the
product `100 * 2 ^ 126` overflows: the stored `PosMinCM.X` is `+inf`, and the decoding
has no finite value. -/
theorem PosMinCM_overflow_example :
    ∃ A, SetPositionsMetersInternalBinary32 2 [⟨2 ^ 126, 0, 0⟩, ⟨2 ^ 127, 1, 1⟩] = some A ∧
      A.PosMinCM.X = FFloat.Infinity false ∧
      ∀ Q, DecodePositionBinary32 A Q = none := by
  have hfin : ∀ p ∈ ([⟨2 ^ 126, 0, 0⟩, ⟨2 ^ 127, 1, 1⟩] : List FVector3f), p.IsFinite := by
    intro p hp
    simp only [List.mem_cons, List.mem_singleton, List.not_mem_nil, or_false] at hp
    rcases hp with rfl | rfl <;>
      norm_num [FVector3f.IsFinite, IsFiniteFloat, FLT_LOWEST, FLT_MAX]
  have hbox : IsBoundingBox [⟨2 ^ 126, 0, 0⟩, ⟨2 ^ 127, 1, 1⟩]
      ⟨2 ^ 126, 0, 0⟩ ⟨2 ^ 127, 1, 1⟩ := by
    refine ⟨?_, ⟨⟨2 ^ 126, 0, 0⟩, List.mem_cons_self _ _, rfl⟩,
      ⟨⟨2 ^ 126, 0, 0⟩, List.mem_cons_self _ _, rfl⟩,
      ⟨⟨2 ^ 126, 0, 0⟩, List.mem_cons_self _ _, rfl⟩,
      ⟨⟨2 ^ 127, 1, 1⟩, List.mem_cons_of_mem _ (List.mem_cons_self _ _), rfl⟩,
      ⟨⟨2 ^ 127, 1, 1⟩, List.mem_cons_of_mem _ (List.mem_cons_self _ _), rfl⟩,
      ⟨⟨2 ^ 127, 1, 1⟩, List.mem_cons_of_mem _ (List.mem_cons_self _ _), rfl⟩⟩
    intro p hp
    simp only [List.mem_cons, List.mem_singleton, List.not_mem_nil, or_false] at hp
    rcases hp with rfl | rfl <;> norm_num
  obtain ⟨hmin, hmax⟩ := Bounds_eq_of_IsBoundingBox _ _ _ hfin hbox
  obtain ⟨hHi, hLo⟩ := bounds_checks_of_box _ _ _ hfin hbox
    (by norm_num) (by norm_num) (by norm_num)
  have h := SetPositionsMetersInternalBinary32_eq 2 [⟨2 ^ 126, 0, 0⟩, ⟨2 ^ 127, 1, 1⟩]
    (List.length_cons _ _) (by rw [hmax]; exact hHi) (by rw [hmin]; exact hLo)
  rw [hmax, hmin] at h
  have hX : (FFloat.Finite MetersToCentimeters).Mul (FFloat.Finite (2 ^ 126)) =
      FFloat.Infinity false := by
    unfold MetersToCentimeters
    have hr : RoundBinary32 (100 * 2 ^ 126) = 100 * 2 ^ 126 := by
      rw [RoundBinary32_eval _ 109 13107200 (by norm_num) (by norm_num) (by norm_num)
        (by norm_num) (by norm_num)]
      norm_num
    have hneg : ¬ ((100 : ℚ) * 2 ^ 126 < 0) := by norm_num
    rw [FFloat.Mul_Finite]
    unfold FFloat.OfReal
    rw [hr, abs_of_pos (by norm_num), if_pos (by norm_num), decide_eq_false hneg]
  have hA : ∀ A : FPackedPositionsBinary32,
      A.PosMinCM.X = FFloat.Infinity false →
      A.PosMinCM.X = FFloat.Infinity false ∧ ∀ Q, DecodePositionBinary32 A Q = none :=
    fun A hA => ⟨hA, fun Q => DecodePositionBinary32_of_infinite A Q false hA⟩
  refine ⟨_, h, hA _ ?_⟩
  simp only [FVector3fBinary32.smul, FVector3fBinary32.ofVector]
  exact hX

/-- The decoding on finite stored values. -/
theorem DecodePositionBinary32_of_finite (A : FPackedPositionsBinary32) (Q : FPackedPos)
    (mx my mz sx sy sz : ℚ)
    (hmin : A.PosMinCM = ⟨FFloat.Finite mx, FFloat.Finite my, FFloat.Finite mz⟩)
    (hscale : A.PosScaleCM = ⟨FFloat.Finite sx, FFloat.Finite sy, FFloat.Finite sz⟩) :
    DecodePositionBinary32 A Q =
      some ⟨mx + sx * (Q.FieldX : ℚ), my + sy * (Q.FieldY : ℚ), mz + sz * (Q.FieldZ : ℚ)⟩ := by
  unfold DecodePositionBinary32
  rw [hmin, hscale]

/-- For two splats at `X = 0` and `X = 2 ^ (-149)` metres (the smallest positive float)
both checks pass, but the scale `100 * 2 ^ (-149) / 2047` underflows to zero: the splat
at the maximum has field value 2047 and decodes to `X = 0`, which is a whole extent
(`100 * 2 ^ (-149)` centimetres) away from `100 * p`. -/
theorem PosScaleCM_underflow_example :
    ∃ A Q D,
      SetPositionsMetersInternalBinary32 2 [⟨0, 0, 0⟩, ⟨2 ^ (-149 : ℤ), 1, 1⟩] = some A ∧
      A.PosScaleCM.X = FFloat.Finite 0 ∧
      A.Positions[1]? = some (some Q) ∧ Q.FieldX = 2047 ∧
      DecodePositionBinary32 A Q = some D ∧ D.X = 0 ∧
      100 * ((2 : ℚ) ^ (-149 : ℤ) - 0) / 2047 + |100 * (0 : ℚ)| / 2 ^ 24 <
        |D.X - 100 * 2 ^ (-149 : ℤ)| := by
  have hfin : ∀ p ∈ ([⟨0, 0, 0⟩, ⟨2 ^ (-149 : ℤ), 1, 1⟩] : List FVector3f), p.IsFinite := by
    intro p hp
    simp only [List.mem_cons, List.mem_singleton, List.not_mem_nil, or_false] at hp
    rcases hp with rfl | rfl <;>
      norm_num [FVector3f.IsFinite, IsFiniteFloat, FLT_LOWEST, FLT_MAX]
  have hbox : IsBoundingBox [⟨0, 0, 0⟩, ⟨2 ^ (-149 : ℤ), 1, 1⟩]
      ⟨0, 0, 0⟩ ⟨2 ^ (-149 : ℤ), 1, 1⟩ := by
    refine ⟨?_, ⟨⟨0, 0, 0⟩, List.mem_cons_self _ _, rfl⟩,
      ⟨⟨0, 0, 0⟩, List.mem_cons_self _ _, rfl⟩,
      ⟨⟨0, 0, 0⟩, List.mem_cons_self _ _, rfl⟩,
      ⟨⟨2 ^ (-149 : ℤ), 1, 1⟩, List.mem_cons_of_mem _ (List.mem_cons_self _ _), rfl⟩,
      ⟨⟨2 ^ (-149 : ℤ), 1, 1⟩, List.mem_cons_of_mem _ (List.mem_cons_self _ _), rfl⟩,
      ⟨⟨2 ^ (-149 : ℤ), 1, 1⟩, List.mem_cons_of_mem _ (List.mem_cons_self _ _), rfl⟩⟩
    intro p hp
    simp only [List.mem_cons, List.mem_singleton, List.not_mem_nil, or_false] at hp
    rcases hp with rfl | rfl <;> norm_num
  obtain ⟨hmin, hmax⟩ := Bounds_eq_of_IsBoundingBox _ _ _ hfin hbox
  obtain ⟨hHi, hLo⟩ := bounds_checks_of_box _ _ _ hfin hbox
    (by norm_num) (by norm_num) (by norm_num)
  have h := SetPositionsMetersInternalBinary32_eq 2 [⟨0, 0, 0⟩, ⟨2 ^ (-149 : ℤ), 1, 1⟩]
    (List.length_cons _ _) (by rw [hmax]; exact hHi) (by rw [hmin]; exact hLo)
  rw [hmax, hmin] at h
  -- the normalized coordinates of the second splat
  obtain ⟨-, -, enx, nx0, nx1, -, nxhi⟩ := normalized_axis_binary32_value
    ((2 : ℚ) ^ (-149 : ℤ)) 0 (2 ^ (-149 : ℤ)) (by norm_num) (le_refl _) (by norm_num)
    (by unfold FLT_MAX; norm_num)
  obtain ⟨-, -, eny, ny0, ny1, -, -⟩ := normalized_axis_binary32_value
    (1 : ℚ) 0 1 (by norm_num) (le_refl _) (by norm_num) (by unfold FLT_MAX; norm_num)
  obtain ⟨Q, hQ, -, -, -, -, qx1, -, -, -, -⟩ :=
    FPackedPos.createBinary32_of_unit _ _ _ nx0 nx1 ny0 ny1 ny0 ny1
  -- the stored offset
  have hm0 : (FFloat.Finite MetersToCentimeters).Mul (FFloat.Finite 0) = FFloat.Finite 0 := by
    rw [FFloat.Mul_Finite, mul_zero, FFloat.OfReal_zero]
  -- the stored scale on X
  have hsub : (FFloat.Finite ((2 : ℚ) ^ (-149 : ℤ))).Sub (FFloat.Finite 0) =
      FFloat.Finite (2 ^ (-149 : ℤ)) := by
    rw [FFloat.Sub_Finite, sub_zero, FFloat.OfReal_of_nonneg_le _ (by norm_num) (by unfold FLT_MAX; norm_num),
      RoundBinary32_min_subnormal]
  have hmul : (FFloat.Finite MetersToCentimeters).Mul (FFloat.Finite ((2 : ℚ) ^ (-149 : ℤ))) =
      FFloat.Finite (100 * 2 ^ (-149 : ℤ)) := by
    unfold MetersToCentimeters
    rw [FFloat.Mul_Finite, FFloat.OfReal_of_nonneg_le _ (by norm_num) (by unfold FLT_MAX; norm_num),
      RoundBinary32_eq _ (-149) 100
        (Binary32UlpExponent_of_subnormal _ (by norm_num)
          (by rw [abs_of_pos (by norm_num)]; norm_num)) (by norm_num)]
    norm_num
  have hdiv : (FFloat.Finite (100 * (2 : ℚ) ^ (-149 : ℤ))).Div (FFloat.Finite 2047) =
      FFloat.Finite 0 := by
    rw [FFloat.Div_Finite _ _ (by norm_num),
      FFloat.OfReal_of_nonneg_le _ (by norm_num) (by unfold FLT_MAX; norm_num),
      RoundBinary32_eq _ (-149) 0
        (Binary32UlpExponent_of_subnormal _ (by norm_num)
          (by rw [abs_of_pos (by norm_num)]; norm_num))
        (by rw [abs_of_pos (by norm_num)]; norm_num)]
    norm_num
  -- the stored scale on Y and Z
  have hsY := (axis_round_trip_binary32 0 0 1 2047 0 (le_refl _) (by norm_num)
    (by rw [abs_zero]; norm_num) (by rw [abs_one]; norm_num) (by norm_num) (by norm_num)
    (by norm_num) (by simp [RoundBinary32_zero])).2.1
  have hsZ := (axis_round_trip_binary32 0 0 1 1023 0 (le_refl _) (by norm_num)
    (by rw [abs_zero]; norm_num) (by rw [abs_one]; norm_num) (by norm_num) (by norm_num)
    (by norm_num) (by simp [RoundBinary32_zero])).2.1
  have hMX : FPackedPos.MAX.X = 2047 := by
    norm_num [FPackedPos.MAX, FPackedPos.MAX_UNORM_11]
  have hMY : FPackedPos.MAX.Y = 2047 := by
    norm_num [FPackedPos.MAX, FPackedPos.MAX_UNORM_11]
  have hMZ : FPackedPos.MAX.Z = 1023 := by
    norm_num [FPackedPos.MAX, FPackedPos.MAX_UNORM_10]
  refine ⟨_, Q, ⟨0 + 0 * (Q.FieldX : ℚ),
    0 + RoundBinary32 (RoundBinary32 (100 * RoundBinary32 (1 - 0)) / 2047) * (Q.FieldY : ℚ),
    0 + RoundBinary32 (RoundBinary32 (100 * RoundBinary32 (1 - 0)) / 1023) * (Q.FieldZ : ℚ)⟩,
    h, ?_, ?_, qx1 (nxhi rfl), ?_, ?_, ?_⟩
  · simp only [FVector3fBinary32.div, FVector3fBinary32.smul, FVector3fBinary32.sub,
      FVector3fBinary32.ofVector]
    rw [hMX, hsub, hmul, hdiv]
  · simp only [List.map_cons, List.map_nil, List.getElem?_cons_succ, List.getElem?_cons_zero]
    unfold FPackedPos.ofVectorBinary32 NormalizedBinary32 FVector3fBinary32.div
      FVector3fBinary32.sub FVector3fBinary32.ofVector
    simp only
    rw [enx, eny]
    exact congrArg some hQ
  · apply DecodePositionBinary32_of_finite
    · simp only [FVector3fBinary32.smul, FVector3fBinary32.ofVector]
      rw [hm0]
    · simp only [FVector3fBinary32.div, FVector3fBinary32.smul, FVector3fBinary32.sub,
        FVector3fBinary32.ofVector]
      rw [hMX, hMY, hMZ, hsub, hmul, hdiv, hsY, hsZ]
  · show (0 : ℚ) + 0 * (Q.FieldX : ℚ) = 0
    rw [zero_mul, add_zero]
  · have hp : (0 : ℚ) < 100 * 2 ^ (-149 : ℤ) := by norm_num
    show 100 * ((2 : ℚ) ^ (-149 : ℤ) - 0) / 2047 + |100 * (0 : ℚ)| / 2 ^ 24 <
      |(0 : ℚ) + 0 * (Q.FieldX : ℚ) - 100 * 2 ^ (-149 : ℤ)|
    rw [zero_mul, add_zero, zero_sub, abs_neg, abs_of_pos hp]
    norm_num

/-! ## The draw source while `WaitCopy` runs: claim C12 -/

/-- The method `WaitCopy` as a whole is its two statements in sequence. -/
theorem WaitCopy_eq_statements (B B1 : FMultithreadedSortingBuffers) (Begin End1 : Nat)
    (h : B.WaitCopy = some (B1, Begin, End1)) :
    B1 = B.WaitCopy_SelectFirst.WaitCopy_Swap ∧
      B.WaitCopy_Observable =
        some [B, B.WaitCopy_SelectFirst, B.WaitCopy_SelectFirst.WaitCopy_Swap] := by
  obtain ⟨IA, IB, CD, DS, DC, CS, Fl⟩ := B
  unfold FMultithreadedSortingBuffers.WaitCopy at h
  unfold FMultithreadedSortingBuffers.WaitCopy_Observable
  cases Fl with
  | true => simp at h
  | false =>
    simp only [Bool.false_eq_true, if_false] at h ⊢
    split at h
    · cases h
    · simp only [Option.some.injEq, Prod.mk.injEq] at h
      obtain ⟨h1, -, -⟩ := h
      subst h1
      cases DS <;> cases CD <;>
        simp [FMultithreadedSortingBuffers.WaitCopy_SelectFirst,
          FMultithreadedSortingBuffers.WaitCopy_Swap]

/-- C12, the code at the failing input: during the first `WaitCopy` of an instance,
between its two statements, `DrawSrc` points at buffer A although no copy has completed
or even been enqueued, so `IsGPUBufferReady` is true, `NeedsSort` is false and
`GetIndicesSRV` hands out buffer A; during the second `WaitCopy`, between the two
statements, `DrawSrc` points at buffer B, into which no copy has completed. -/
theorem draw_source_exposed_inside_WaitCopy :
    (∃ S Seen, FSortingSystem.Run [EEvent.TryEnqueueSort] (FSortingSystem.Initial [⟨0, 0⟩]) =
        some S ∧
      S.Task = ETaskPhase.Constructed ∧ S.CopiedInto = [] ∧ S.Queue = [] ∧
      S.Buffers.WaitCopy_Observable = some Seen ∧
      S.Buffers.WaitCopy_SelectFirst ∈ Seen ∧
      S.Buffers.WaitCopy_SelectFirst.DrawSrc = some EBuffer.IdxDistA ∧
      S.Buffers.WaitCopy_SelectFirst.IsGPUBufferReady = true ∧
      S.Buffers.WaitCopy_SelectFirst.GetIndicesSRV = some EBuffer.IdxDistA ∧
      NeedsSort false (some S.Buffers.WaitCopy_SelectFirst) = some false ∧
      EBuffer.IdxDistA ∉ S.CopiedInto) ∧
    (∃ S Seen, FSortingSystem.Run (ExampleCycle [⟨1, 7⟩] ++ [EEvent.TryEnqueueSort])
        (FSortingSystem.Initial [⟨0, 0⟩]) = some S ∧
      S.Task = ETaskPhase.Constructed ∧ S.CopiedInto = [EBuffer.IdxDistA] ∧
      S.Buffers.WaitCopy_Observable = some Seen ∧
      S.Buffers.WaitCopy_SelectFirst ∈ Seen ∧
      S.Buffers.WaitCopy_SelectFirst.DrawSrc = some EBuffer.IdxDistB ∧
      S.Buffers.WaitCopy_SelectFirst.GetIndicesSRV = some EBuffer.IdxDistB ∧
      EBuffer.IdxDistB ∉ S.CopiedInto) :=
  ⟨⟨_, _, rfl, rfl, rfl, rfl, rfl, by decide, rfl, rfl, rfl, rfl, by decide⟩,
    ⟨_, _, rfl, rfl, rfl, rfl, by decide, rfl, rfl, by decide⟩⟩

end PICO.Splat
